import Mathlib

/-!
SYAC release-policy engine: flow resolver, version forecaster, tag planner.

A shallow embedding of the Go sources

* `internal/docker/utils.go`   (`cleanTag`, `validateTag`, `dedupRefs`, `getenv`)
* `internal/docker/plan.go`    (`PlanBuild`)
* `internal/docker/options.go` (`BuildOptionsFromContext`)
* `internal/runtime/flow.go`   (`ResolveFlow`)
* `internal/runtime/context.go` (`Context`, `LoadContext`, `ResolveBumpFromMR`, the forecast
  step of `PrintSummary`)
* `internal/version/version.go` (`Version`, `Parse`, `Increment`, `ForecastNext`, ...)
* `pkg/gitlab/tags.go`         (`GetLatestTag`, `GetNextVersion`)
* `pkg/gitlab/mrs_bump.go`     (`ParseVersionBump`, `GetVersionBump`)

Conventions.

* A Go `string` is a sequence of bytes; it is modelled as a `List Nat` whose
  elements are the byte values.  `str` turns a Lean string literal into its
  UTF-8 bytes.
* Go `int` is a 64-bit two's complement integer; it is modelled as an `Int`
  with `wrapInt64` applied wherever the Go code does arithmetic.
* The process environment read through `os.Getenv` is an explicit argument
  `env : GoString → GoString` (an unset variable reads as the empty string).
* The Go standard library functions whose result on non-ASCII text depends on
  the Unicode case tables (`strings.ToLower`, `strings.EqualFold`) are exact
  on ASCII text and defer to the fields of `Unicode` otherwise.
-/

namespace Syac

/-! ## Go strings -/

/-- A Go string: a sequence of bytes. -/
abbrev GoString := List Nat

/-- UTF-8 encoding of one code point. -/
def utf8EncodeRune (c : Nat) : List Nat :=
  if c < 0x80 then [c]
  else if c < 0x800 then [0xC0 + c / 64, 0x80 + c % 64]
  else if c < 0x10000 then [0xE0 + c / 4096, 0x80 + c / 64 % 64, 0x80 + c % 64]
  else [0xF0 + c / 262144, 0x80 + c / 4096 % 64, 0x80 + c / 64 % 64, 0x80 + c % 64]

/-- The bytes of a string literal. -/
def str (s : String) : GoString :=
  s.toList.flatMap fun c => utf8EncodeRune c.toNat

/-- The tables of Go package `unicode`, as far as the standard library
functions used here consult them on text that is not pure ASCII. -/
structure Unicode where
  /-- `strings.ToLower s` for an `s` that holds a byte `≥ 0x80`. -/
  toLower : GoString → GoString
  /-- `strings.EqualFold s t` when `s` or `t` holds a byte `≥ 0x80`. -/
  equalFold : GoString → GoString → Bool

/-- All bytes are below `utf8.RuneSelf`. -/
def isASCII (s : GoString) : Bool := s.all fun c => decide (c < 0x80)

/-- Lower-case one ASCII byte. -/
def asciiLowerByte (c : Nat) : Nat :=
  if 65 ≤ c ∧ c ≤ 90 then c + 32 else c

/-- Go `strings.ToLower`. -/
def ToLower (U : Unicode) (s : GoString) : GoString :=
  if isASCII s then s.map asciiLowerByte else U.toLower s

/-- Go `strings.EqualFold`. -/
def EqualFold (U : Unicode) (s t : GoString) : Bool :=
  if isASCII s && isASCII t then
    decide (s.map asciiLowerByte = t.map asciiLowerByte)
  else U.equalFold s t

/-- The UTF-8 encodings of the code points for which `unicode.IsSpace` holds:
`\t \n \v \f \r`, space, U+0085, U+00A0, U+1680, U+2000..U+200A, U+2028,
U+2029, U+202F, U+205F, U+3000. -/
def spaceEncodings : List (List Nat) :=
  [[9], [10], [11], [12], [13], [32], [0xC2, 0x85], [0xC2, 0xA0], [0xE1, 0x9A, 0x80],
   [0xE2, 0x80, 0x80], [0xE2, 0x80, 0x81], [0xE2, 0x80, 0x82], [0xE2, 0x80, 0x83],
   [0xE2, 0x80, 0x84], [0xE2, 0x80, 0x85], [0xE2, 0x80, 0x86], [0xE2, 0x80, 0x87],
   [0xE2, 0x80, 0x88], [0xE2, 0x80, 0x89], [0xE2, 0x80, 0x8A], [0xE2, 0x80, 0xA8],
   [0xE2, 0x80, 0xA9], [0xE2, 0x80, 0xAF], [0xE2, 0x81, 0x9F], [0xE3, 0x80, 0x80]]

/-- Number of bytes of the white-space rune that `s` starts with (0 if none). -/
def leadingSpaceWidth (s : GoString) : Nat :=
  match spaceEncodings.find? (fun e => e.isPrefixOf s) with
  | some e => e.length
  | none => 0

/-- Go `strings.TrimLeftFunc s unicode.IsSpace`; `fuel` bounds the number of runes removed. -/
def trimLeftSpace : Nat → GoString → GoString
  | 0, s => s
  | fuel + 1, s =>
    if leadingSpaceWidth s = 0 then s else trimLeftSpace fuel (s.drop (leadingSpaceWidth s))

/-- Go `strings.TrimSpace`: white space is removed at the left end, then at
the right end (the right end is handled on the reversed byte sequence). -/
def TrimSpace (s : GoString) : GoString :=
  let l := trimLeftSpace s.length s
  (trimRightSpaceRev l.length l.reverse).reverse
where
  /-- Remove leading reversed white-space encodings from a reversed string. -/
  trimRightSpaceRev : Nat → GoString → GoString
    | 0, s => s
    | fuel + 1, s =>
      match spaceEncodings.find? (fun e => e.reverse.isPrefixOf s) with
      | some e => trimRightSpaceRev fuel (s.drop e.length)
      | none => s

/-- Go `strings.TrimRight s "/"`. -/
def TrimRightSlash (s : GoString) : GoString :=
  (s.reverse.dropWhile fun c => c == 47).reverse

/-- Go `strings.HasPrefix`. -/
def HasPrefix (s p : GoString) : Bool := p.isPrefixOf s

/-- The ASCII part of the tables alone: text that is not pure ASCII is left
as it is by `toLower` and folds only with itself. -/
def Unicode.ascii : Unicode where
  toLower := fun s => s
  equalFold := fun s t => decide (s = t)

/-! ## internal/docker/utils.go -/

/-- Go `os.Getenv` reads the process environment: an unset variable is `""`. -/
abbrev Env := GoString → GoString

/-- Source: `getenv(k, def)`. -/
def getenv (env : Env) (k dflt : GoString) : GoString :=
  if env k ≠ [] then env k else dflt

/-- Go `strings.ReplaceAll s from to` for one-byte `from` and `to`. -/
def replaceByte (old new : Nat) (s : GoString) : GoString :=
  s.map fun c => if c = old then new else c

/-- Go `strings.Contains s "--"`. -/
def containsDoubleHyphen : GoString → Bool
  | 45 :: 45 :: _ => true
  | _ :: rest => containsDoubleHyphen rest
  | [] => false

/-- Go `strings.ReplaceAll s "--" "-"`: the non-overlapping occurrences, left to right. -/
def replaceDoubleHyphen : GoString → GoString
  | 45 :: 45 :: rest => 45 :: replaceDoubleHyphen rest
  | c :: rest => c :: replaceDoubleHyphen rest
  | [] => []

/-- The loop `for strings.Contains(s, "--") { s = strings.ReplaceAll(s, "--", "-") }`,
run for at most `fuel` iterations. -/
def collapseLoop : Nat → GoString → GoString
  | 0, s => s
  | fuel + 1, s =>
    if containsDoubleHyphen s then collapseLoop fuel (replaceDoubleHyphen s) else s

/-- The collapse loop of `cleanTag`; every iteration shortens `s`, so `s.length`
iterations are enough (`collapseHyphens_done`). -/
def collapseHyphens (s : GoString) : GoString := collapseLoop s.length s

/-- Source: `cleanTag`. -/
def cleanTag (U : Unicode) (s : GoString) : GoString :=
  let s := ToLower U (TrimSpace s)
  if s = [] then []
  else
    let s := replaceByte 47 45 s
    let s := replaceByte 32 45 s
    let s := collapseHyphens s
    if s.length > 128 then s.take 128 else s

/-- A byte of the class `[a-z0-9_.-]`. -/
def tagByte (c : Nat) : Bool :=
  (97 ≤ c && c ≤ 122) || (48 ≤ c && c ≤ 57) || c == 95 || c == 46 || c == 45

/-- Source: `validateTag`, a match of `^[a-z0-9_.-]{1,128}$`. -/
def validateTag (tag : GoString) : Bool :=
  decide (1 ≤ tag.length) && decide (tag.length ≤ 128) && tag.all tagByte

/-- The loop of `dedupRefs`: `seen` is the set of values met so far, `out`
the slice built so far. -/
def dedupLoop : List GoString → List GoString → List GoString → List GoString
  | _, out, [] => out
  | seen, out, v :: rest =>
    if v ∈ seen then dedupLoop seen out rest
    else dedupLoop (v :: seen) (out ++ [v]) rest

/-- Source: `dedupRefs`. -/
def dedupRefs (l : List GoString) : List GoString := dedupLoop [] [] l

/-! ## internal/version/version.go -/

/-- Source: `type VersionType string`. -/
abbrev VersionType := GoString

/-- Source: constant `Patch`. -/
def Patch : VersionType := str "Patch"
/-- Source: constant `Minor`. -/
def Minor : VersionType := str "Minor"
/-- Source: constant `Major`. -/
def Major : VersionType := str "Major"

/-- Go `int` arithmetic wraps around in 64-bit two's complement. -/
def wrapInt64 (x : Int) : Int := (x + 2 ^ 63) % 2 ^ 64 - 2 ^ 63

/-- Source: `type Version struct`. -/
structure Version where
  Major : Int
  Minor : Int
  Patch : Int
  deriving DecidableEq, Repr

/-- Decimal digits of a natural number, most significant first; `fuel` bounds
the number of digits. -/
def decimalDigits : Nat → Nat → List Nat → List Nat
  | 0, _, acc => acc
  | fuel + 1, n, acc =>
    if n < 10 then (48 + n) :: acc
    else decimalDigits fuel (n / 10) ((48 + n % 10) :: acc)

/-- Go `%d` of a non-negative number. -/
def formatNat (n : Nat) : GoString := decimalDigits (n + 1) n []

/-- Go `%d`. -/
def formatInt (x : Int) : GoString :=
  if x < 0 then 45 :: formatNat x.natAbs else formatNat x.natAbs

/-- Source: `Version.String`. -/
def Version.String (v : Version) : GoString :=
  formatInt v.Major ++ [46] ++ formatInt v.Minor ++ [46] ++ formatInt v.Patch

/-- Go `strings.Split s "."`. -/
def splitDot : GoString → List GoString
  | [] => [[]]
  | c :: rest =>
    if c = 46 then [] :: splitDot rest
    else
      match splitDot rest with
      | [] => [[c]]
      | p :: ps => (c :: p) :: ps

/-- Value of a run of decimal digits, `none` if a byte is no digit. -/
def digitsValue : Nat → GoString → Option Nat
  | acc, [] => some acc
  | acc, c :: rest =>
    if 48 ≤ c ∧ c ≤ 57 then digitsValue (acc * 10 + (c - 48)) rest else none

/-- Go `strconv.Atoi` on a 64-bit platform: an optional sign, one or more
decimal digits, a value in the range of `int`; anything else is an error. -/
def Atoi (s : GoString) : Option Int :=
  let neg := s.head? = some 45
  let body := if s.head? = some 45 ∨ s.head? = some 43 then s.tail else s
  if body = [] then none
  else
    match digitsValue 0 body with
    | none => none
    | some n =>
      if neg then (if n ≤ 2 ^ 63 then some (-(n : Int)) else none)
      else (if n < 2 ^ 63 then some (n : Int) else none)

/-- Source: `Parse`; `none` stands for the returned error. -/
def Parse (versionStr : GoString) : Option Version :=
  match splitDot versionStr with
  | [a, b, c] =>
    match Atoi a with
    | none => none
    | some major =>
      match Atoi b with
      | none => none
      | some minor =>
        match Atoi c with
        | none => none
        | some patch => some { Major := major, Minor := minor, Patch := patch }
  | _ => none

/-- Source: `Version.Increment`. -/
def Version.Increment (v : Version) (bump : VersionType) : Version :=
  if bump = Syac.Major then { Major := wrapInt64 (v.Major + 1), Minor := 0, Patch := 0 }
  else if bump = Syac.Minor then { Major := v.Major, Minor := wrapInt64 (v.Minor + 1), Patch := 0 }
  else if bump = Syac.Patch then
    { Major := v.Major, Minor := v.Minor, Patch := wrapInt64 (v.Patch + 1) }
  else v

/-- Source: `Version.LessThan`. -/
def Version.LessThan (v other : Version) : Bool :=
  if v.Major ≠ other.Major then decide (v.Major < other.Major)
  else if v.Minor ≠ other.Minor then decide (v.Minor < other.Minor)
  else decide (v.Patch < other.Patch)

/-- Source: `ForecastNext`; `none` stands for the returned error. -/
def ForecastNext (latestTag : GoString) (bump : VersionType) : Option GoString :=
  let latestTag := TrimSpace latestTag
  let hasV := HasPrefix latestTag (str "v")
  let core := if hasV then latestTag.drop 1 else latestTag
  if core = [] then
    let base := ({ Major := 0, Minor := 0, Patch := 0 } : Version).Increment bump
    if hasV then some (str "v" ++ base.String) else some base.String
  else
    match Parse core with
    | none => none
    | some v =>
      let next := (v.Increment bump).String
      if hasV then some (str "v" ++ next) else some next

/-- Source: `ForecastNextRC`; `none` stands for the returned error. -/
def ForecastNextRC (latestTag : GoString) (bump : VersionType) (suffix : GoString) :
    Option GoString :=
  match ForecastNext latestTag bump with
  | none => none
  | some next =>
    let suffix := if suffix = [] then str "rc.1" else suffix
    some (next ++ [45] ++ suffix)

/-! ## pkg/gitlab/tags.go -/

/-- Source: `tagsService.GetLatestTag`.  The argument is what `ListProjectTags`
gave: `none` for an error, else the tag names.  The error result is always `nil`
and is left out. -/
def GetLatestTag (tags : Option (List GoString)) : Version :=
  match tags with
  | none => { Major := 0, Minor := 0, Patch := 0 }
  | some names =>
    let parsed := names.filterMap Parse
    if parsed.length = 0 then { Major := 0, Minor := 0, Patch := 0 }
    else
      let sorted := parsed.insertionSort fun a b => b.LessThan a = false
      sorted.getLast?.getD { Major := 0, Minor := 0, Patch := 0 }

/-- Source: `tagsService.GetNextVersion` (current, next); the error result is always `nil`. -/
def GetNextVersion (tags : Option (List GoString)) (bump : VersionType) : Version × Version :=
  let current := GetLatestTag tags
  (current, current.Increment bump)

/-! ## internal/runtime/flow.go and context.go -/

/-- Source: `type Flow string`. -/
abbrev Flow := GoString

/-- Source: constant `FlowAuto`. -/
def FlowAuto : Flow := str "auto"
/-- Source: constant `FlowFeature`. -/
def FlowFeature : Flow := str "feature"
/-- Source: constant `FlowMR`. -/
def FlowMR : Flow := str "mr"
/-- Source: constant `FlowDefault`. -/
def FlowDefault : Flow := str "default"
/-- Source: constant `FlowRelease`. -/
def FlowRelease : Flow := str "release"

/-- Source: `type Context struct`. -/
structure Context where
  Source : GoString
  RefName : GoString
  EffectiveRef : GoString
  SHA : GoString
  ShortSHA : GoString
  MRID : GoString
  Tag : GoString
  ProjectPath : GoString
  RegistryImage : GoString
  DefaultBranch : GoString
  Sprint : GoString
  ApplicationName : GoString
  MergeRequestTargetBranch : GoString
  ProjectID : GoString
  IsMergeRequest : Bool
  IsTag : Bool
  IsFeatureBranch : Bool
  FeatureBranchPrefix : GoString
  IsDefaultBranch : Bool
  DryRun : Bool
  FeatureTag : GoString
  ImageRef : GoString
  BumpType : VersionType
  NextVersion : GoString
  NextRCVersion : GoString
  deriving DecidableEq

/-- Source: `ResolveFlow`. -/
def ResolveFlow (ctx : Context) (forced : Flow) : Flow :=
  if forced ≠ FlowAuto then forced
  else if ctx.IsTag then FlowRelease
  else if ctx.IsMergeRequest then FlowMR
  else if ctx.IsDefaultBranch then FlowDefault
  else if ctx.IsFeatureBranch then FlowFeature
  else FlowDefault

/-- Source: the "Tags + Forecast" step of `Context.PrintSummary`, which fills
`NextVersion` and `NextRCVersion`.  `client` is `none` for a nil client, else
what `ListProjectTags` gives. -/
def forecastStep (c : Context) (client : Option (Option (List GoString))) : Context :=
  match client with
  | none => c
  | some tags =>
    let (current, next) := GetNextVersion tags c.BumpType
    let latestTagStr := current.String
    let c := { c with NextVersion := next.String }
    if (c.IsMergeRequest || c.IsDefaultBranch) && c.ShortSHA ≠ [] then
      match ForecastNextRC latestTagStr c.BumpType c.ShortSHA with
      | some rc => { c with NextRCVersion := rc }
      | none => c
    else c

/-! ## internal/docker/plan.go -/

/-- Source: `type Plan struct`. -/
structure Plan where
  Refs : List GoString
  Push : Bool
  deriving DecidableEq

/-- The value of `base` in `PlanBuild`. -/
def planBase (ctx : Context) : GoString :=
  TrimRightSlash (TrimSpace ctx.RegistryImage) ++ str "/" ++ TrimSpace ctx.ApplicationName

/-- The closure `add` of `PlanBuild`: `out` with the reference for `tag`
appended, when the cleaned tag is non-empty and valid. -/
def add (U : Unicode) (base : GoString) (out : List GoString) (tag : GoString) : List GoString :=
  let tag := cleanTag U tag
  if tag = [] ∨ validateTag tag = false then out
  else out ++ [base ++ str ":" ++ tag]

/-- The `switch flow` of `PlanBuild`: the value of `refs` after it. -/
def planRefs (U : Unicode) (env : Env) (ctx : Context) (flow : Flow) (base : GoString) :
    List GoString :=
  let refs : List GoString := []
  if flow = FlowFeature then
    let refs := add U base refs ctx.ShortSHA
    if env (str "SYAC_LATEST_ON_FEATURE") = str "true" then add U base refs (str "latest")
    else refs
  else if flow = FlowMR then
    let refs := add U base refs ctx.ShortSHA
    add U base refs ctx.NextRCVersion
  else if flow = FlowDefault then
    let refs := add U base refs ctx.ShortSHA
    let refs := add U base refs ctx.NextRCVersion
    let refs := add U base refs ctx.DefaultBranch
    if env (str "SYAC_LATEST_ON_DEFAULT") = str "true" then add U base refs (str "latest")
    else refs
  else if flow = FlowRelease then
    let refs := add U base refs ctx.Tag
    if env (str "SYAC_TAG_LATEST") = str "true" then add U base refs (str "latest")
    else refs
  else
    let refs := add U base refs ctx.ShortSHA
    let refs := add U base refs ctx.NextRCVersion
    if ctx.IsDefaultBranch && ctx.DefaultBranch ≠ [] then add U base refs ctx.DefaultBranch
    else refs

/-- Source: `PlanBuild`. -/
def PlanBuild (U : Unicode) (env : Env) (ctx : Context) (flow : Flow) : Plan :=
  let baseImg := TrimSpace ctx.RegistryImage
  let app := TrimSpace ctx.ApplicationName
  if baseImg = [] ∨ app = [] then { Refs := [], Push := false }
  else
    let base := TrimRightSlash baseImg ++ str "/" ++ app
    let refs := dedupRefs (planRefs U env ctx flow base)
    let push :=
      if flow = FlowFeature ∧ EqualFold U (TrimSpace ctx.Source) (str "push") = true then
        decide (getenv env (str "PUSH_FEATURE") [] = str "true")
      else true
    { Refs := refs, Push := push }

/-- A context with every text field empty and every flag false. -/
def emptyContext : Context :=
  { Source := [], RefName := [], EffectiveRef := [], SHA := [], ShortSHA := [], MRID := [],
    Tag := [], ProjectPath := [], RegistryImage := [], DefaultBranch := [], Sprint := [],
    ApplicationName := [], MergeRequestTargetBranch := [], ProjectID := [],
    IsMergeRequest := false, IsTag := false, IsFeatureBranch := false,
    FeatureBranchPrefix := [], IsDefaultBranch := false, DryRun := false, FeatureTag := [],
    ImageRef := [], BumpType := Patch, NextVersion := [], NextRCVersion := [] }

/-- The environment with no variable set. -/
def emptyEnv : Env := fun _ => []

/-- The environment with the one variable `k` set to `v`. -/
def envWith (k v : GoString) : Env := fun x => if x = k then v else []

/-- The run of the specification's scenario "Default branch, no prior tags". -/
def scenarioDefault : Context :=
  { emptyContext with
    Source := str "push", RefName := str "main", EffectiveRef := str "main",
    ShortSHA := str "abc12345", DefaultBranch := str "main",
    RegistryImage := str "registry.example.com/group", ApplicationName := str "svc",
    IsDefaultBranch := true, FeatureBranchPrefix := str "gmarm-", BumpType := Patch }

/-- The classifier as the specification words it: a forced flow other than
`Auto` wins, else the context facts are tried in the fixed order tag, merge
request, default branch, feature branch, with `Default` as the fallback. -/
def resolveFlowSpec (ctx : Context) (forced : Flow) : Flow :=
  if forced = FlowAuto then
    match ctx.IsTag, ctx.IsMergeRequest, ctx.IsDefaultBranch, ctx.IsFeatureBranch with
    | true, _, _, _ => FlowRelease
    | false, true, _, _ => FlowMR
    | false, false, true, _ => FlowDefault
    | false, false, false, true => FlowFeature
    | false, false, false, false => FlowDefault
  else forced

/-- The tag segment of a reference: the text after its last `:`. -/
def tagSegment (ref : GoString) : GoString :=
  (ref.reverse.takeWhile fun c => c != 58).reverse

/-- The reference `add` appends for a candidate tag, `none` when the candidate
is skipped because its cleaned form is empty or invalid. -/
def refOf (U : Unicode) (base tag : GoString) : Option GoString :=
  if cleanTag U tag = [] ∨ validateTag (cleanTag U tag) = false then none
  else some (base ++ str ":" ++ cleanTag U tag)

/-- The tag `latest` when the option variable `k` is enabled (reads `true`). -/
def latestIf (env : Env) (k : GoString) : List GoString :=
  if env k = str "true" then [str "latest"] else []

/-- The candidate tags of a flow in table order, as the specification lists them. -/
def candidateTags (env : Env) (ctx : Context) (flow : Flow) : List GoString :=
  if flow = FlowFeature then [ctx.ShortSHA] ++ latestIf env (str "SYAC_LATEST_ON_FEATURE")
  else if flow = FlowMR then [ctx.ShortSHA, ctx.NextRCVersion]
  else if flow = FlowDefault then
    [ctx.ShortSHA, ctx.NextRCVersion, ctx.DefaultBranch]
      ++ latestIf env (str "SYAC_LATEST_ON_DEFAULT")
  else if flow = FlowRelease then [ctx.Tag] ++ latestIf env (str "SYAC_TAG_LATEST")
  else [ctx.ShortSHA, ctx.NextRCVersion] ++ (if ctx.IsDefaultBranch then [ctx.DefaultBranch] else [])

/-- The candidate tags of a flow other than the RC version. -/
def candidateTagsNoRC (env : Env) (ctx : Context) (flow : Flow) : List GoString :=
  if flow = FlowFeature then [ctx.ShortSHA] ++ latestIf env (str "SYAC_LATEST_ON_FEATURE")
  else if flow = FlowMR then [ctx.ShortSHA]
  else if flow = FlowDefault then
    [ctx.ShortSHA, ctx.DefaultBranch] ++ latestIf env (str "SYAC_LATEST_ON_DEFAULT")
  else if flow = FlowRelease then [ctx.Tag] ++ latestIf env (str "SYAC_TAG_LATEST")
  else [ctx.ShortSHA] ++ (if ctx.IsDefaultBranch then [ctx.DefaultBranch] else [])

/-- The references the specification's table gives for a base reference:
one per candidate, skipping the empty and invalid ones, de-duplicated. -/
def specRefs (U : Unicode) (env : Env) (ctx : Context) (flow : Flow) (base : GoString) :
    List GoString :=
  dedupRefs ((candidateTags env ctx flow).filterMap (refOf U base))

/-- The base reference read off the context fields as they are: the registry
base with trailing `/` stripped, `/`, the application name. -/
def rawBase (ctx : Context) : GoString :=
  TrimRightSlash ctx.RegistryImage ++ str "/" ++ ctx.ApplicationName

/-- The text is empty or made of white space only. -/
def WhitespaceOnly (s : GoString) : Prop :=
  ∃ es : List (List Nat), (∀ e ∈ es, e ∈ spaceEncodings) ∧ s = es.flatten

/-- The four option variables `PlanBuild` reads. -/
def optionVars : List GoString :=
  [str "SYAC_LATEST_ON_FEATURE", str "SYAC_LATEST_ON_DEFAULT", str "SYAC_TAG_LATEST",
   str "PUSH_FEATURE"]

/-- A short SHA as Git prints it: 1 to 128 lowercase hexadecimal digits. -/
def IsHexSHA (s : GoString) : Prop :=
  1 ≤ s.length ∧ s.length ≤ 128 ∧ ∀ c ∈ s, (48 ≤ c ∧ c ≤ 57) ∨ (97 ≤ c ∧ c ≤ 102)

instance decidableIsHexSHA (s : GoString) : Decidable (IsHexSHA s) := by
  unfold IsHexSHA
  infer_instance

/-! ## Numerals, as the specification of `Parse` speaks of them -/

/-- A decimal digit `0`..`9`. -/
def isDigit (c : Nat) : Prop := 48 ≤ c ∧ c ≤ 57

instance decidableIsDigit (c : Nat) : Decidable (isDigit c) := by
  unfold isDigit
  infer_instance

/-- A non-negative integer numeral: one or more decimal digits. -/
def IsDigits (d : GoString) : Prop := d ≠ [] ∧ ∀ c ∈ d, isDigit c

instance decidableIsDigits (d : GoString) : Decidable (IsDigits d) := by
  unfold IsDigits
  infer_instance

/-- The number a run of decimal digits denotes. -/
def digitsNat (d : GoString) : Nat := d.foldl (fun acc c => acc * 10 + (c - 48)) 0

/-- A numeral without leading zeros: `0` itself, or digits that do not start with `0`. -/
def NoLeadingZero (d : GoString) : Prop := d = [48] ∨ d.head? ≠ some 48

instance decidableNoLeadingZero (d : GoString) : Decidable (NoLeadingZero d) := by
  unfold NoLeadingZero
  infer_instance

/-- The text `a` is a decimal numeral with an optional `+` or `-` sign that
denotes the integer `n`, and `n` is in the range of a 64-bit `int`. -/
def IsInt64Numeral (a : GoString) (n : Int) : Prop :=
  ∃ d, IsDigits d ∧
    (((a = d ∨ a = 43 :: d) ∧ n = (digitsNat d : Int) ∧ digitsNat d < 2 ^ 63) ∨
      (a = 45 :: d ∧ n = -(digitsNat d : Int) ∧ digitsNat d ≤ 2 ^ 63))

/-- The three segments joined by dots. -/
def dotted (a b c : GoString) : GoString := a ++ [46] ++ b ++ [46] ++ c

/-- The value is in the range of a Go `int` (64 bits). -/
def IsInt64 (x : Int) : Prop := -2 ^ 63 ≤ x ∧ x < 2 ^ 63

instance decidableIsInt64 (x : Int) : Decidable (IsInt64 x) := by
  unfold IsInt64
  infer_instance

/-- The three components are in the range of a Go `int`. -/
def Version.Valid (v : Version) : Prop := IsInt64 v.Major ∧ IsInt64 v.Minor ∧ IsInt64 v.Patch

instance decidableVersionValid (v : Version) : Decidable v.Valid := by
  unfold Version.Valid
  infer_instance

/-- The strict lexicographic order on (Major, Minor, Patch). -/
def Version.lexLt (a b : Version) : Prop :=
  a.Major < b.Major ∨ (a.Major = b.Major ∧ a.Minor < b.Minor) ∨
    (a.Major = b.Major ∧ a.Minor = b.Minor ∧ a.Patch < b.Patch)

/-- The text neither starts nor ends with a white-space rune. -/
def NoSurroundingSpace (t : GoString) : Prop :=
  (∀ e ∈ spaceEncodings, ¬e <+: t) ∧ (∀ e ∈ spaceEncodings, ¬e <:+ t)

/-- The text with an optional leading `v` removed. -/
def stripV (s : GoString) : GoString := if s.head? = some 118 then s.tail else s

/-- The component of `v` that a bump of kind `k` increments. -/
def Version.component (v : Version) (k : VersionType) : Int :=
  if k = Syac.Major then v.Major else if k = Syac.Minor then v.Minor else v.Patch

/-- A non-negative integer numeral without leading zeros whose value is below `2^63`. -/
def IsSegment (d : GoString) : Prop := IsDigits d ∧ NoLeadingZero d ∧ digitsNat d < 2 ^ 63

instance decidableIsSegment (d : GoString) : Decidable (IsSegment d) := by
  unfold IsSegment
  infer_instance

/-- The prefix `ForecastNext` remembers: `v` if the text starts with it, else nothing. -/
def vPrefix (s : GoString) : GoString := if s.head? = some 118 then str "v" else []

/-! ## internal/version/version.go, continued -/

/-- Source: `VersionType.String`. -/
def VersionType.String (vt : VersionType) : GoString := vt

/-- Source: `ParseVersionType`; `none` stands for the returned error. -/
def ParseVersionType (U : Unicode) (s : GoString) : Option VersionType :=
  if ToLower U s = str "major" then some Major
  else if ToLower U s = str "minor" then some Minor
  else if ToLower U s = str "patch" then some Patch
  else none

/-! ## pkg/gitlab/mrs_bump.go -/

/-- Go `strings.Split s sep` for a one-byte `sep`. -/
def splitByte (sep : Nat) : GoString → List GoString
  | [] => [[]]
  | c :: rest =>
    if c = sep then [] :: splitByte sep rest
    else
      match splitByte sep rest with
      | [] => [[c]]
      | p :: ps => (c :: p) :: ps

/-- Go `strings.Contains s sub`. -/
def Contains (s sub : GoString) : Bool := s.tails.any fun t => sub.isPrefixOf t

/-- Source: constant `syacMarker`. -/
def syacMarker : GoString := str "<!-- syac:release-type -->"

/-- The leftmost match of `- \[x\] \*\*(Patch|Minor|Major)\*\*` in a line: its
captured word. -/
def findCheckbox : GoString → Option VersionType
  | [] => none
  | c :: rest =>
    if (str "- [x] **Patch**").isPrefixOf (c :: rest) then some Patch
    else if (str "- [x] **Minor**").isPrefixOf (c :: rest) then some Minor
    else if (str "- [x] **Major**").isPrefixOf (c :: rest) then some Major
    else findCheckbox rest

/-- Source: `ParseVersionBump`; `none` stands for `("", false)`. -/
def ParseVersionBump (text : GoString) : Option VersionType :=
  (splitByte 10 text).findSome? findCheckbox

/-- What the GitLab API answers for one merge request: the bodies of its notes
(`ListNotes`) and its description (`GetMergeRequestDescription`), each `none`
when the call returns an error. -/
structure MergeRequestData where
  notes : Option (List GoString)
  description : Option GoString

/-- Source: `mrsService.GetVersionBump` for a non-nil service; `none` stands
for the returned error. -/
def GetVersionBump (mr : MergeRequestData) : Option VersionType :=
  let fromNotes : Option VersionType :=
    match mr.notes with
    | some notes =>
      notes.reverse.findSome? fun body =>
        if Contains body syacMarker then ParseVersionBump body else none
    | none => none
  match fromNotes with
  | some bump => some bump
  | none =>
    match mr.description with
    | none => none
    | some desc =>
      match ParseVersionBump desc with
      | some bump => some bump
      | none => some Patch

/-! ## internal/runtime/context.go, continued -/

/-- Source: `firstNonEmpty`. -/
def firstNonEmpty : List GoString → GoString
  | [] => []
  | v :: rest => if TrimSpace v ≠ [] then TrimSpace v else firstNonEmpty rest

/-- Source: `resolveApplicationName`. -/
def resolveApplicationName (env : Env) : GoString :=
  if env (str "SYAC_APPLICATION_NAME") ≠ [] then env (str "SYAC_APPLICATION_NAME")
  else (splitByte 47 (TrimSpace (env (str "CI_REGISTRY_IMAGE")))).getLast?.getD []

/-- The short SHA of `LoadContext`. -/
def loadShortSHA (env : Env) : GoString :=
  if env (str "CI_COMMIT_SHORT_SHA") = [] then
    if (env (str "CI_COMMIT_SHA")).length ≥ 8 then (env (str "CI_COMMIT_SHA")).take 8
    else env (str "CI_COMMIT_SHA")
  else env (str "CI_COMMIT_SHORT_SHA")

/-- The bump kind of `LoadContext`: the `SYAC_BUMP` override or Patch. -/
def loadBump (U : Unicode) (env : Env) : VersionType :=
  if TrimSpace (env (str "SYAC_BUMP")) ≠ [] then
    match ParseVersionType U (TrimSpace (env (str "SYAC_BUMP"))) with
    | some vt => vt
    | none => Patch
  else Patch

/-- Source: `LoadContext`; the error result is always `nil` and is left out. -/
def LoadContext (U : Unicode) (env : Env) : Context :=
  let tag := env (str "CI_COMMIT_TAG")
  let dflt := env (str "CI_DEFAULT_BRANCH")
  let effectiveRef := firstNonEmpty [env (str "CI_MERGE_REQUEST_SOURCE_BRANCH_NAME"),
    env (str "CI_COMMIT_BRANCH"), env (str "CI_COMMIT_REF_NAME")]
  let rawRef := TrimSpace (env (str "CI_COMMIT_REF_NAME"))
  let featurePrefix := str "gmarm-"
  let isMR : Bool := decide (env (str "CI_MERGE_REQUEST_IID") ≠ []) ||
    decide (env (str "CI_PIPELINE_SOURCE") = str "merge_request_event")
  let isTag : Bool := decide (tag ≠ [])
  let isFeature : Bool := !isTag && decide (effectiveRef ≠ []) && decide (effectiveRef ≠ dflt) &&
    HasPrefix effectiveRef featurePrefix
  let short := loadShortSHA env
  let bump := loadBump U env
  let ctx : Context :=
    { Source := env (str "CI_PIPELINE_SOURCE"), RefName := rawRef, EffectiveRef := effectiveRef,
      SHA := env (str "CI_COMMIT_SHA"), ShortSHA := short,
      MRID := env (str "CI_MERGE_REQUEST_IID"),
      MergeRequestTargetBranch := env (str "CI_MERGE_REQUEST_TARGET_BRANCH_NAME"),
      Tag := tag, ProjectPath := env (str "CI_PROJECT_PATH"),
      RegistryImage := env (str "CI_REGISTRY_IMAGE"), DefaultBranch := dflt,
      Sprint := env (str "SYAC_SPRINT"), IsMergeRequest := isMR, IsTag := isTag,
      IsFeatureBranch := isFeature, FeatureBranchPrefix := featurePrefix,
      IsDefaultBranch := decide (rawRef ≠ []) && decide (rawRef = dflt),
      ProjectID := env (str "CI_PROJECT_ID"), ApplicationName := resolveApplicationName env,
      DryRun := decide (env (str "SYAC_DRY_RUN") = str "true"), BumpType := bump,
      FeatureTag := [], ImageRef := [], NextVersion := [], NextRCVersion := [] }
  let ctx := if ctx.IsFeatureBranch then { ctx with FeatureTag := ctx.ShortSHA } else ctx
  if ctx.RegistryImage ≠ [] ∧ ctx.ApplicationName ≠ [] then
    let base := ctx.RegistryImage ++ str "/" ++ ctx.ApplicationName
    if ctx.IsFeatureBranch ∧ ctx.FeatureTag ≠ [] then
      { ctx with ImageRef := base ++ str ":" ++ ctx.FeatureTag }
    else if ctx.IsTag ∧ ctx.Tag ≠ [] then { ctx with ImageRef := base ++ str ":" ++ ctx.Tag }
    else if ctx.IsDefaultBranch ∧ ctx.DefaultBranch ≠ [] then
      { ctx with ImageRef := base ++ str ":" ++ ctx.DefaultBranch }
    else ctx
  else ctx

/-- Source: `Context.ResolveBumpFromMR`: the context after the call and the
returned report.  `client` is `none` for a nil client, else the answers of the
GitLab API by merge-request id. -/
def ResolveBumpFromMR (env : Env) (c : Context)
    (client : Option (GoString → MergeRequestData)) : Context × GoString :=
  if TrimSpace (env (str "SYAC_BUMP")) ≠ [] then (c, [])
  else
    match client with
    | none => (c, [])
    | some api =>
      if c.IsMergeRequest = false ∨ TrimSpace c.MRID = [] then (c, [])
      else
        match GetVersionBump (api c.MRID) with
        | none => (c, [])
        | some bump =>
          if bump ≠ c.BumpType then ({ c with BumpType := bump }, str "MR selection")
          else (c, str "MR selection")

/-! ## internal/docker/options.go -/

/-- Source: `first`. -/
def first (a b : GoString) : GoString := if TrimSpace a ≠ [] then a else b

/-- Source: `type BuildOptions struct`. -/
structure BuildOptions where
  Dockerfile : GoString
  ContextPath : GoString
  BuildArgs : List (GoString × GoString)
  Labels : List (GoString × GoString)
  FullRefs : List GoString
  Target : GoString
  Pull : Bool
  NoCache : Bool
  Push : Bool
  DryRun : Bool
  deriving DecidableEq

/-- Source: `BuildOptionsFromContext` for a non-nil context; `none` stands for
the returned error. -/
def BuildOptionsFromContext (U : Unicode) (env : Env) (c : Context) : Option BuildOptions :=
  if TrimSpace c.RegistryImage = [] then none
  else if TrimSpace c.ApplicationName = [] then none
  else
    let df := getenv env (str "SYAC_DOCKERFILE") (str "Dockerfile")
    let ctxPath := getenv env (str "SYAC_BUILD_CONTEXT") (str ".")
    let flow := ResolveFlow c FlowAuto
    let plan := PlanBuild U env c flow
    if plan.Refs.length = 0 then none
    else
      let branch := first c.EffectiveRef c.RefName
      some
        { Dockerfile := df, ContextPath := ctxPath,
          BuildArgs := [(str "GIT_SHA", c.SHA), (str "GIT_SHORT_SHA", c.ShortSHA),
            (str "CI_PROJECT_PATH", c.ProjectPath), (str "CI_REF_NAME", branch),
            (str "APP_NAME", c.ApplicationName)],
          Labels := [], FullRefs := plan.Refs, Target := [],
          Pull := decide (env (str "SYAC_PULL") = str "true"),
          NoCache := decide (env (str "SYAC_NOCACHE") = str "true"),
          Push := plan.Push,
          DryRun := decide (env (str "SYAC_DRY_RUN") = str "true") }

/-! ## Specification-side notions for the last claims -/

/-- Every run of repeated `-` collapsed to a single `-`. -/
def collapseRuns : GoString → GoString
  | 45 :: 45 :: rest => collapseRuns (45 :: rest)
  | c :: rest => c :: collapseRuns rest
  | [] => []

/-- The environment that holds the listed variables and nothing else. -/
def envOf (vars : List (GoString × GoString)) : Env := fun k => (vars.lookup k).getD []

/-- The merge-request API of the examples: for every id, one SYAC note with
the given body and an empty description. -/
def noteApi (body : GoString) : GoString → MergeRequestData :=
  fun _ => { notes := some [body], description := some [] }

/-- The environment of a merge-request pipeline for merge request 7. -/
def mergeRequestEnv : Env :=
  envOf [(str "CI_PIPELINE_SOURCE", str "merge_request_event"),
    (str "CI_MERGE_REQUEST_IID", str "7"), (str "CI_COMMIT_SHA", str "0123456789abcdef"),
    (str "CI_MERGE_REQUEST_SOURCE_BRANCH_NAME", str "gmarm-42-login"),
    (str "CI_DEFAULT_BRANCH", str "main"), (str "CI_REGISTRY_IMAGE", str "reg/group/svc")]

/-- A push to the branch `hotfix-1`, which is neither the default branch nor
feature-prefixed. -/
def plainBranchRun : Context :=
  { emptyContext with
    Source := str "push", RefName := str "hotfix-1", EffectiveRef := str "hotfix-1",
    SHA := str "abc1234567890", ShortSHA := str "abc12345", DefaultBranch := str "main",
    RegistryImage := str "registry.example.com/group", ApplicationName := str "svc",
    FeatureBranchPrefix := str "gmarm-" }

/-- Go `strings.ToLower` on text whose runes outside ASCII are all U+0130
(LATIN CAPITAL LETTER I WITH DOT ABOVE, the bytes `0xC4 0xB0`): package
`unicode` lower-cases that rune to `i` (U+0069) and the ASCII letters `A`-`Z`
to `a`-`z`; every other byte is kept. -/
def lowerDottedI : GoString → GoString
  | 0xC4 :: 0xB0 :: rest => 0x69 :: lowerDottedI rest
  | c :: rest => asciiLowerByte c :: lowerDottedI rest
  | [] => []

/-- The tables of package `unicode` at U+0130: its lower case is `i`, and it
has no simple case folding, so under `strings.EqualFold` it matches only
itself while the ASCII letters match up to case. -/
def Unicode.dottedI : Unicode where
  toLower := lowerDottedI
  equalFold := fun s t => decide (s.map asciiLowerByte = t.map asciiLowerByte)

/-! ## Concrete runs -/

/-- A pipeline started from the web UI on the feature branch `gmarm-42-login`. -/
def featureWebRun : Context :=
  { emptyContext with
    Source := str "web", RefName := str "gmarm-42-login", EffectiveRef := str "gmarm-42-login",
    ShortSHA := str "abc12345", DefaultBranch := str "main",
    RegistryImage := str "registry.example.com/group", ApplicationName := str "svc",
    IsFeatureBranch := true, FeatureBranchPrefix := str "gmarm-" }

/-- A tag pipeline for the release tag `v2.0.0`. -/
def releaseRun : Context :=
  { emptyContext with
    Source := str "push", RefName := str "v2.0.0", EffectiveRef := str "v2.0.0",
    ShortSHA := str "abc12345", Tag := str "v2.0.0", DefaultBranch := str "main",
    RegistryImage := str "registry.example.com/group", ApplicationName := str "svc",
    IsTag := true, FeatureBranchPrefix := str "gmarm-" }

/-- The release run with a registry base that carries a leading blank. -/
def paddedReleaseRun : Context :=
  { releaseRun with RegistryImage := str " registry.example.com/group" }

/-- A merge-request pipeline for which no RC version was forecast. -/
def mergeRequestRun : Context :=
  { emptyContext with
    Source := str "merge_request_event", RefName := str "gmarm-42-login",
    EffectiveRef := str "gmarm-42-login", ShortSHA := str "abc12345", MRID := str "7",
    DefaultBranch := str "main", MergeRequestTargetBranch := str "dev",
    RegistryImage := str "registry.example.com/group", ApplicationName := str "svc",
    IsMergeRequest := true, FeatureBranchPrefix := str "gmarm-" }

/-- A default-branch run whose branch name cleans to the short SHA. -/
def sameTagRun : Context :=
  { emptyContext with
    Source := str "push", RefName := str "ABC12345", EffectiveRef := str "ABC12345",
    ShortSHA := str "abc12345", DefaultBranch := str "ABC12345",
    RegistryImage := str "registry.example.com/group", ApplicationName := str "svc",
    IsDefaultBranch := true, FeatureBranchPrefix := str "gmarm-" }

/-- A run whose registry base is white space only. -/
def blankRegistryRun : Context :=
  { releaseRun with RegistryImage := str " \t" }

/-- The environment in which only `SYAC_TAG_LATEST=true` is set. -/
def tagLatestEnv : Env := envWith (str "SYAC_TAG_LATEST") (str "true")

/-- The environment in which only `SYAC_DRY_RUN=true` is set. -/
def dryRunEnv : Env := envWith (str "SYAC_DRY_RUN") (str "true")

/-- The merge-request run with a registry base that is white space only. -/
def blankMergeRequestRun : Context :=
  { mergeRequestRun with RegistryImage := str "  " }

/-- The push to the branch `hotfix-1` with no registry base configured. -/
def unregisteredBranchRun : Context :=
  { plainBranchRun with RegistryImage := [] }

/-- An environment that carries the full commit SHA alone. -/
def fullSHAEnv : Env := envWith (str "CI_COMMIT_SHA") (str "0123456789abcdef")

/-! ## Theorems -/

/-! ### `dedupRefs` -/

theorem dedupLoop_out (seen out l : List GoString) :
    dedupLoop seen out l = out ++ dedupLoop seen [] l := by
  induction l generalizing seen out with
  | nil => simp [dedupLoop]
  | cons v rest ih =>
    by_cases h : v ∈ seen
    · simp only [dedupLoop, h, if_true]
      exact ih seen out
    · simp only [dedupLoop, h, if_false]
      rw [ih (v :: seen) (out ++ [v]), ih (v :: seen) ([] ++ [v])]
      simp

theorem dedupLoop_seen (seen l : List GoString) :
    dedupLoop seen [] l = (dedupLoop [] [] l).filter fun x => decide (x ∉ seen) := by
  induction l generalizing seen with
  | nil => simp [dedupLoop]
  | cons v rest ih =>
    have h0 : dedupLoop [] [] (v :: rest) = v :: dedupLoop [v] [] rest := by
      simp only [dedupLoop, List.not_mem_nil, if_false]
      rw [dedupLoop_out]; rfl
    rw [h0]
    by_cases h : v ∈ seen
    · simp only [dedupLoop, h, if_true]
      rw [ih seen, ih [v], List.filter_cons]
      simp only [h, not_true_eq_false, decide_False, Bool.false_eq_true, if_false,
        List.filter_filter]
      apply List.filter_congr
      intro x _
      by_cases hx : x = v
      · subst hx; simp [h]
      · simp [hx]
    · simp only [dedupLoop, h, if_false]
      rw [dedupLoop_out, ih (v :: seen), ih [v], List.filter_cons]
      simp only [h, not_false_eq_true, decide_True, if_true, List.filter_filter, List.nil_append,
        List.singleton_append]
      congr 1
      apply List.filter_congr
      intro x _
      by_cases hx : x = v
      · subst hx; simp
      · simp [hx]

/-- The recursion that characterises `dedupRefs`: the head is kept, and its
later copies are removed from the de-duplicated tail. -/
theorem dedupRefs_cons (x : GoString) (xs : List GoString) :
    dedupRefs (x :: xs) = x :: (dedupRefs xs).filter fun y => decide (y ≠ x) := by
  unfold dedupRefs
  simp only [dedupLoop, List.not_mem_nil, if_false]
  rw [dedupLoop_out, dedupLoop_seen [x]]
  simp

theorem dedupRefs_nil : dedupRefs [] = [] := rfl

theorem mem_dedupRefs (l : List GoString) (x : GoString) : x ∈ dedupRefs l ↔ x ∈ l := by
  induction l with
  | nil => simp [dedupRefs_nil]
  | cons a as ih =>
    rw [dedupRefs_cons]
    by_cases hx : x = a
    · simp [hx]
    · simp [hx, ih, List.mem_filter]

theorem nodup_dedupRefs (l : List GoString) : (dedupRefs l).Nodup := by
  induction l with
  | nil => simp [dedupRefs_nil]
  | cons a as ih =>
    rw [dedupRefs_cons, List.nodup_cons]
    exact ⟨by simp [List.mem_filter], ih.filter _⟩

theorem sublist_dedupRefs (l : List GoString) : (dedupRefs l).Sublist l := by
  induction l with
  | nil => simp [dedupRefs_nil]
  | cons a as ih =>
    rw [dedupRefs_cons]
    exact ((List.filter_sublist _).trans ih).cons₂ a

theorem dedupRefs_of_nodup (l : List GoString) (h : l.Nodup) : dedupRefs l = l := by
  induction l with
  | nil => rfl
  | cons a as ih =>
    rw [List.nodup_cons] at h
    rw [dedupRefs_cons, ih h.2]
    congr 1
    rw [List.filter_eq_self]
    intro y hy
    have : y ≠ a := fun e => h.1 (e ▸ hy)
    simp [this]

theorem indexOf_head (a : GoString) (l : List GoString) : (a :: l).indexOf a = 0 := by
  simp [List.indexOf_cons]

theorem indexOf_tail (a c : GoString) (l : List GoString) (h : a ≠ c) :
    (c :: l).indexOf a = l.indexOf a + 1 := by
  have h2 : (c == a) = false := by simpa using Ne.symm h
  simp [List.indexOf_cons, h2]

theorem mem_tail_of_ne {a c : GoString} {cs : List GoString} (ha : a ∈ c :: cs) (h : a ≠ c) :
    a ∈ cs := by
  rcases List.mem_cons.1 ha with h1 | h1
  · exact absurd h1 h
  · exact h1

theorem indexOf_filter_lt (p : GoString → Bool) (l : List GoString) (a b : GoString)
    (ha : a ∈ l) (hb : b ∈ l) (pa : p a = true) (pb : p b = true) :
    (l.filter p).indexOf a < (l.filter p).indexOf b ↔ l.indexOf a < l.indexOf b := by
  induction l with
  | nil => simp at ha
  | cons c cs ih =>
    by_cases hca : a = c
    · subst hca
      rw [List.filter_cons_of_pos pa, indexOf_head, indexOf_head]
      by_cases hcb : b = a
      · subst hcb; simp [indexOf_head]
      · rw [indexOf_tail _ _ _ hcb, indexOf_tail _ _ _ hcb]; simp
    · have ha2 : a ∈ cs := mem_tail_of_ne ha hca
      by_cases hcb : b = c
      · subst hcb
        rw [List.filter_cons_of_pos pb, indexOf_head, indexOf_head]
        simp
      · have hb2 : b ∈ cs := mem_tail_of_ne hb hcb
        rw [indexOf_tail _ _ cs hca, indexOf_tail _ _ cs hcb]
        by_cases pc : p c = true
        · rw [List.filter_cons_of_pos pc, indexOf_tail _ _ _ hca, indexOf_tail _ _ _ hcb]
          simpa using ih ha2 hb2
        · rw [List.filter_cons_of_neg pc]
          simpa using ih ha2 hb2

theorem indexOf_dedupRefs_lt (l : List GoString) (a b : GoString) (ha : a ∈ l) (hb : b ∈ l) :
    (dedupRefs l).indexOf a < (dedupRefs l).indexOf b ↔ l.indexOf a < l.indexOf b := by
  induction l with
  | nil => simp at ha
  | cons c cs ih =>
    rw [dedupRefs_cons]
    by_cases hca : a = c
    · subst hca
      rw [indexOf_head, indexOf_head]
      by_cases hcb : b = a
      · subst hcb; simp [indexOf_head]
      · rw [indexOf_tail _ _ _ hcb, indexOf_tail _ _ _ hcb]; simp
    · have ha2 : a ∈ cs := mem_tail_of_ne ha hca
      by_cases hcb : b = c
      · subst hcb
        rw [indexOf_head, indexOf_head]
        simp
      · have hb2 : b ∈ cs := mem_tail_of_ne hb hcb
        rw [indexOf_tail _ _ _ hca, indexOf_tail _ _ _ hcb, indexOf_tail _ _ _ hca,
          indexOf_tail _ _ _ hcb, Nat.add_lt_add_iff_right, Nat.add_lt_add_iff_right,
          indexOf_filter_lt _ _ a b ((mem_dedupRefs cs a).2 ha2) ((mem_dedupRefs cs b).2 hb2)
            (by simp [hca]) (by simp [hcb])]
        exact ih ha2 hb2

/-! ### White space -/

theorem find_spaceEncoding (e : List Nat) (he : e ∈ spaceEncodings) (t : GoString) :
    spaceEncodings.find? (fun x => x.isPrefixOf (e ++ t)) = some e := by
  simp only [spaceEncodings, List.mem_cons, List.mem_singleton, List.not_mem_nil, or_false] at he
  rcases he with h | h | h | h | h | h | h | h | h | h | h | h | h | h | h | h | h | h | h | h |
    h | h | h | h | h <;> subst h <;> simp [spaceEncodings, List.find?, List.isPrefixOf]

theorem find_spaceEncoding_rev (e : List Nat) (he : e ∈ spaceEncodings) (t : GoString) :
    spaceEncodings.find? (fun x => x.reverse.isPrefixOf (e.reverse ++ t)) = some e := by
  simp only [spaceEncodings, List.mem_cons, List.mem_singleton, List.not_mem_nil, or_false] at he
  rcases he with h | h | h | h | h | h | h | h | h | h | h | h | h | h | h | h | h | h | h | h |
    h | h | h | h | h <;> subst h <;> simp [spaceEncodings, List.find?, List.isPrefixOf]

theorem spaceEncoding_length_pos (e : List Nat) (he : e ∈ spaceEncodings) : 0 < e.length := by
  simp only [spaceEncodings, List.mem_cons, List.mem_singleton, List.not_mem_nil, or_false] at he
  rcases he with h | h | h | h | h | h | h | h | h | h | h | h | h | h | h | h | h | h | h | h |
    h | h | h | h | h <;> subst h <;> decide

theorem leadingSpaceWidth_nil : leadingSpaceWidth [] = 0 := by decide

theorem leadingSpaceWidth_append (e : List Nat) (he : e ∈ spaceEncodings) (t : GoString) :
    leadingSpaceWidth (e ++ t) = e.length := by
  unfold leadingSpaceWidth
  rw [find_spaceEncoding e he t]

theorem trimLeftSpace_nil (fuel : Nat) : trimLeftSpace fuel [] = [] := by
  cases fuel <;> simp [trimLeftSpace, leadingSpaceWidth_nil]

theorem trimLeftSpace_flatten (es : List (List Nat)) (hes : ∀ e ∈ es, e ∈ spaceEncodings)
    (fuel : Nat) (hf : es.length ≤ fuel) : trimLeftSpace fuel es.flatten = [] := by
  induction es generalizing fuel with
  | nil => simpa using trimLeftSpace_nil fuel
  | cons e es ih =>
    cases fuel with
    | zero => simp at hf
    | succ f =>
      have he : e ∈ spaceEncodings := hes e (List.mem_cons_self _ _)
      have hpos := spaceEncoding_length_pos e he
      rw [List.flatten_cons, trimLeftSpace, leadingSpaceWidth_append e he]
      rw [if_neg (by omega), List.drop_left]
      exact ih (fun x hx => hes x (List.mem_cons_of_mem _ hx)) f (by simpa using hf)

theorem length_le_flatten (es : List (List Nat)) (hes : ∀ e ∈ es, e ∈ spaceEncodings) :
    es.length ≤ es.flatten.length := by
  induction es with
  | nil => simp
  | cons e es ih =>
    have hpos := spaceEncoding_length_pos e (hes e (List.mem_cons_self _ _))
    have := ih (fun x hx => hes x (List.mem_cons_of_mem _ hx))
    simp only [List.flatten_cons, List.length_append, List.length_cons]
    omega

theorem TrimSpace_of_whitespaceOnly (s : GoString) (h : WhitespaceOnly s) : TrimSpace s = [] := by
  obtain ⟨es, hes, rfl⟩ := h
  unfold TrimSpace
  rw [trimLeftSpace_flatten es hes _ (length_le_flatten es hes)]
  rfl

theorem whitespaceOnly_append (s t : GoString) (hs : WhitespaceOnly s) (ht : WhitespaceOnly t) :
    WhitespaceOnly (s ++ t) := by
  obtain ⟨es, hes, rfl⟩ := hs
  obtain ⟨et, het, rfl⟩ := ht
  refine ⟨es ++ et, ?_, by simp⟩
  intro e he
  rcases List.mem_append.1 he with h | h
  · exact hes e h
  · exact het e h

theorem whitespaceOnly_encoding (e : List Nat) (he : e ∈ spaceEncodings) : WhitespaceOnly e :=
  ⟨[e], by simpa using he, by simp⟩

theorem trimLeftSpace_decomp (fuel : Nat) (s : GoString) :
    ∃ w, WhitespaceOnly w ∧ s = w ++ trimLeftSpace fuel s := by
  induction fuel generalizing s with
  | zero => exact ⟨[], ⟨[], by simp, by simp⟩, by simp [trimLeftSpace]⟩
  | succ f ih =>
    unfold trimLeftSpace
    by_cases h0 : leadingSpaceWidth s = 0
    · rw [if_pos h0]
      exact ⟨[], ⟨[], by simp, by simp⟩, by simp⟩
    · rw [if_neg h0]
      unfold leadingSpaceWidth at h0 ⊢
      cases hfind : spaceEncodings.find? (fun e => e.isPrefixOf s) with
      | none => simp [hfind] at h0
      | some e =>
        simp only []
        have hmem : e ∈ spaceEncodings := List.mem_of_find?_eq_some hfind
        have hpre : e.isPrefixOf s = true :=
          @List.find?_some _ (fun x : List Nat => x.isPrefixOf s) e spaceEncodings hfind
        have hs : e ++ s.drop e.length = s :=
          List.prefix_iff_eq_append.1 (List.isPrefixOf_iff_prefix.1 hpre)
        obtain ⟨w, hw, hdec⟩ := ih (s.drop e.length)
        refine ⟨e ++ w, whitespaceOnly_append _ _ (whitespaceOnly_encoding e hmem) hw, ?_⟩
        rw [List.append_assoc, ← hdec, hs]

theorem trimRightSpaceRev_nil (fuel : Nat) (s : GoString)
    (h : TrimSpace.trimRightSpaceRev fuel s = []) : WhitespaceOnly s.reverse := by
  induction fuel generalizing s with
  | zero =>
    simp only [TrimSpace.trimRightSpaceRev] at h
    subst h
    exact ⟨[], by simp, by simp⟩
  | succ f ih =>
    unfold TrimSpace.trimRightSpaceRev at h
    cases hfind : spaceEncodings.find? (fun e => e.reverse.isPrefixOf s) with
    | none =>
      rw [hfind] at h
      simp only [] at h
      subst h
      exact ⟨[], by simp, by simp⟩
    | some e =>
      rw [hfind] at h
      simp only [] at h
      have hmem : e ∈ spaceEncodings := List.mem_of_find?_eq_some hfind
      have hpre : e.reverse.isPrefixOf s = true :=
        @List.find?_some _ (fun x : List Nat => x.reverse.isPrefixOf s) e spaceEncodings hfind
      have hs : e.reverse ++ s.drop e.reverse.length = s :=
        List.prefix_iff_eq_append.1 (List.isPrefixOf_iff_prefix.1 hpre)
      rw [List.length_reverse] at hs
      have hw := ih (s.drop e.length) h
      have : s.reverse = (s.drop e.length).reverse ++ e := by
        conv_lhs => rw [← hs]
        simp
      rw [this]
      exact whitespaceOnly_append _ _ hw (whitespaceOnly_encoding e hmem)

/-- `strings.TrimSpace s` is empty exactly when `s` is empty or white space only. -/
theorem TrimSpace_eq_nil_iff (s : GoString) : TrimSpace s = [] ↔ WhitespaceOnly s := by
  constructor
  · intro h
    unfold TrimSpace at h
    simp only [List.reverse_eq_nil_iff] at h
    have hw := trimRightSpaceRev_nil _ _ h
    rw [List.reverse_reverse] at hw
    obtain ⟨w, hw1, hdec⟩ := trimLeftSpace_decomp s.length s
    rw [hdec]
    exact whitespaceOnly_append _ _ hw1 hw
  · exact TrimSpace_of_whitespaceOnly s

/-- The fuel of `trimLeftSpace` is enough: the result starts with no white space. -/
theorem trimLeftSpace_done (fuel : Nat) (s : GoString) (h : s.length ≤ fuel) :
    leadingSpaceWidth (trimLeftSpace fuel s) = 0 := by
  induction fuel generalizing s with
  | zero =>
    have : s = [] := List.length_eq_zero.1 (by omega)
    subst this
    simp [trimLeftSpace, leadingSpaceWidth_nil]
  | succ f ih =>
    unfold trimLeftSpace
    by_cases h0 : leadingSpaceWidth s = 0
    · rw [if_pos h0]; exact h0
    · rw [if_neg h0]
      apply ih
      rw [List.length_drop]
      omega

/-! ### The planner -/

theorem TrimSpace_nil : TrimSpace [] = [] := by decide

theorem cleanTag_nil (U : Unicode) : cleanTag U [] = [] := by
  simp [cleanTag, TrimSpace_nil, ToLower, isASCII]

theorem refOf_nil (U : Unicode) (base : GoString) : refOf U base [] = none := by
  simp [refOf, cleanTag_nil]

theorem add_eq (U : Unicode) (base : GoString) (out : List GoString) (tag : GoString) :
    add U base out tag = out ++ (refOf U base tag).toList := by
  unfold add refOf
  by_cases h : cleanTag U tag = [] ∨ validateTag (cleanTag U tag) = false
  · simp only [h, if_true]; simp
  · simp only [h, if_false]; simp

theorem filterMap_cons_toList (f : GoString → Option GoString) (a : GoString)
    (l : List GoString) : (a :: l).filterMap f = (f a).toList ++ l.filterMap f := by
  cases ha : f a <;> simp [List.filterMap_cons, ha]

/-- The `switch` of `PlanBuild` appends one reference per candidate of the
table, skipping the candidates that `add` rejects. -/
theorem planRefs_eq (U : Unicode) (env : Env) (ctx : Context) (flow : Flow) (base : GoString) :
    planRefs U env ctx flow base = (candidateTags env ctx flow).filterMap (refOf U base) := by
  unfold planRefs candidateTags latestIf
  simp only [add_eq, List.nil_append]
  by_cases h1 : flow = FlowFeature
  · simp only [h1, if_true]
    split_ifs <;> simp [filterMap_cons_toList]
  · simp only [h1, if_false]
    by_cases h2 : flow = FlowMR
    · simp [h2, filterMap_cons_toList]
    · simp only [h2, if_false]
      by_cases h3 : flow = FlowDefault
      · simp only [h3, if_true]
        split_ifs <;> simp [filterMap_cons_toList]
      · simp only [h3, if_false]
        by_cases h4 : flow = FlowRelease
        · simp only [h4, if_true]
          split_ifs <;> simp [filterMap_cons_toList]
        · simp only [h4, if_false]
          by_cases h5 : ctx.IsDefaultBranch = true
          · by_cases h6 : ctx.DefaultBranch = []
            · simp [h5, h6, filterMap_cons_toList, refOf_nil]
            · simp [h5, h6, filterMap_cons_toList]
          · simp [h5, filterMap_cons_toList]

theorem PlanBuild_blank (U : Unicode) (env : Env) (ctx : Context) (flow : Flow)
    (h : TrimSpace ctx.RegistryImage = [] ∨ TrimSpace ctx.ApplicationName = []) :
    PlanBuild U env ctx flow = { Refs := [], Push := false } := by
  unfold PlanBuild
  simp only [h, if_true]

theorem PlanBuild_refs (U : Unicode) (env : Env) (ctx : Context) (flow : Flow)
    (h1 : TrimSpace ctx.RegistryImage ≠ []) (h2 : TrimSpace ctx.ApplicationName ≠ []) :
    (PlanBuild U env ctx flow).Refs = specRefs U env ctx flow (planBase ctx) := by
  unfold PlanBuild specRefs planBase
  simp only [h1, h2, or_self, if_false]
  rw [planRefs_eq]

theorem PlanBuild_push (U : Unicode) (env : Env) (ctx : Context) (flow : Flow)
    (h1 : TrimSpace ctx.RegistryImage ≠ []) (h2 : TrimSpace ctx.ApplicationName ≠ []) :
    (PlanBuild U env ctx flow).Push =
      if flow = FlowFeature ∧ EqualFold U (TrimSpace ctx.Source) (str "push") = true then
        decide (getenv env (str "PUSH_FEATURE") [] = str "true")
      else true := by
  unfold PlanBuild
  simp only [h1, h2, or_self, if_false]

/-! ### Tag validity -/

theorem tagByte_iff (c : Nat) :
    tagByte c = true ↔ (97 ≤ c ∧ c ≤ 122) ∨ (48 ≤ c ∧ c ≤ 57) ∨ c = 95 ∨ c = 46 ∨ c = 45 := by
  simp [tagByte, or_assoc]

theorem validateTag_iff (t : GoString) :
    validateTag t = true ↔ 1 ≤ t.length ∧ t.length ≤ 128 ∧ ∀ c ∈ t, tagByte c = true := by
  simp [validateTag, and_assoc]

theorem takeWhile_append_stop (p : Nat → Bool) (t : List Nat) (x : Nat) (l : List Nat)
    (ht : ∀ c ∈ t, p c = true) (hx : p x = false) : (t ++ x :: l).takeWhile p = t := by
  induction t with
  | nil => simp [List.takeWhile_cons, hx]
  | cons a as ih =>
    have ha : p a = true := ht a (List.mem_cons_self _ _)
    simp only [List.cons_append, List.takeWhile_cons, ha, if_true]
    rw [ih (fun c hc => ht c (List.mem_cons_of_mem _ hc))]

theorem str_colon : str ":" = [58] := by decide

theorem str_slash : str "/" = [47] := by decide

theorem tagSegment_ref (b t : GoString) (ht : ∀ c ∈ t, c ≠ 58) :
    tagSegment (b ++ str ":" ++ t) = t := by
  unfold tagSegment
  rw [str_colon]
  have h : (b ++ [58] ++ t).reverse = t.reverse ++ 58 :: b.reverse := by simp
  rw [h, takeWhile_append_stop _ _ _ _ _ (by simp), List.reverse_reverse]
  intro c hc
  have := ht c (List.mem_reverse.1 hc)
  simpa using this

theorem mem_specRefs (U : Unicode) (env : Env) (ctx : Context) (flow : Flow) (base r : GoString)
    (h : r ∈ specRefs U env ctx flow base) :
    ∃ tag ∈ candidateTags env ctx flow,
      r = base ++ str ":" ++ cleanTag U tag ∧ validateTag (cleanTag U tag) = true := by
  unfold specRefs at h
  rw [mem_dedupRefs, List.mem_filterMap] at h
  obtain ⟨tag, htag, hr⟩ := h
  refine ⟨tag, htag, ?_⟩
  unfold refOf at hr
  by_cases hc : cleanTag U tag = [] ∨ validateTag (cleanTag U tag) = false
  · simp [hc] at hr
  · rw [if_neg hc] at hr
    have hv : validateTag (cleanTag U tag) = true := by
      have := (not_or.1 hc).2
      simpa using this
    exact ⟨(Option.some.inj hr).symm, hv⟩

/-! ### The collapse loop -/

theorem replaceDoubleHyphen_length_le (s : GoString) :
    (replaceDoubleHyphen s).length ≤ s.length := by
  induction s using replaceDoubleHyphen.induct with
  | case1 rest ih => simp only [replaceDoubleHyphen, List.length_cons]; omega
  | case2 c rest h ih =>
    rw [replaceDoubleHyphen]
    · simp only [List.length_cons]; omega
    · exact h
  | case3 => simp [replaceDoubleHyphen]

theorem replaceDoubleHyphen_length_lt (s : GoString) (h : containsDoubleHyphen s = true) :
    (replaceDoubleHyphen s).length < s.length := by
  induction s using replaceDoubleHyphen.induct with
  | case1 rest ih =>
    have := replaceDoubleHyphen_length_le rest
    simp only [replaceDoubleHyphen, List.length_cons]; omega
  | case2 c rest hne ih =>
    rw [containsDoubleHyphen] at h
    · rw [replaceDoubleHyphen]
      · have := ih h
        simp only [List.length_cons]; omega
      · exact hne
    · exact hne
  | case3 => simp [containsDoubleHyphen] at h

theorem collapseLoop_done (fuel : Nat) (s : GoString) (h : s.length ≤ fuel) :
    containsDoubleHyphen (collapseLoop fuel s) = false := by
  induction fuel generalizing s with
  | zero =>
    have : s = [] := List.length_eq_zero.1 (by omega)
    subst this
    simp [collapseLoop, containsDoubleHyphen]
  | succ f ih =>
    unfold collapseLoop
    by_cases hc : containsDoubleHyphen s = true
    · rw [if_pos hc]
      apply ih
      have := replaceDoubleHyphen_length_lt s hc
      omega
    · rw [if_neg hc]
      simpa using hc

/-- The fuel of the collapse loop is enough: it ends with its loop condition false. -/
theorem collapseHyphens_done (s : GoString) :
    containsDoubleHyphen (collapseHyphens s) = false :=
  collapseLoop_done s.length s (Nat.le_refl _)

theorem collapseHyphens_of_none (s : GoString) (h : containsDoubleHyphen s = false) :
    collapseHyphens s = s := by
  unfold collapseHyphens
  cases hs : s.length with
  | zero => simp [collapseLoop]
  | succ n => simp [collapseLoop, h]

/-! ### ASCII text -/

theorem cleanTag_ascii (U : Unicode) (s : GoString) (h : isASCII (TrimSpace s) = true) :
    cleanTag U s = cleanTag Unicode.ascii s := by
  unfold cleanTag ToLower
  simp only [h, if_true]

theorem EqualFold_ascii (U : Unicode) (s t : GoString) (hs : isASCII s = true)
    (ht : isASCII t = true) : EqualFold U s t = EqualFold Unicode.ascii s t := by
  unfold EqualFold
  simp only [hs, ht, Bool.and_self, if_true]

theorem isPrefixOf_graphic (e : List Nat) (he : e ∈ spaceEncodings) (c : Nat) (t : GoString)
    (h1 : 33 ≤ c) (h2 : c < 128) : e.isPrefixOf (c :: t) = false := by
  simp only [spaceEncodings, List.mem_cons, List.mem_singleton, List.not_mem_nil, or_false] at he
  rcases he with h | h | h | h | h | h | h | h | h | h | h | h | h | h | h | h | h | h | h | h |
    h | h | h | h | h <;> subst h <;> simp [List.isPrefixOf] <;> omega

theorem isPrefixOf_reverse_graphic (e : List Nat) (he : e ∈ spaceEncodings) (c : Nat)
    (t : GoString) (h1 : 33 ≤ c) (h2 : c < 128) : e.reverse.isPrefixOf (c :: t) = false := by
  simp only [spaceEncodings, List.mem_cons, List.mem_singleton, List.not_mem_nil, or_false] at he
  rcases he with h | h | h | h | h | h | h | h | h | h | h | h | h | h | h | h | h | h | h | h |
    h | h | h | h | h <;> subst h <;> simp [List.isPrefixOf] <;> omega

theorem trimLeftSpace_noop (fuel : Nat) (s : GoString) (h : leadingSpaceWidth s = 0) :
    trimLeftSpace fuel s = s := by
  cases fuel <;> simp [trimLeftSpace, h]

theorem trimRightSpaceRev_noop (fuel : Nat) (s : GoString)
    (h : spaceEncodings.find? (fun e => e.reverse.isPrefixOf s) = none) :
    TrimSpace.trimRightSpaceRev fuel s = s := by
  cases fuel <;> simp [TrimSpace.trimRightSpaceRev, h]

theorem TrimSpace_noop (s : GoString) (h1 : leadingSpaceWidth s = 0)
    (h2 : spaceEncodings.find? (fun e => e.reverse.isPrefixOf s.reverse) = none) :
    TrimSpace s = s := by
  unfold TrimSpace
  simp only [trimLeftSpace_noop _ s h1, trimRightSpaceRev_noop _ _ h2, List.reverse_reverse]

/-- Text whose bytes are all graphic ASCII (`!` to `~`) is left as it is by `TrimSpace`. -/
theorem TrimSpace_graphic (s : GoString) (h : ∀ c ∈ s, 33 ≤ c ∧ c < 128) : TrimSpace s = s := by
  apply TrimSpace_noop
  · cases s with
    | nil => exact leadingSpaceWidth_nil
    | cons c t =>
      have hc := h c (List.mem_cons_self _ _)
      unfold leadingSpaceWidth
      rw [List.find?_eq_none.2]
      intro e he
      simp [isPrefixOf_graphic e he c t hc.1 hc.2]
  · cases hr : s.reverse with
    | nil => decide
    | cons c t =>
      have hmem : c ∈ s := by
        rw [← List.mem_reverse, hr]; exact List.mem_cons_self _ _
      have hc := h c hmem
      rw [List.find?_eq_none]
      intro e he
      simp [isPrefixOf_reverse_graphic e he c t hc.1 hc.2]

theorem containsDoubleHyphen_of_not_mem (s : GoString) (h : 45 ∉ s) :
    containsDoubleHyphen s = false := by
  induction s using containsDoubleHyphen.induct with
  | case1 rest => simp at h
  | case2 c rest hne ih =>
    rw [containsDoubleHyphen]
    · exact ih (fun hm => h (List.mem_cons_of_mem _ hm))
    · exact hne
  | case3 => simp [containsDoubleHyphen]

/-- A hexadecimal short SHA is its own cleaned tag, and a valid one. -/
theorem cleanTag_hex (U : Unicode) (s : GoString) (h : IsHexSHA s) :
    cleanTag U s = s ∧ validateTag s = true := by
  obtain ⟨hlen1, hlen2, hc⟩ := h
  have htrim : TrimSpace s = s := TrimSpace_graphic s (fun c hcs => by
    rcases hc c hcs with h | h <;> omega)
  have hascii : isASCII s = true := by
    simp only [isASCII, List.all_eq_true, decide_eq_true_eq]
    intro c hcs
    rcases hc c hcs with h | h <;> omega
  have hlow : s.map asciiLowerByte = s := by
    conv_rhs => rw [← List.map_id s]
    apply List.map_congr_left
    intro c hcs
    unfold asciiLowerByte
    rcases hc c hcs with h | h <;> simp <;> omega
  have hne : s ≠ [] := by
    intro e; subst e; simp at hlen1
  have hr1 : replaceByte 47 45 s = s := by
    unfold replaceByte
    conv_rhs => rw [← List.map_id s]
    apply List.map_congr_left
    intro c hcs
    rcases hc c hcs with h | h <;> simp <;> omega
  have hr2 : replaceByte 32 45 s = s := by
    unfold replaceByte
    conv_rhs => rw [← List.map_id s]
    apply List.map_congr_left
    intro c hcs
    rcases hc c hcs with h | h <;> simp <;> omega
  have h45 : 45 ∉ s := by
    intro hm
    rcases hc 45 hm with h | h <;> omega
  constructor
  · unfold cleanTag ToLower
    simp only [htrim, hascii, if_true, hlow, hne, if_false, hr1, hr2,
      collapseHyphens_of_none s (containsDoubleHyphen_of_not_mem s h45)]
    rw [if_neg (by omega)]
  · rw [validateTag_iff]
    refine ⟨hlen1, hlen2, ?_⟩
    intro c hcs
    rw [tagByte_iff]
    rcases hc c hcs with h | h
    · right; left; exact h
    · left; omega

theorem not_whitespaceOnly (s : GoString) (h : TrimSpace s ≠ []) : ¬WhitespaceOnly s :=
  fun hw => h ((TrimSpace_eq_nil_iff s).2 hw)

theorem trimSpace_ne_nil (s : GoString) (h : ¬WhitespaceOnly s) : TrimSpace s ≠ [] :=
  fun he => h ((TrimSpace_eq_nil_iff s).1 he)

/-- The fuel of the right-hand trim is enough: the result ends with no white space. -/
theorem trimRightSpaceRev_done (fuel : Nat) (s : GoString) (h : s.length ≤ fuel) :
    spaceEncodings.find? (fun e => e.reverse.isPrefixOf (TrimSpace.trimRightSpaceRev fuel s))
      = none := by
  induction fuel generalizing s with
  | zero =>
    have : s = [] := List.length_eq_zero.1 (by omega)
    subst this
    decide
  | succ f ih =>
    unfold TrimSpace.trimRightSpaceRev
    cases hfind : spaceEncodings.find? (fun e => e.reverse.isPrefixOf s) with
    | none => simpa using hfind
    | some e =>
      simp only []
      apply ih
      have hpos := spaceEncoding_length_pos e (List.mem_of_find?_eq_some hfind)
      rw [List.length_drop]
      omega

theorem refOf_ascii (U : Unicode) (base tag : GoString) (h : isASCII (TrimSpace tag) = true) :
    refOf U base tag = refOf Unicode.ascii base tag := by
  unfold refOf
  rw [cleanTag_ascii U tag h]

theorem nodup_planBuild (U : Unicode) (env : Env) (ctx : Context) (flow : Flow) :
    (PlanBuild U env ctx flow).Refs.Nodup := by
  by_cases hb : TrimSpace ctx.RegistryImage = [] ∨ TrimSpace ctx.ApplicationName = []
  · rw [PlanBuild_blank U env ctx flow hb]
    exact List.nodup_nil
  · rw [not_or] at hb
    rw [PlanBuild_refs U env ctx flow hb.1 hb.2]
    exact nodup_dedupRefs _

theorem plan_eq (p : Plan) (refs : List GoString) (push : Bool) (h1 : p.Refs = refs)
    (h2 : p.Push = push) : p = { Refs := refs, Push := push } := by
  cases p
  simp only [Plan.mk.injEq]
  exact ⟨h1, h2⟩

/-! ## The claims -/

/-- C1: every reference in the Plan returned by `PlanBuild` is `base + ":" + tag`,
where the tag segment (the text after the last `:`) is 1 to 128 bytes long and
consists only of `a-z`, `0-9`, `_`, `.` and `-`; in particular it holds no
uppercase letter and no space. -/
theorem planBuild_refs_tag_valid (U : Unicode) (env : Env) (ctx : Context) (flow : Flow)
    (r : GoString) (hr : r ∈ (PlanBuild U env ctx flow).Refs) :
    ∃ tag, r = planBase ctx ++ str ":" ++ tag ∧ tagSegment r = tag ∧
      1 ≤ tag.length ∧ tag.length ≤ 128 ∧
      (∀ c ∈ tag, (97 ≤ c ∧ c ≤ 122) ∨ (48 ≤ c ∧ c ≤ 57) ∨ c = 95 ∨ c = 46 ∨ c = 45) ∧
      (∀ c ∈ tagSegment r, ¬(65 ≤ c ∧ c ≤ 90) ∧ c ≠ 32) := by
  by_cases hb : TrimSpace ctx.RegistryImage = [] ∨ TrimSpace ctx.ApplicationName = []
  · rw [PlanBuild_blank U env ctx flow hb] at hr
    simp at hr
  · rw [not_or] at hb
    rw [PlanBuild_refs U env ctx flow hb.1 hb.2] at hr
    obtain ⟨cand, _, hr1, hv⟩ := mem_specRefs U env ctx flow _ r hr
    obtain ⟨hl1, hl2, hbytes⟩ := (validateTag_iff _).1 hv
    have hclass : ∀ c ∈ cleanTag U cand,
        (97 ≤ c ∧ c ≤ 122) ∨ (48 ≤ c ∧ c ≤ 57) ∨ c = 95 ∨ c = 46 ∨ c = 45 :=
      fun c hc => (tagByte_iff c).1 (hbytes c hc)
    have hseg : tagSegment r = cleanTag U cand := by
      rw [hr1]
      apply tagSegment_ref
      intro c hc
      rcases hclass c hc with h | h | h | h | h <;> omega
    refine ⟨cleanTag U cand, hr1, hseg, hl1, hl2, hclass, ?_⟩
    rw [hseg]
    intro c hc
    rcases hclass c hc with h | h | h | h | h <;> omega

/-- C1, at the default-branch scenario run: the reference for the branch tag. -/
theorem planBuild_refs_tag_valid_witness :
    str "registry.example.com/group/svc:main"
        ∈ (PlanBuild Unicode.ascii emptyEnv scenarioDefault FlowDefault).Refs ∧
      ∃ tag, str "registry.example.com/group/svc:main"
          = planBase scenarioDefault ++ str ":" ++ tag ∧
        tagSegment (str "registry.example.com/group/svc:main") = tag ∧
        1 ≤ tag.length ∧ tag.length ≤ 128 ∧
        (∀ c ∈ tag, (97 ≤ c ∧ c ≤ 122) ∨ (48 ≤ c ∧ c ≤ 57) ∨ c = 95 ∨ c = 46 ∨ c = 45) ∧
        (∀ c ∈ tagSegment (str "registry.example.com/group/svc:main"),
          ¬(65 ≤ c ∧ c ≤ 90) ∧ c ≠ 32) :=
  ⟨by decide,
    planBuild_refs_tag_valid Unicode.ascii emptyEnv scenarioDefault FlowDefault _ (by decide)⟩

/-- The publish decision of a Feature plan as the code takes it: publish unless
the run is a direct push without `PUSH_FEATURE=true`. -/
theorem planBuild_feature_push (U : Unicode) (env : Env) (ctx : Context)
    (h1 : TrimSpace ctx.RegistryImage ≠ []) (h2 : TrimSpace ctx.ApplicationName ≠ []) :
    (PlanBuild U env ctx FlowFeature).Push = true ↔
      (EqualFold U (TrimSpace ctx.Source) (str "push") = true →
        env (str "PUSH_FEATURE") = str "true") := by
  rw [PlanBuild_push U env ctx FlowFeature h1 h2]
  by_cases hp : EqualFold U (TrimSpace ctx.Source) (str "push") = true
  · simp only [hp, and_self, if_true, decide_eq_true_eq, true_implies]
    unfold getenv
    by_cases he : env (str "PUSH_FEATURE") = []
    · simp only [he, ne_eq, not_true_eq_false, if_false]
    · simp only [ne_eq, he, not_false_eq_true, if_true]
  · simp [hp]

/-- C2, the code at the failing input: a pipeline started from the web UI on a
feature branch is classified as Feature, no option is set, and the plan has
`Push = true`. -/
theorem planBuild_feature_web_pushes :
    ResolveFlow featureWebRun FlowAuto = FlowFeature ∧
      emptyEnv (str "PUSH_FEATURE") ≠ str "true" ∧
      EqualFold Unicode.ascii (TrimSpace featureWebRun.Source) (str "push") = false ∧
      PlanBuild Unicode.ascii emptyEnv featureWebRun FlowFeature =
        { Refs := [str "registry.example.com/group/svc:abc12345"], Push := true } := by
  decide

/-- C3: `ResolveFlow` is the classifier of the specification: a forced flow
other than `Auto` is returned unchanged, else Release if `IsTag`, else
MergeRequest if `IsMergeRequest`, else Default if `IsDefaultBranch`, else
Feature if `IsFeatureBranch`, else Default; a tag build is Release even on a
feature-prefixed ref, and the result is never `Auto`. -/
theorem resolveFlow_eq_spec (ctx : Context) (forced : Flow) :
    ResolveFlow ctx forced = resolveFlowSpec ctx forced ∧
      ResolveFlow { ctx with IsTag := true, IsFeatureBranch := true } FlowAuto = FlowRelease ∧
      ResolveFlow ctx forced ≠ FlowAuto := by
  refine ⟨?_, by simp [ResolveFlow], ?_⟩
  · unfold ResolveFlow resolveFlowSpec
    by_cases hf : forced = FlowAuto
    · subst hf
      cases ctx.IsTag <;> cases ctx.IsMergeRequest <;> cases ctx.IsDefaultBranch <;>
        cases ctx.IsFeatureBranch <;> simp
    · simp [hf]
  · unfold ResolveFlow
    by_cases hf : forced = FlowAuto
    · subst hf
      cases ctx.IsTag <;> cases ctx.IsMergeRequest <;> cases ctx.IsDefaultBranch <;>
        cases ctx.IsFeatureBranch <;> simp <;> decide
    · simp [hf]

/-- C4 as stated fails: for the release run whose registry base carries a
leading blank, the references of the plan are built on the trimmed base, not
on the registry base as it stands. -/
theorem planBuild_refs_rawBase_counterexample :
    ¬WhitespaceOnly paddedReleaseRun.RegistryImage ∧
      ¬WhitespaceOnly paddedReleaseRun.ApplicationName ∧
      (PlanBuild Unicode.ascii tagLatestEnv paddedReleaseRun FlowRelease).Refs =
        [str "registry.example.com/group/svc:v2.0.0",
          str "registry.example.com/group/svc:latest"] ∧
      specRefs Unicode.ascii tagLatestEnv paddedReleaseRun FlowRelease
          (rawBase paddedReleaseRun) =
        [str " registry.example.com/group/svc:v2.0.0",
          str " registry.example.com/group/svc:latest"] ∧
      (PlanBuild Unicode.ascii tagLatestEnv paddedReleaseRun FlowRelease).Refs ≠
        specRefs Unicode.ascii tagLatestEnv paddedReleaseRun FlowRelease
          (rawBase paddedReleaseRun) :=
  ⟨not_whitespaceOnly _ (by decide), not_whitespaceOnly _ (by decide), by decide, by decide,
    by decide⟩

/-- C4, amended: for a context with a non-blank registry base and application
name, the refs of `PlanBuild` are the de-duplicated list of
`base + ":" + cleanTag(t)` over the flow's candidate tags `t` in table order,
skipping the candidates whose cleaned form is empty or invalid, where `base`
is the white-space-trimmed registry base with trailing `/` stripped, `/`, and
the white-space-trimmed application name. -/
theorem planBuild_refs_table (U : Unicode) (env : Env) (ctx : Context) (flow : Flow)
    (h1 : ¬WhitespaceOnly ctx.RegistryImage) (h2 : ¬WhitespaceOnly ctx.ApplicationName) :
    (PlanBuild U env ctx flow).Refs =
        dedupRefs ((candidateTags env ctx flow).filterMap (refOf U (planBase ctx))) ∧
      planBase ctx =
        TrimRightSlash (TrimSpace ctx.RegistryImage) ++ str "/" ++ TrimSpace ctx.ApplicationName :=
  ⟨PlanBuild_refs U env ctx flow (trimSpace_ne_nil _ h1) (trimSpace_ne_nil _ h2), rfl⟩

/-- C4, amended, at the release run with `SYAC_TAG_LATEST=true`: the refs are
`base:v2.0.0`, `base:latest`. -/
theorem planBuild_refs_table_witness :
    (¬WhitespaceOnly releaseRun.RegistryImage ∧ ¬WhitespaceOnly releaseRun.ApplicationName) ∧
      ((PlanBuild Unicode.ascii tagLatestEnv releaseRun FlowRelease).Refs =
          dedupRefs ((candidateTags tagLatestEnv releaseRun FlowRelease).filterMap
            (refOf Unicode.ascii (planBase releaseRun))) ∧
        planBase releaseRun =
          TrimRightSlash (TrimSpace releaseRun.RegistryImage) ++ str "/"
            ++ TrimSpace releaseRun.ApplicationName) ∧
      dedupRefs ((candidateTags tagLatestEnv releaseRun FlowRelease).filterMap
          (refOf Unicode.ascii (planBase releaseRun))) =
        [str "registry.example.com/group/svc:v2.0.0",
          str "registry.example.com/group/svc:latest"] :=
  ⟨⟨not_whitespaceOnly _ (by decide), not_whitespaceOnly _ (by decide)⟩,
    planBuild_refs_table Unicode.ascii tagLatestEnv releaseRun FlowRelease
      (not_whitespaceOnly _ (by decide)) (not_whitespaceOnly _ (by decide)),
    by decide⟩

/-- C5: when the registry base or the application name is empty or white space
only, `PlanBuild` returns the plan with no refs and `Push = false`, whatever
the flow and the options. -/
theorem planBuild_blank_inputs (U : Unicode) (env : Env) (ctx : Context) (flow : Flow)
    (h : WhitespaceOnly ctx.RegistryImage ∨ WhitespaceOnly ctx.ApplicationName) :
    PlanBuild U env ctx flow = { Refs := [], Push := false } := by
  apply PlanBuild_blank
  rcases h with h | h
  · exact Or.inl ((TrimSpace_eq_nil_iff _).2 h)
  · exact Or.inr ((TrimSpace_eq_nil_iff _).2 h)

/-- C5, at a run whose registry base is a blank and a tab. -/
theorem planBuild_blank_inputs_witness :
    (WhitespaceOnly blankRegistryRun.RegistryImage ∨
        WhitespaceOnly blankRegistryRun.ApplicationName) ∧
      PlanBuild Unicode.ascii tagLatestEnv blankRegistryRun FlowRelease =
        { Refs := [], Push := false } :=
  ⟨Or.inl ⟨[[32], [9]], by decide, by decide⟩,
    planBuild_blank_inputs Unicode.ascii tagLatestEnv blankRegistryRun FlowRelease
      (Or.inl ⟨[[32], [9]], by decide, by decide⟩)⟩

/-- C6: for a context with a non-blank registry base and application name and
a flow other than Feature, `PlanBuild` returns `Push = true`, whatever the
pipeline source, the options and the refs. -/
theorem planBuild_push_other_flows (U : Unicode) (env : Env) (ctx : Context) (flow : Flow)
    (h1 : ¬WhitespaceOnly ctx.RegistryImage) (h2 : ¬WhitespaceOnly ctx.ApplicationName)
    (hf : flow ≠ FlowFeature) : (PlanBuild U env ctx flow).Push = true := by
  rw [PlanBuild_push U env ctx flow (trimSpace_ne_nil _ h1) (trimSpace_ne_nil _ h2)]
  simp [hf]

/-- C6, at the unresolved flow `Auto` for a context with no tag at all: no ref
is produced and `Push` is true. -/
theorem planBuild_push_other_flows_witness :
    (¬WhitespaceOnly ({ emptyContext with RegistryImage := str "reg", ApplicationName := str "svc" }
        : Context).RegistryImage ∧
      ¬WhitespaceOnly ({ emptyContext with RegistryImage := str "reg", ApplicationName := str "svc" }
        : Context).ApplicationName ∧ FlowAuto ≠ FlowFeature) ∧
      (PlanBuild Unicode.ascii emptyEnv
        { emptyContext with RegistryImage := str "reg", ApplicationName := str "svc" }
        FlowAuto).Refs = [] ∧
      (PlanBuild Unicode.ascii emptyEnv
        { emptyContext with RegistryImage := str "reg", ApplicationName := str "svc" }
        FlowAuto).Push = true :=
  ⟨⟨not_whitespaceOnly _ (by decide), not_whitespaceOnly _ (by decide), by decide⟩, by decide,
    planBuild_push_other_flows Unicode.ascii emptyEnv _ FlowAuto
      (not_whitespaceOnly _ (by decide)) (not_whitespaceOnly _ (by decide)) (by decide)⟩

/-- C7: `dedupRefs l` has no repeated element, holds exactly the elements of
`l`, lists them in the order of their first occurrence in `l`, is a
subsequence of `l`, and is left unchanged by a second `dedupRefs`; the refs of
every plan are pairwise distinct, as in the default-branch run whose branch
name and short SHA clean to the same tag. -/
theorem dedupRefs_first_occurrence (l : List GoString) (U : Unicode) (env : Env) (ctx : Context)
    (flow : Flow) :
    (dedupRefs l).Nodup ∧ (∀ x, x ∈ dedupRefs l ↔ x ∈ l) ∧
      (∀ a ∈ l, ∀ b ∈ l,
        (dedupRefs l).indexOf a < (dedupRefs l).indexOf b ↔ l.indexOf a < l.indexOf b) ∧
      (dedupRefs l).Sublist l ∧ dedupRefs (dedupRefs l) = dedupRefs l ∧
      (PlanBuild U env ctx flow).Refs.Nodup ∧
      PlanBuild Unicode.ascii emptyEnv sameTagRun FlowDefault =
        { Refs := [str "registry.example.com/group/svc:abc12345"], Push := true } :=
  ⟨nodup_dedupRefs l, mem_dedupRefs l, fun a ha b hb => indexOf_dedupRefs_lt l a b ha hb,
    sublist_dedupRefs l, dedupRefs_of_nodup _ (nodup_dedupRefs l), nodup_planBuild U env ctx flow,
    by decide⟩

/-- C8 as stated fails: two calls with the same context and the same flow
return different plans when `SYAC_TAG_LATEST` differs between them. -/
theorem planBuild_env_counterexample :
    PlanBuild Unicode.ascii emptyEnv releaseRun FlowRelease =
        { Refs := [str "registry.example.com/group/svc:v2.0.0"], Push := true } ∧
      PlanBuild Unicode.ascii tagLatestEnv releaseRun FlowRelease =
        { Refs := [str "registry.example.com/group/svc:v2.0.0",
            str "registry.example.com/group/svc:latest"], Push := true } ∧
      PlanBuild Unicode.ascii emptyEnv releaseRun FlowRelease ≠
        PlanBuild Unicode.ascii tagLatestEnv releaseRun FlowRelease := by
  decide

/-- C8, amended: two calls of `PlanBuild` with the same context, the same flow
and the same values of the four option variables `SYAC_LATEST_ON_FEATURE`,
`SYAC_LATEST_ON_DEFAULT`, `SYAC_TAG_LATEST` and `PUSH_FEATURE` return the same
plan, whatever else differs in the environment. -/
theorem planBuild_deterministic (U : Unicode) (env1 env2 : Env) (ctx : Context) (flow : Flow)
    (h : ∀ k ∈ optionVars, env1 k = env2 k) :
    PlanBuild U env1 ctx flow = PlanBuild U env2 ctx flow := by
  have e1 : env1 (str "SYAC_LATEST_ON_FEATURE") = env2 (str "SYAC_LATEST_ON_FEATURE") :=
    h _ (by simp [optionVars])
  have e2 : env1 (str "SYAC_LATEST_ON_DEFAULT") = env2 (str "SYAC_LATEST_ON_DEFAULT") :=
    h _ (by simp [optionVars])
  have e3 : env1 (str "SYAC_TAG_LATEST") = env2 (str "SYAC_TAG_LATEST") :=
    h _ (by simp [optionVars])
  have e4 : env1 (str "PUSH_FEATURE") = env2 (str "PUSH_FEATURE") :=
    h _ (by simp [optionVars])
  unfold PlanBuild planRefs getenv
  rw [e1, e2, e3, e4]

/-- C8, amended, at two environments that differ in `SYAC_DRY_RUN` only. -/
theorem planBuild_deterministic_witness :
    (∀ k ∈ optionVars, emptyEnv k = dryRunEnv k) ∧ emptyEnv ≠ dryRunEnv ∧
      PlanBuild Unicode.ascii emptyEnv releaseRun FlowRelease =
        PlanBuild Unicode.ascii dryRunEnv releaseRun FlowRelease :=
  ⟨by decide, fun e => absurd (congrFun e (str "SYAC_DRY_RUN")) (by decide),
    planBuild_deterministic Unicode.ascii emptyEnv dryRunEnv releaseRun FlowRelease (by decide)⟩

/-- C9 as stated fails: with no existing tag and the Patch bump the run
forecasts the RC version `0.0.1-abc12345`, not `0.0.1-rc.1`, and the second
ref of the Default plan carries that version. -/
theorem scenarioDefault_rc_counterexample :
    GetNextVersion (some []) scenarioDefault.BumpType = (⟨0, 0, 0⟩, ⟨0, 0, 1⟩) ∧
      (forecastStep scenarioDefault (some (some []))).NextRCVersion ≠ str "0.0.1-rc.1" ∧
      PlanBuild Unicode.ascii emptyEnv (forecastStep scenarioDefault (some (some []))) FlowDefault ≠
        { Refs := [str "registry.example.com/group/svc:abc12345",
            str "registry.example.com/group/svc:0.0.1-rc.1",
            str "registry.example.com/group/svc:main"], Push := true } := by
  decide

theorem candidateTags_default (env : Env) (ctx : Context)
    (h : env (str "SYAC_LATEST_ON_DEFAULT") ≠ str "true") :
    candidateTags env ctx FlowDefault = [ctx.ShortSHA, ctx.NextRCVersion, ctx.DefaultBranch] := by
  unfold candidateTags latestIf
  rw [if_neg (by decide), if_neg (by decide), if_pos rfl, if_neg h]
  rfl

/-- C9, amended: for the default-branch run with short SHA `abc12345`, default
branch `main`, registry base `registry.example.com/group`, application name
`svc`, the Patch bump and no existing tag, the RC version the run computes is
`0.0.1-abc12345` (the next version followed by the short SHA), and, the
default-latest option not being enabled, the Default plan is the three refs
for `abc12345`, `0.0.1-abc12345` and `main` with publish true. -/
theorem scenarioDefault_plan (U : Unicode) (env : Env)
    (h : env (str "SYAC_LATEST_ON_DEFAULT") ≠ str "true") :
    (forecastStep scenarioDefault (some (some []))).NextRCVersion = str "0.0.1-abc12345" ∧
      PlanBuild U env (forecastStep scenarioDefault (some (some []))) FlowDefault =
        { Refs := [str "registry.example.com/group/svc:abc12345",
            str "registry.example.com/group/svc:0.0.1-abc12345",
            str "registry.example.com/group/svc:main"], Push := true } := by
  refine ⟨by decide, ?_⟩
  apply plan_eq
  · rw [PlanBuild_refs U env _ FlowDefault (by decide) (by decide)]
    unfold specRefs
    rw [candidateTags_default env _ h]
    have hcongr : ∀ x ∈ [(forecastStep scenarioDefault (some (some []))).ShortSHA,
        (forecastStep scenarioDefault (some (some []))).NextRCVersion,
        (forecastStep scenarioDefault (some (some []))).DefaultBranch],
        refOf U (planBase (forecastStep scenarioDefault (some (some [])))) x =
          refOf Unicode.ascii (planBase (forecastStep scenarioDefault (some (some [])))) x := by
      intro x hx
      apply refOf_ascii
      simp only [List.mem_cons, List.mem_singleton, List.not_mem_nil, or_false] at hx
      rcases hx with hx | hx | hx <;> subst hx <;> decide
    rw [List.filterMap_congr hcongr]
    decide
  · rw [PlanBuild_push U env _ FlowDefault (by decide) (by decide)]
    rw [if_neg]
    intro hc
    exact absurd hc.1 (by decide)

/-- C9, amended, with no option variable set. -/
theorem scenarioDefault_plan_witness :
    emptyEnv (str "SYAC_LATEST_ON_DEFAULT") ≠ str "true" ∧
      (forecastStep scenarioDefault (some (some []))).NextRCVersion = str "0.0.1-abc12345" ∧
      PlanBuild Unicode.ascii emptyEnv (forecastStep scenarioDefault (some (some []))) FlowDefault =
        { Refs := [str "registry.example.com/group/svc:abc12345",
            str "registry.example.com/group/svc:0.0.1-abc12345",
            str "registry.example.com/group/svc:main"], Push := true } :=
  ⟨by decide, scenarioDefault_plan Unicode.ascii emptyEnv (by decide)⟩

theorem filterMap_candidateTags_noRC (U : Unicode) (env : Env) (ctx : Context) (flow : Flow)
    (base : GoString) (hrc : ctx.NextRCVersion = []) :
    (candidateTags env ctx flow).filterMap (refOf U base) =
      (candidateTagsNoRC env ctx flow).filterMap (refOf U base) := by
  unfold candidateTags candidateTagsNoRC
  by_cases h1 : flow = FlowFeature
  · simp only [h1, if_true]
  · simp only [h1, if_false]
    by_cases h2 : flow = FlowMR
    · simp [h2, filterMap_cons_toList, hrc, refOf_nil]
    · simp only [h2, if_false]
      by_cases h3 : flow = FlowDefault
      · simp [h3, filterMap_cons_toList, hrc, refOf_nil]
      · simp only [h3, if_false]
        by_cases h4 : flow = FlowRelease
        · simp only [h4, if_true]
        · simp [h4, filterMap_cons_toList, hrc, refOf_nil]

theorem refOf_hex (U : Unicode) (base s : GoString) (h : IsHexSHA s) :
    refOf U base s = some (base ++ str ":" ++ s) := by
  obtain ⟨hc, hv⟩ := cleanTag_hex U s h
  have hne : s ≠ [] := by
    intro e; subst e; exact absurd h.1 (by simp)
  unfold refOf
  rw [hc, if_neg]
  simp [hne, hv]

/-- C10 as stated fails: the merge-request run whose registry base is white
space only carries no RC version and a short SHA that is a valid tag, and its
plan is empty with `Push = false`, not `[base:shortSHA]` with `Push = true`. -/
theorem planBuild_without_rc_blank_counterexample :
    blankMergeRequestRun.NextRCVersion = [] ∧ IsHexSHA blankMergeRequestRun.ShortSHA ∧
      validateTag (cleanTag Unicode.ascii blankMergeRequestRun.ShortSHA) = true ∧
      PlanBuild Unicode.ascii emptyEnv blankMergeRequestRun FlowMR =
        { Refs := [], Push := false } ∧
      PlanBuild Unicode.ascii emptyEnv blankMergeRequestRun FlowMR ≠
        { Refs := [planBase blankMergeRequestRun ++ str ":" ++ blankMergeRequestRun.ShortSHA],
          Push := true } := by
  decide

/-- C10, amended: for a context with a non-blank registry base and application
name that carries no RC version, the refs of the plan are those of the flow's
other candidates, in table order, each one skipped only if its own cleaned
form is empty or invalid; flow MergeRequest with a hexadecimal short SHA and
no RC version yields exactly `[base:shortSHA]` with `Push = true`.  Every
other context gets the empty plan with `Push = false`, so each context and
flow has a plan, and the loops of `cleanTag` and `TrimSpace` reach their exit
condition within the fuel of the model. -/
theorem planBuild_without_rc (U : Unicode) (env : Env) (ctx : Context) (flow : Flow)
    (h1 : ¬WhitespaceOnly ctx.RegistryImage) (h2 : ¬WhitespaceOnly ctx.ApplicationName)
    (hrc : ctx.NextRCVersion = []) :
    (PlanBuild U env ctx flow).Refs =
        dedupRefs ((candidateTagsNoRC env ctx flow).filterMap (refOf U (planBase ctx))) ∧
      (IsHexSHA ctx.ShortSHA →
        PlanBuild U env ctx FlowMR =
          { Refs := [planBase ctx ++ str ":" ++ ctx.ShortSHA], Push := true }) ∧
      (∀ (c : Context) (f : Flow),
        WhitespaceOnly c.RegistryImage ∨ WhitespaceOnly c.ApplicationName →
          PlanBuild U env c f = { Refs := [], Push := false }) ∧
      (∀ s, containsDoubleHyphen (collapseHyphens s) = false) ∧
      (∀ s, leadingSpaceWidth (trimLeftSpace s.length s) = 0) ∧
      (∀ s, spaceEncodings.find?
        (fun e => e.reverse.isPrefixOf (TrimSpace.trimRightSpaceRev s.length s)) = none) := by
  have t1 := trimSpace_ne_nil _ h1
  have t2 := trimSpace_ne_nil _ h2
  refine ⟨?_, ?_, ?_, collapseHyphens_done,
    fun s => trimLeftSpace_done _ s (Nat.le_refl _),
    fun s => trimRightSpaceRev_done _ s (Nat.le_refl _)⟩
  · rw [PlanBuild_refs U env ctx flow t1 t2]
    unfold specRefs
    rw [filterMap_candidateTags_noRC U env ctx flow _ hrc]
  · intro hhex
    apply plan_eq
    · rw [PlanBuild_refs U env ctx FlowMR t1 t2]
      unfold specRefs
      rw [filterMap_candidateTags_noRC U env ctx FlowMR _ hrc]
      have hc : candidateTagsNoRC env ctx FlowMR = [ctx.ShortSHA] := by
        unfold candidateTagsNoRC
        rw [if_neg (by decide), if_pos rfl]
      rw [hc, filterMap_cons_toList, refOf_hex U _ _ hhex]
      simp [dedupRefs_cons, dedupRefs_nil]
    · rw [PlanBuild_push U env ctx FlowMR t1 t2, if_neg]
      intro hc
      exact absurd hc.1 (by decide)
  · intro c f hb
    apply PlanBuild_blank
    rcases hb with hb | hb
    · exact Or.inl ((TrimSpace_eq_nil_iff _).2 hb)
    · exact Or.inr ((TrimSpace_eq_nil_iff _).2 hb)

/-- C10, amended, at the merge-request run with short SHA `abc12345` and no RC
version. -/
theorem planBuild_without_rc_witness :
    (¬WhitespaceOnly mergeRequestRun.RegistryImage ∧
        ¬WhitespaceOnly mergeRequestRun.ApplicationName ∧
        mergeRequestRun.NextRCVersion = [] ∧ IsHexSHA mergeRequestRun.ShortSHA) ∧
      PlanBuild Unicode.ascii emptyEnv mergeRequestRun FlowMR =
        { Refs := [str "registry.example.com/group/svc:abc12345"], Push := true } :=
  ⟨⟨not_whitespaceOnly _ (by decide), not_whitespaceOnly _ (by decide), rfl, by decide⟩,
    (planBuild_without_rc Unicode.ascii emptyEnv mergeRequestRun FlowMR
      (not_whitespaceOnly _ (by decide)) (not_whitespaceOnly _ (by decide)) rfl).2.1
      (by decide)⟩

/-! ## Numerals -/

theorem digitsValue_eq_some_iff (d : GoString) (acc n : Nat) :
    digitsValue acc d = some n ↔
      (∀ c ∈ d, isDigit c) ∧ n = d.foldl (fun a c => a * 10 + (c - 48)) acc := by
  induction d generalizing acc with
  | nil => simp [digitsValue, eq_comm]
  | cons c rest ih =>
    unfold digitsValue
    by_cases hc : 48 ≤ c ∧ c ≤ 57
    · rw [if_pos hc, ih]
      simp [isDigit, hc]
    · rw [if_neg hc]
      simp [isDigit, hc]

theorem digitsValue_digits (d : GoString) (h : ∀ c ∈ d, isDigit c) :
    digitsValue 0 d = some (digitsNat d) :=
  (digitsValue_eq_some_iff d 0 _).2 ⟨h, rfl⟩

theorem Atoi_eq_some_iff (a : GoString) (n : Int) : Atoi a = some n ↔ IsInt64Numeral a n := by
  unfold Atoi IsInt64Numeral
  constructor
  · intro h
    cases a with
    | nil => simp at h
    | cons x rest =>
      by_cases hx45 : x = 45
      · subst hx45
        simp only [List.head?_cons, true_or, if_true, List.tail_cons] at h
        by_cases hr : rest = []
        · simp [hr] at h
        · rw [if_neg hr] at h
          cases hv : digitsValue 0 rest with
          | none => simp [hv] at h
          | some m =>
            rw [hv] at h
            simp only [if_true] at h
            obtain ⟨hd, hm⟩ := (digitsValue_eq_some_iff rest 0 m).1 hv
            by_cases hle : m ≤ 2 ^ 63
            · rw [if_pos hle] at h
              refine ⟨rest, ⟨hr, hd⟩, Or.inr ⟨rfl, ?_, ?_⟩⟩
              · rw [← Option.some.inj h, hm]; rfl
              · rw [hm] at hle; exact hle
            · rw [if_neg hle] at h; simp at h
      · by_cases hx43 : x = 43
        · subst hx43
          simp only [List.head?_cons, Option.some.injEq, show (43 : Nat) ≠ 45 by decide,
            false_or, if_true, List.tail_cons, if_false] at h
          by_cases hr : rest = []
          · simp [hr] at h
          · rw [if_neg hr] at h
            cases hv : digitsValue 0 rest with
            | none => simp [hv] at h
            | some m =>
              rw [hv] at h
              simp only [] at h
              obtain ⟨hd, hm⟩ := (digitsValue_eq_some_iff rest 0 m).1 hv
              by_cases hlt : m < 2 ^ 63
              · rw [if_pos hlt] at h
                refine ⟨rest, ⟨hr, hd⟩, Or.inl ⟨Or.inr rfl, ?_, ?_⟩⟩
                · rw [← Option.some.inj h, hm]; rfl
                · rw [hm] at hlt; exact hlt
              · rw [if_neg hlt] at h; simp at h
        · simp only [List.head?_cons, Option.some.injEq, hx45, hx43, or_self, if_false,
            List.cons_ne_nil] at h
          cases hv : digitsValue 0 (x :: rest) with
          | none => simp [hv] at h
          | some m =>
            rw [hv] at h
            simp only [] at h
            obtain ⟨hd, hm⟩ := (digitsValue_eq_some_iff (x :: rest) 0 m).1 hv
            by_cases hlt : m < 2 ^ 63
            · rw [if_pos hlt] at h
              refine ⟨x :: rest, ⟨List.cons_ne_nil _ _, hd⟩, Or.inl ⟨Or.inl rfl, ?_, ?_⟩⟩
              · rw [← Option.some.inj h, hm]; rfl
              · rw [hm] at hlt; exact hlt
            · rw [if_neg hlt] at h; simp at h
  · rintro ⟨d, ⟨hne, hd⟩, h⟩
    have hv := digitsValue_digits d hd
    rcases h with ⟨ha, hn, hlt⟩ | ⟨ha, hn, hle⟩
    · rcases ha with ha | ha
      · subst ha
        cases a with
        | nil => exact absurd rfl hne
        | cons x rest =>
          have hx : isDigit x := hd x (List.mem_cons_self _ _)
          have hx45 : x ≠ 45 := by unfold isDigit at hx; omega
          have hx43 : x ≠ 43 := by unfold isDigit at hx; omega
          simp only [List.head?_cons, Option.some.injEq, hx45, hx43, or_self, if_false,
            List.cons_ne_nil, hv]
          rw [if_pos hlt, hn]
      · subst ha
        simp only [List.head?_cons, Option.some.injEq, show (43 : Nat) ≠ 45 by decide,
          false_or, if_true, List.tail_cons, if_false, hne, hv]
        rw [if_pos hlt, hn]
    · subst ha
      simp only [List.head?_cons, true_or, if_true, List.tail_cons, hne, if_false, hv]
      rw [if_pos hle, hn]

/-! ## `strings.Split` on dots and `Parse` -/

theorem splitDot_ne_nil (s : GoString) : splitDot s ≠ [] := by
  induction s with
  | nil => simp [splitDot]
  | cons c rest ih =>
    unfold splitDot
    by_cases hc : c = 46
    · simp [hc]
    · rw [if_neg hc]
      cases h : splitDot rest with
      | nil => exact absurd h ih
      | cons p ps => simp

theorem splitDot_noDot (a : GoString) (h : 46 ∉ a) : splitDot a = [a] := by
  induction a with
  | nil => rfl
  | cons c rest ih =>
    have hc : c ≠ 46 := fun e => h (e ▸ List.mem_cons_self _ _)
    have hr : 46 ∉ rest := fun hm => h (List.mem_cons_of_mem _ hm)
    unfold splitDot
    rw [if_neg hc, ih hr]

theorem splitDot_append (a rest : GoString) (h : 46 ∉ a) :
    splitDot (a ++ 46 :: rest) = a :: splitDot rest := by
  induction a with
  | nil => simp [splitDot]
  | cons c t ih =>
    have hc : c ≠ 46 := fun e => h (e ▸ List.mem_cons_self _ _)
    have hr : 46 ∉ t := fun hm => h (List.mem_cons_of_mem _ hm)
    rw [List.cons_append, splitDot, if_neg hc, ih hr]

theorem splitDot_cons (s p : GoString) (ps : List GoString) (h : splitDot s = p :: ps) :
    46 ∉ p ∧ ((ps = [] ∧ s = p) ∨ ∃ rest, s = p ++ 46 :: rest ∧ splitDot rest = ps) := by
  induction s generalizing p ps with
  | nil =>
    simp only [splitDot, List.cons.injEq] at h
    obtain ⟨h1, h2⟩ := h
    subst h1 h2
    exact ⟨by simp, Or.inl ⟨rfl, rfl⟩⟩
  | cons c rest ih =>
    unfold splitDot at h
    by_cases hc : c = 46
    · rw [if_pos hc] at h
      simp only [List.cons.injEq] at h
      obtain ⟨h1, h2⟩ := h
      subst h1 hc
      exact ⟨by simp, Or.inr ⟨rest, by simp, h2⟩⟩
    · rw [if_neg hc] at h
      cases hs : splitDot rest with
      | nil => exact absurd hs (splitDot_ne_nil rest)
      | cons q qs =>
        rw [hs] at h
        simp only [List.cons.injEq] at h
        obtain ⟨h1, h2⟩ := h
        subst h1 h2
        obtain ⟨hq, hrest⟩ := ih q qs hs
        refine ⟨?_, ?_⟩
        · intro hm
          rcases List.mem_cons.1 hm with e | e
          · exact hc e.symm
          · exact hq e
        · rcases hrest with ⟨e1, e2⟩ | ⟨r, e1, e2⟩
          · exact Or.inl ⟨e1, by rw [e2]⟩
          · exact Or.inr ⟨r, by rw [e1]; simp, e2⟩

/-- `strings.Split s "."` gives exactly three parts when `s` is three dot-free
segments joined by dots. -/
theorem splitDot_eq_three_iff (s a b c : GoString) :
    splitDot s = [a, b, c] ↔ s = dotted a b c ∧ 46 ∉ a ∧ 46 ∉ b ∧ 46 ∉ c := by
  constructor
  · intro h
    obtain ⟨ha, h1⟩ := splitDot_cons s a [b, c] h
    rcases h1 with ⟨e, _⟩ | ⟨r1, e1, h2⟩
    · simp at e
    · obtain ⟨hb, h3⟩ := splitDot_cons r1 b [c] h2
      rcases h3 with ⟨e, _⟩ | ⟨r2, e2, h4⟩
      · simp at e
      · obtain ⟨hcc, h5⟩ := splitDot_cons r2 c [] h4
        rcases h5 with ⟨_, e3⟩ | ⟨r3, _, h6⟩
        · refine ⟨?_, ha, hb, hcc⟩
          rw [e1, e2, e3]
          simp [dotted]
        · exact absurd h6 (splitDot_ne_nil r3)
  · rintro ⟨e, ha, hb, hc⟩
    rw [e]
    unfold dotted
    have : a ++ [46] ++ b ++ [46] ++ c = a ++ 46 :: (b ++ 46 :: c) := by simp
    rw [this, splitDot_append a _ ha, splitDot_append b _ hb, splitDot_noDot c hc]

theorem Parse_of_split (s a b c : GoString) (h : splitDot s = [a, b, c]) :
    Parse s = (Atoi a).bind fun major => (Atoi b).bind fun minor =>
      (Atoi c).map fun patch => { Major := major, Minor := minor, Patch := patch } := by
  unfold Parse
  rw [h]
  dsimp only
  cases Atoi a <;> cases Atoi b <;> cases Atoi c <;> rfl

theorem Parse_split (s : GoString) (v : Version) (h : Parse s = some v) :
    ∃ a b c, splitDot s = [a, b, c] := by
  unfold Parse at h
  split at h
  · rename_i a b c hs
    exact ⟨a, b, c, hs⟩
  · simp at h

theorem isDigits_noDot (d : GoString) (h : IsDigits d) : 46 ∉ d := by
  intro hm
  have := h.2 46 hm
  unfold isDigit at this
  omega

theorem numeral_noDot (a : GoString) (n : Int) (h : IsInt64Numeral a n) : 46 ∉ a := by
  obtain ⟨d, hd, h1⟩ := h
  have hdd := isDigits_noDot d hd
  rcases h1 with ⟨ha | ha, _, _⟩ | ⟨ha, _, _⟩
  · rw [ha]; exact hdd
  · rw [ha]; simp [hdd]
  · rw [ha]; simp [hdd]

/-- What `Parse` accepts, and what it returns. -/
theorem Parse_eq_some_iff (s : GoString) (v : Version) :
    Parse s = some v ↔
      ∃ a b c, s = dotted a b c ∧ IsInt64Numeral a v.Major ∧ IsInt64Numeral b v.Minor ∧
        IsInt64Numeral c v.Patch := by
  constructor
  · intro h
    obtain ⟨a, b, c, hs⟩ := Parse_split s v h
    rw [Parse_of_split s a b c hs] at h
    cases ha : Atoi a with
    | none => simp [ha] at h
    | some x =>
      cases hb : Atoi b with
      | none => simp [ha, hb] at h
      | some y =>
        cases hc : Atoi c with
        | none => simp [ha, hb, hc] at h
        | some z =>
          simp only [ha, hb, hc, Option.some_bind, Option.map_some', Option.some.injEq] at h
          subst h
          exact ⟨a, b, c, ((splitDot_eq_three_iff s a b c).1 hs).1,
            (Atoi_eq_some_iff a x).1 ha, (Atoi_eq_some_iff b y).1 hb,
            (Atoi_eq_some_iff c z).1 hc⟩
  · rintro ⟨a, b, c, e, ha, hb, hc⟩
    have hs : splitDot s = [a, b, c] :=
      (splitDot_eq_three_iff s a b c).2
        ⟨e, numeral_noDot a _ ha, numeral_noDot b _ hb, numeral_noDot c _ hc⟩
    rw [Parse_of_split s a b c hs, (Atoi_eq_some_iff a _).2 ha, (Atoi_eq_some_iff b _).2 hb,
      (Atoi_eq_some_iff c _).2 hc]
    rfl

/-! ## Decimal rendering -/

theorem decimalDigits_acc (fuel n : Nat) (acc : List Nat) :
    decimalDigits fuel n acc = decimalDigits fuel n [] ++ acc := by
  induction fuel generalizing n acc with
  | zero => simp [decimalDigits]
  | succ f ih =>
    unfold decimalDigits
    by_cases h : n < 10
    · simp [h]
    · rw [if_neg h, if_neg h, ih (n / 10) ((48 + n % 10) :: acc), ih (n / 10) [48 + n % 10]]
      simp

theorem decimalDigits_fuel (f1 f2 n : Nat) (acc : List Nat) (h1 : n < f1) (h2 : n < f2) :
    decimalDigits f1 n acc = decimalDigits f2 n acc := by
  induction f1 generalizing f2 n acc with
  | zero => omega
  | succ f ih =>
    cases f2 with
    | zero => omega
    | succ g =>
      unfold decimalDigits
      by_cases h : n < 10
      · simp [h]
      · rw [if_neg h, if_neg h]
        exact ih g (n / 10) _ (by omega) (by omega)

theorem formatNat_small (n : Nat) (h : n < 10) : formatNat n = [48 + n] := by
  simp [formatNat, decimalDigits, h]

theorem formatNat_step (n : Nat) (h : 10 ≤ n) :
    formatNat n = formatNat (n / 10) ++ [48 + n % 10] := by
  unfold formatNat
  rw [decimalDigits, if_neg (by omega), decimalDigits_acc,
    decimalDigits_fuel n (n / 10 + 1) (n / 10) [] (by omega) (by omega)]

/-- The rendering of a number is a numeral: one or more digits. -/
theorem formatNat_isDigits (n : Nat) : IsDigits (formatNat n) := by
  induction n using Nat.strong_induction_on with
  | _ n ih =>
    by_cases h : n < 10
    · rw [formatNat_small n h]
      refine ⟨by simp, ?_⟩
      intro c hc
      simp only [List.mem_singleton] at hc
      unfold isDigit
      omega
    · rw [formatNat_step n (by omega)]
      obtain ⟨hne, hd⟩ := ih (n / 10) (by omega)
      refine ⟨by simp, ?_⟩
      intro c hc
      rcases List.mem_append.1 hc with hc | hc
      · exact hd c hc
      · simp only [List.mem_singleton] at hc
        unfold isDigit
        omega

theorem digitsNat_append (d : GoString) (c : Nat) :
    digitsNat (d ++ [c]) = digitsNat d * 10 + (c - 48) := by
  simp [digitsNat, List.foldl_append]

theorem foldl_digits_ge (d : GoString) (acc : Nat) :
    acc ≤ d.foldl (fun a c => a * 10 + (c - 48)) acc := by
  induction d generalizing acc with
  | nil => simp
  | cons c t ih =>
    simp only [List.foldl_cons]
    have := ih (acc * 10 + (c - 48))
    omega

theorem digitsNat_pos (d : GoString) (hd : IsDigits d) (h0 : d.head? ≠ some 48) :
    0 < digitsNat d := by
  cases d with
  | nil => exact absurd rfl hd.1
  | cons x t =>
    have hx := hd.2 x (List.mem_cons_self _ _)
    unfold isDigit at hx
    have hx0 : x ≠ 48 := by
      intro e; subst e; simp at h0
    have := foldl_digits_ge t (0 * 10 + (x - 48))
    simp only [digitsNat, List.foldl_cons]
    omega

/-- Rendering the value of a numeral without leading zeros gives the numeral back. -/
theorem formatNat_digitsNat (d : GoString) (hd : IsDigits d) (hz : NoLeadingZero d) :
    formatNat (digitsNat d) = d := by
  induction d using List.reverseRecOn with
  | nil => exact absurd rfl hd.1
  | append_singleton t c ih =>
    have hc : isDigit c := hd.2 c (by simp)
    unfold isDigit at hc
    rw [digitsNat_append]
    by_cases ht : t = []
    · subst ht
      simp only [digitsNat, List.foldl_nil, Nat.zero_mul, Nat.zero_add, List.nil_append]
      rw [formatNat_small _ (by omega)]
      congr 1
      omega
    · have htd : IsDigits t := ⟨ht, fun x hx => hd.2 x (by simp [hx])⟩
      have hhead : t.head? ≠ some 48 := by
        rcases hz with e | e
        · exfalso
          have hl := congrArg List.length e
          simp only [List.length_append, List.length_singleton] at hl
          have : t.length = 0 := by omega
          exact ht (List.length_eq_zero.1 this)
        · cases t with
          | nil => exact absurd rfl ht
          | cons x r => simpa using e
      have hpos := digitsNat_pos t htd hhead
      have ih' := ih htd (Or.inr hhead)
      rw [formatNat_step _ (by omega)]
      have e1 : (digitsNat t * 10 + (c - 48)) / 10 = digitsNat t := by omega
      have e2 : 48 + (digitsNat t * 10 + (c - 48)) % 10 = c := by omega
      rw [e1, e2, ih']

theorem formatInt_natCast (n : Nat) : formatInt (n : Int) = formatNat n := by
  unfold formatInt
  rw [if_neg (by omega)]
  simp

/-! ## Version arithmetic -/

theorem wrapInt64_of_isInt64 (x : Int) (h : IsInt64 x) : wrapInt64 x = x := by
  unfold IsInt64 at h
  unfold wrapInt64
  omega

theorem wrapInt64_succ_ne (x : Int) : wrapInt64 (x + 1) ≠ x := by
  unfold wrapInt64
  omega

theorem wrapInt64_succ_gt (x : Int) (h : x < 2 ^ 63 - 1) : x < wrapInt64 (x + 1) := by
  unfold wrapInt64
  omega

theorem Increment_Major (v : Version) :
    v.Increment Major = { Major := wrapInt64 (v.Major + 1), Minor := 0, Patch := 0 } := by
  simp [Version.Increment]

theorem Increment_Minor (v : Version) :
    v.Increment Minor = { Major := v.Major, Minor := wrapInt64 (v.Minor + 1), Patch := 0 } := by
  have h : Minor ≠ Major := by decide
  simp [Version.Increment, h]

theorem Increment_Patch (v : Version) :
    v.Increment Patch = { Major := v.Major, Minor := v.Minor, Patch := wrapInt64 (v.Patch + 1) } := by
  have h1 : Patch ≠ Major := by decide
  have h2 : Patch ≠ Minor := by decide
  simp [Version.Increment, h1, h2]

theorem Increment_other (v : Version) (k : VersionType) (h1 : k ≠ Major) (h2 : k ≠ Minor)
    (h3 : k ≠ Patch) : v.Increment k = v := by
  simp [Version.Increment, h1, h2, h3]

theorem lessThan_iff (a b : Version) : a.LessThan b = true ↔ a.lexLt b := by
  unfold Version.LessThan Version.lexLt
  split_ifs with h1 h2 <;> simp only [decide_eq_true_eq] <;> omega

/-! ## The claims on versions -/

/-- C11 as stated fails in both directions: `Parse` accepts `-1.2.3` and
returns the negative Major `-1`, and it rejects `9223372036854775808.0.0`,
three non-negative integer numerals, because the first is out of the range of `int`. -/
theorem parse_sign_range_counterexample :
    Parse (str "-1.2.3") = some { Major := -1, Minor := 2, Patch := 3 } ∧
      ¬IsDigits (str "-1") ∧
      IsDigits (str "9223372036854775808") ∧ IsDigits (str "0") ∧
      Parse (dotted (str "9223372036854775808") (str "0") (str "0")) = none ∧
      dotted (str "9223372036854775808") (str "0") (str "0") = str "9223372036854775808.0.0" := by
  decide

/-- C11, amended: `Parse s` succeeds exactly when `s` is three segments joined
by dots, each a decimal numeral with an optional `+` or `-` sign whose value
is in the range of a 64-bit `int`; on success Major, Minor and Patch are the
three integers denoted (negative for a `-` segment), and every other text
returns an error. -/
theorem parse_accepts_iff (s : GoString) (v : Version) :
    (Parse s = some v ↔
        ∃ a b c, s = dotted a b c ∧ IsInt64Numeral a v.Major ∧ IsInt64Numeral b v.Minor ∧
          IsInt64Numeral c v.Patch) ∧
      (Parse s = none ↔
        ¬∃ a b c x y z, s = dotted a b c ∧ IsInt64Numeral a x ∧ IsInt64Numeral b y ∧
          IsInt64Numeral c z) := by
  refine ⟨Parse_eq_some_iff s v, ?_⟩
  constructor
  · rintro h ⟨a, b, c, x, y, z, e, ha, hb, hc⟩
    have := (Parse_eq_some_iff s ⟨x, y, z⟩).2 ⟨a, b, c, e, ha, hb, hc⟩
    rw [h] at this
    exact absurd this (by simp)
  · intro h
    cases hp : Parse s with
    | none => rfl
    | some w =>
      obtain ⟨a, b, c, e, ha, hb, hc⟩ := (Parse_eq_some_iff s w).1 hp
      exact absurd ⟨a, b, c, w.Major, w.Minor, w.Patch, e, ha, hb, hc⟩ h

/-- C12 as stated fails: for the version `9223372036854775807.2.3`, which
`Parse` returns for that tag, `Increment(Major)` is
`(-9223372036854775808, 0, 0)` and not `(major+1, 0, 0)`; the Minor bump of
`1.9223372036854775807.3` wraps in the same way. -/
theorem increment_major_wraps_counterexample :
    Parse (str "9223372036854775807.2.3") = some ⟨9223372036854775807, 2, 3⟩ ∧
      (⟨9223372036854775807, 2, 3⟩ : Version).Increment Major
        = ⟨-9223372036854775808, 0, 0⟩ ∧
      (⟨9223372036854775807, 2, 3⟩ : Version).Increment Major
        ≠ ⟨9223372036854775807 + 1, 0, 0⟩ ∧
      (⟨1, 9223372036854775807, 3⟩ : Version).Increment Minor
        ≠ ⟨1, 9223372036854775807 + 1, 0⟩ := by
  decide

/-- C12, amended: for every version `v` of Go `int` components,
`Increment(Major)` is `(major+1, 0, 0)` when `major` is below `2^63 - 1`,
`Increment(Minor)` is `(major, minor+1, 0)` when `minor` is below `2^63 - 1`
and `Increment(Patch)` is `(major, minor, patch+1)` when `patch` is below
`2^63 - 1`; a Minor bump resets patch and keeps major, a Major bump resets
minor and patch, a Patch bump keeps major and minor; `1.2.3` gives `1.2.4`,
`1.3.0` and `2.0.0`. -/
theorem increment_components (v : Version) (hv : v.Valid) :
    (v.Major < 2 ^ 63 - 1 →
        v.Increment Major = { Major := v.Major + 1, Minor := 0, Patch := 0 }) ∧
      (v.Minor < 2 ^ 63 - 1 →
        v.Increment Minor = { Major := v.Major, Minor := v.Minor + 1, Patch := 0 }) ∧
      (v.Patch < 2 ^ 63 - 1 →
        v.Increment Patch = { Major := v.Major, Minor := v.Minor, Patch := v.Patch + 1 }) ∧
      (v.Increment Minor).Patch = 0 ∧ (v.Increment Minor).Major = v.Major ∧
      (v.Increment Major).Minor = 0 ∧ (v.Increment Major).Patch = 0 ∧
      (v.Increment Patch).Major = v.Major ∧ (v.Increment Patch).Minor = v.Minor ∧
      (⟨1, 2, 3⟩ : Version).Increment Patch = ⟨1, 2, 4⟩ ∧
      (⟨1, 2, 3⟩ : Version).Increment Minor = ⟨1, 3, 0⟩ ∧
      (⟨1, 2, 3⟩ : Version).Increment Major = ⟨2, 0, 0⟩ := by
  obtain ⟨hM, hm, hp⟩ := hv
  have hw : ∀ x : Int, IsInt64 x → x < 2 ^ 63 - 1 → wrapInt64 (x + 1) = x + 1 := by
    intro x hx hlt
    unfold IsInt64 at hx
    unfold wrapInt64
    omega
  refine ⟨?_, ?_, ?_, ?_, ?_, ?_, ?_, ?_, ?_, by decide, by decide, by decide⟩
  · intro h
    rw [Increment_Major, hw _ hM h]
  · intro h
    rw [Increment_Minor, hw _ hm h]
  · intro h
    rw [Increment_Patch, hw _ hp h]
  · rw [Increment_Minor]
  · rw [Increment_Minor]
  · rw [Increment_Major]
  · rw [Increment_Major]
  · rw [Increment_Patch]
  · rw [Increment_Patch]

/-- C12, amended, at `1.2.3`. -/
theorem increment_components_witness :
    (⟨1, 2, 3⟩ : Version).Valid ∧ ((1 : Int) < 2 ^ 63 - 1) ∧
      (⟨1, 2, 3⟩ : Version).Increment Major = ⟨1 + 1, 0, 0⟩ :=
  ⟨by decide, by decide, (increment_components ⟨1, 2, 3⟩ (by decide)).1 (by decide)⟩

/-- C13 as stated fails: the version `0.0.9223372036854775807`, which `Parse`
returns for that tag, is not less than its Patch increment; the increment
wraps to `-9223372036854775808` and is less than the version. -/
theorem increment_wraps_counterexample :
    Parse (str "0.0.9223372036854775807") = some ⟨0, 0, 9223372036854775807⟩ ∧
      (⟨0, 0, 9223372036854775807⟩ : Version).Increment Patch = ⟨0, 0, -9223372036854775808⟩ ∧
      (⟨0, 0, 9223372036854775807⟩ : Version).LessThan
        ((⟨0, 0, 9223372036854775807⟩ : Version).Increment Patch) = false ∧
      ((⟨0, 0, 9223372036854775807⟩ : Version).Increment Patch).LessThan
        ⟨0, 0, 9223372036854775807⟩ = true := by
  decide

/-- C13, amended: for every version `v` and each bump kind `k` of Patch, Minor
and Major such that the component `k` bumps is below `2^63 - 1`, `v` is
strictly less than `v.Increment(k)`: `v.LessThan(v.Increment(k))` is true and
`v.Increment(k).LessThan(v)` is false. -/
theorem increment_lessThan (v : Version) (k : VersionType)
    (hk : k = Patch ∨ k = Minor ∨ k = Major) (hb : v.component k < 2 ^ 63 - 1) :
    v.LessThan (v.Increment k) = true ∧ (v.Increment k).LessThan v = false := by
  have hMm : Minor ≠ Major := by decide
  have hPM : Patch ≠ Major := by decide
  have hPm : Patch ≠ Minor := by decide
  rcases hk with hk | hk | hk <;> subst hk
  · simp only [Version.component, hPM, hPm, if_false] at hb
    have := wrapInt64_succ_gt v.Patch hb
    rw [Increment_Patch]
    unfold Version.LessThan
    simp only [ne_eq, not_true_eq_false, if_false, decide_eq_true_eq, decide_eq_false_iff_not]
    omega
  · simp only [Version.component, hMm, if_false, if_true] at hb
    have := wrapInt64_succ_gt v.Minor hb
    rw [Increment_Minor]
    unfold Version.LessThan
    simp only [ne_eq, not_true_eq_false, if_false]
    have h1 : v.Minor ≠ wrapInt64 (v.Minor + 1) := by omega
    have h2 : wrapInt64 (v.Minor + 1) ≠ v.Minor := by omega
    simp only [h1, h2, not_false_eq_true, if_true, decide_eq_true_eq, decide_eq_false_iff_not]
    omega
  · simp only [Version.component, if_true] at hb
    have := wrapInt64_succ_gt v.Major hb
    rw [Increment_Major]
    unfold Version.LessThan
    have h1 : v.Major ≠ wrapInt64 (v.Major + 1) := by omega
    have h2 : wrapInt64 (v.Major + 1) ≠ v.Major := by omega
    simp only [ne_eq, h1, h2, not_false_eq_true, if_true, decide_eq_true_eq,
      decide_eq_false_iff_not]
    omega

/-- C13, amended, at `1.2.3` and the Minor bump. -/
theorem increment_lessThan_witness :
    ((Minor = Patch ∨ Minor = Minor ∨ Minor = Major) ∧
        (⟨1, 2, 3⟩ : Version).component Minor < 2 ^ 63 - 1) ∧
      (⟨1, 2, 3⟩ : Version).LessThan ((⟨1, 2, 3⟩ : Version).Increment Minor) = true ∧
      ((⟨1, 2, 3⟩ : Version).Increment Minor).LessThan ⟨1, 2, 3⟩ = false :=
  ⟨⟨by decide, by decide⟩, increment_lessThan ⟨1, 2, 3⟩ Minor (by decide) (by decide)⟩

/-- C14: `LessThan` is the strict lexicographic order on (Major, Minor, Patch):
it is irreflexive and transitive, and of two different versions exactly one
is less than the other. -/
theorem lessThan_strict_total (a b c : Version) :
    (a.LessThan b = true ↔
        a.Major < b.Major ∨ (a.Major = b.Major ∧ a.Minor < b.Minor) ∨
          (a.Major = b.Major ∧ a.Minor = b.Minor ∧ a.Patch < b.Patch)) ∧
      a.LessThan a = false ∧
      (a.LessThan b = true → b.LessThan c = true → a.LessThan c = true) ∧
      (a ≠ b → (a.LessThan b = true ∧ b.LessThan a = false) ∨
        (a.LessThan b = false ∧ b.LessThan a = true)) := by
  refine ⟨lessThan_iff a b, ?_, ?_, ?_⟩
  · simp [Version.LessThan]
  · intro h1 h2
    rw [lessThan_iff] at h1 h2 ⊢
    unfold Version.lexLt at h1 h2 ⊢
    omega
  · intro hne
    have hne' : a.Major ≠ b.Major ∨ a.Minor ≠ b.Minor ∨ a.Patch ≠ b.Patch := by
      by_contra hcon
      apply hne
      cases a; cases b
      simp only [Version.mk.injEq]
      simp only [ne_eq, not_or, not_not] at hcon
      exact hcon
    have hab : a.LessThan b = false ↔ ¬a.lexLt b := by
      rw [← lessThan_iff]; simp
    have hba : b.LessThan a = false ↔ ¬b.lexLt a := by
      rw [← lessThan_iff]; simp
    rw [lessThan_iff, lessThan_iff, hab, hba]
    unfold Version.lexLt
    omega

theorem numeral_of_segment (d : GoString) (h : IsSegment d) :
    IsInt64Numeral d (digitsNat d : Int) :=
  ⟨d, h.1, Or.inl ⟨Or.inl rfl, rfl, h.2.2⟩⟩

/-- C15 as stated fails: the segments of `1.2.9223372036854775808` are
non-negative integer numerals without leading zeros, and `Parse` rejects it. -/
theorem parse_roundtrip_range_counterexample :
    IsDigits (str "1") ∧ NoLeadingZero (str "1") ∧ IsDigits (str "2") ∧ NoLeadingZero (str "2") ∧
      IsDigits (str "9223372036854775808") ∧ NoLeadingZero (str "9223372036854775808") ∧
      dotted (str "1") (str "2") (str "9223372036854775808") = str "1.2.9223372036854775808" ∧
      Parse (str "1.2.9223372036854775808") = none := by
  decide

/-- C15, amended: for every text `s` of three dot-separated segments that are
non-negative integer numerals without leading zeros and of value below `2^63`,
`Parse(s)` succeeds with those three values and `Parse(s).String() == s`. -/
theorem parse_string_roundtrip (a b c : GoString) (ha : IsSegment a) (hb : IsSegment b)
    (hc : IsSegment c) :
    Parse (dotted a b c) =
        some { Major := (digitsNat a : Int), Minor := (digitsNat b : Int),
               Patch := (digitsNat c : Int) } ∧
      (Parse (dotted a b c)).map Version.String = some (dotted a b c) := by
  have hp : Parse (dotted a b c) =
      some { Major := (digitsNat a : Int), Minor := (digitsNat b : Int),
             Patch := (digitsNat c : Int) } :=
    (Parse_eq_some_iff _ _).2
      ⟨a, b, c, rfl, numeral_of_segment a ha, numeral_of_segment b hb, numeral_of_segment c hc⟩
  refine ⟨hp, ?_⟩
  rw [hp]
  simp only [Option.map_some', Version.String, formatInt_natCast,
    formatNat_digitsNat a ha.1 ha.2.1, formatNat_digitsNat b hb.1 hb.2.1,
    formatNat_digitsNat c hc.1 hc.2.1]
  rfl

/-- C15, amended, at `10.0.203`. -/
theorem parse_string_roundtrip_witness :
    (IsSegment (str "10") ∧ IsSegment (str "0") ∧ IsSegment (str "203")) ∧
      Parse (str "10.0.203") = some ⟨10, 0, 203⟩ ∧
      (Parse (str "10.0.203")).map Version.String = some (str "10.0.203") :=
  ⟨by decide, parse_string_roundtrip (str "10") (str "0") (str "203") (by decide) (by decide)
    (by decide)⟩

/-! ## The forecaster -/

theorem HasPrefix_v (x : GoString) : HasPrefix x (str "v") = true ↔ x.head? = some 118 := by
  have hv : str "v" = [118] := by decide
  rw [hv]
  cases x with
  | nil => simp [HasPrefix, List.isPrefixOf]
  | cons c t =>
    simp only [HasPrefix, List.isPrefixOf, Bool.and_true, beq_iff_eq, List.head?_cons,
      Option.some.injEq]
    exact eq_comm

/-- `ForecastNext` in one equation: trim, strip and remember `v`, start from
`0.0.0` when nothing is left and from the parsed version otherwise. -/
theorem ForecastNext_eq (t : GoString) (b : VersionType) :
    ForecastNext t b =
      if stripV (TrimSpace t) = [] then
        some (vPrefix (TrimSpace t) ++ ((⟨0, 0, 0⟩ : Version).Increment b).String)
      else (Parse (stripV (TrimSpace t))).map fun v =>
        vPrefix (TrimSpace t) ++ (v.Increment b).String := by
  unfold ForecastNext stripV vPrefix
  by_cases hv : (TrimSpace t).head? = some 118
  · have hp : HasPrefix (TrimSpace t) (str "v") = true := (HasPrefix_v _).2 hv
    simp only [hp, hv, if_true, List.drop_one]
    by_cases hc : (TrimSpace t).tail = []
    · simp only [hc, if_true]
    · simp only [hc, if_false]
      cases Parse (TrimSpace t).tail <;> rfl
  · have hp : HasPrefix (TrimSpace t) (str "v") = false := by
      cases h : HasPrefix (TrimSpace t) (str "v") with
      | false => rfl
      | true => exact absurd ((HasPrefix_v _).1 h) hv
    simp only [hp, hv, if_false, Bool.false_eq_true, List.nil_append]
    by_cases hc : TrimSpace t = []
    · simp only [hc, if_true]
    · simp only [hc, if_false]
      cases Parse (TrimSpace t) <;> rfl

theorem formatInt_head (x : Int) : ∃ c t, formatInt x = c :: t ∧ (c = 45 ∨ isDigit c) := by
  unfold formatInt
  by_cases h : x < 0
  · rw [if_pos h]
    exact ⟨45, _, rfl, Or.inl rfl⟩
  · rw [if_neg h]
    obtain ⟨hne, hd⟩ := formatNat_isDigits x.natAbs
    cases hf : formatNat x.natAbs with
    | nil => exact absurd hf hne
    | cons c t =>
      refine ⟨c, t, rfl, Or.inr (hd c ?_)⟩
      rw [hf]
      exact List.mem_cons_self _ _

theorem String_head (v : Version) : v.String.head? ≠ some 118 := by
  obtain ⟨c, t, hf, hc⟩ := formatInt_head v.Major
  unfold Version.String
  rw [hf]
  simp only [List.cons_append, List.head?_cons, ne_eq, Option.some.injEq]
  unfold isDigit at hc
  omega

theorem noSurroundingSpace_trim (t : GoString) (h : NoSurroundingSpace t) : TrimSpace t = t := by
  apply TrimSpace_noop
  · unfold leadingSpaceWidth
    rw [List.find?_eq_none.2]
    intro e he
    have := h.1 e he
    simpa [List.isPrefixOf_iff_prefix] using this
  · rw [List.find?_eq_none]
    intro e he
    have := h.2 e he
    simpa [List.isPrefixOf_iff_prefix, List.reverse_prefix] using this

theorem noSurroundingSpace_v (t : GoString) (h : NoSurroundingSpace t) :
    NoSurroundingSpace (118 :: t) := by
  constructor
  · intro e he hp
    have h1 := isPrefixOf_graphic e he 118 t (by omega) (by omega)
    have h2 : e.isPrefixOf (118 :: t) = true := List.isPrefixOf_iff_prefix.2 hp
    rw [h1] at h2
    exact absurd h2 (by simp)
  · intro e he hs
    rcases List.suffix_cons_iff.1 hs with e1 | e1
    · have h1 := isPrefixOf_graphic e he 118 t (by omega) (by omega)
      have h2 : e.isPrefixOf (118 :: t) = true := by
        rw [e1]; exact List.isPrefixOf_iff_prefix.2 (List.prefix_refl _)
      rw [h1] at h2
      exact absurd h2 (by simp)
    · exact h.2 e he e1

theorem ForecastNextRC_eq (t : GoString) (b : VersionType) (suffix : GoString) :
    ForecastNextRC t b suffix =
      (ForecastNext t b).map fun n =>
        n ++ str "-" ++ (if suffix = [] then str "rc.1" else suffix) := by
  unfold ForecastNextRC
  cases ForecastNext t b <;> rfl

/-- C16: for every bump and every tag text `t` with no surrounding white space
that does not start with `v`, `ForecastNext("v" + t, bump)` succeeds exactly
when `ForecastNext(t, bump)` does and is then `"v"` followed by that result,
and the result for `t` does not start with `v`. -/
theorem forecastNext_keeps_v (bump : VersionType) (t : GoString) (hs : NoSurroundingSpace t)
    (hv : t.head? ≠ some 118) :
    ForecastNext (str "v" ++ t) bump = (ForecastNext t bump).map (fun r => str "v" ++ r) ∧
      ((ForecastNext (str "v" ++ t) bump).isSome ↔ (ForecastNext t bump).isSome) ∧
      (∀ r, ForecastNext t bump = some r → r.head? ≠ some 118) := by
  have e118 : str "v" ++ t = 118 :: t := rfl
  have h1 : ForecastNext (str "v" ++ t) bump =
      (ForecastNext t bump).map (fun r => str "v" ++ r) := by
    rw [ForecastNext_eq, ForecastNext_eq, e118,
      noSurroundingSpace_trim _ (noSurroundingSpace_v t hs), noSurroundingSpace_trim t hs]
    have s1 : stripV (118 :: t) = t := by simp [stripV]
    have s2 : stripV t = t := by simp [stripV, hv]
    have p1 : vPrefix (118 :: t) = str "v" := by simp [vPrefix]
    have p2 : vPrefix t = [] := by simp [vPrefix, hv]
    rw [s1, s2, p1, p2]
    by_cases ht : t = []
    · simp [ht]
    · simp only [ht, if_false, List.nil_append]
      cases Parse t <;> rfl
  refine ⟨h1, ?_, ?_⟩
  · rw [h1]
    cases ForecastNext t bump <;> simp
  · intro r hr
    rw [ForecastNext_eq, noSurroundingSpace_trim t hs] at hr
    have s2 : stripV t = t := by simp [stripV, hv]
    have p2 : vPrefix t = [] := by simp [vPrefix, hv]
    rw [s2, p2] at hr
    by_cases ht : t = []
    · simp only [ht, if_true, List.nil_append, Option.some.injEq] at hr
      rw [← hr]
      exact String_head _
    · simp only [ht, if_false, List.nil_append] at hr
      cases hp : Parse t with
      | none => simp [hp] at hr
      | some w =>
        simp only [hp, Option.map_some', Option.some.injEq] at hr
        rw [← hr]
        exact String_head _

/-- C16, at `1.2.3` and the Patch bump: `v1.2.3` gives `v1.2.4`, `1.2.3` gives `1.2.4`. -/
theorem forecastNext_keeps_v_witness :
    (NoSurroundingSpace (str "1.2.3") ∧ (str "1.2.3").head? ≠ some 118) ∧
      ForecastNext (str "v1.2.3") Patch = some (str "v1.2.4") ∧
      ForecastNext (str "1.2.3") Patch = some (str "1.2.4") ∧
      ForecastNext (str "v" ++ str "1.2.3") Patch =
        (ForecastNext (str "1.2.3") Patch).map (fun r => str "v" ++ r) :=
  ⟨⟨by unfold NoSurroundingSpace; decide, by decide⟩, by decide, by decide,
    (forecastNext_keeps_v Patch (str "1.2.3") (by unfold NoSurroundingSpace; decide)
      (by decide)).1⟩

/-- C17: with an empty latest tag `ForecastNext` succeeds for each bump kind
and returns `0.0.1` for Patch, `0.1.0` for Minor and `1.0.0` for Major; with
the latest tag `v` it returns the same with the `v` prefix. -/
theorem forecastNext_bootstrap :
    ForecastNext [] Patch = some (str "0.0.1") ∧ ForecastNext [] Minor = some (str "0.1.0") ∧
      ForecastNext [] Major = some (str "1.0.0") ∧
      ForecastNext (str "v") Patch = some (str "v0.0.1") ∧
      ForecastNext (str "v") Minor = some (str "v0.1.0") ∧
      ForecastNext (str "v") Major = some (str "v1.0.0") ∧
      (∀ k, (k = Patch ∨ k = Minor ∨ k = Major) →
        ForecastNext [] k = some ((⟨0, 0, 0⟩ : Version).Increment k).String ∧
          ForecastNext (str "v") k =
            some (str "v" ++ ((⟨0, 0, 0⟩ : Version).Increment k).String)) := by
  refine ⟨by decide, by decide, by decide, by decide, by decide, by decide, ?_⟩
  intro k hk
  rcases hk with hk | hk | hk <;> subst hk <;> decide

/-- C18 as stated fails: for the latest tag ` 1.2.3`, with a leading blank,
the text left after removing the optional leading `v` is not empty and `Parse`
rejects it, and yet `ForecastNext` and `ForecastNextRC` succeed. -/
theorem forecastNext_padded_counterexample :
    stripV (str " 1.2.3") ≠ [] ∧ Parse (stripV (str " 1.2.3")) = none ∧
      ForecastNext (str " 1.2.3") Patch = some (str "1.2.4") ∧
      ForecastNextRC (str " 1.2.3") Patch (str "abc1234") = some (str "1.2.4-abc1234") := by
  decide

/-- C18, amended: `ForecastNext` returns an error exactly when the text left
after trimming the surrounding white space and removing the optional leading
`v` is non-empty and `Parse` rejects it (such a tag is never defaulted to
`0.0.0`), and `ForecastNextRC` returns an error in exactly the same cases. -/
theorem forecastNext_error_iff (t : GoString) (b : VersionType) (suffix : GoString) :
    (ForecastNext t b = none ↔
        stripV (TrimSpace t) ≠ [] ∧ Parse (stripV (TrimSpace t)) = none) ∧
      (ForecastNextRC t b suffix = none ↔ ForecastNext t b = none) := by
  constructor
  · rw [ForecastNext_eq]
    by_cases hc : stripV (TrimSpace t) = []
    · simp [hc]
    · simp only [hc, if_false, ne_eq, not_false_eq_true, true_and]
      cases Parse (stripV (TrimSpace t)) <;> simp
  · rw [ForecastNextRC_eq]
    cases ForecastNext t b <;> simp

/-- C19: when `ForecastNext(latestTag, bump)` succeeds with `n`,
`ForecastNextRC(latestTag, bump, identifier)` succeeds and is
`n + "-" + identifier` for a non-empty identifier, appended as it is, and
`n + "-rc.1"` for the empty one. -/
theorem forecastNextRC_suffix (latestTag : GoString) (bump : VersionType)
    (identifier n : GoString) (h : ForecastNext latestTag bump = some n) :
    (identifier ≠ [] →
        ForecastNextRC latestTag bump identifier = some (n ++ str "-" ++ identifier)) ∧
      (identifier = [] →
        ForecastNextRC latestTag bump identifier = some (n ++ str "-rc.1")) := by
  rw [ForecastNextRC_eq, h]
  constructor
  · intro hne
    simp [hne]
  · intro he
    subst he
    have : str "-" ++ str "rc.1" = str "-rc.1" := by decide
    simp only [Option.map_some', if_true, List.append_assoc, this]

/-- C19, at `1.2.3` with no identifier and at `v1.2.3` with `abc1234`. -/
theorem forecastNextRC_suffix_witness :
    ForecastNext (str "v1.2.3") Patch = some (str "v1.2.4") ∧
      ForecastNextRC (str "1.2.3") Patch [] = some (str "1.2.4-rc.1") ∧
      ForecastNextRC (str "v1.2.3") Patch (str "abc1234") = some (str "v1.2.4-abc1234") ∧
      ((str "abc1234" ≠ [] →
          ForecastNextRC (str "v1.2.3") Patch (str "abc1234") =
            some (str "v1.2.4" ++ str "-" ++ str "abc1234")) ∧
        (str "abc1234" = [] →
          ForecastNextRC (str "v1.2.3") Patch (str "abc1234") =
            some (str "v1.2.4" ++ str "-rc.1"))) :=
  ⟨by decide, by decide, by decide,
    forecastNextRC_suffix (str "v1.2.3") Patch (str "abc1234") (str "v1.2.4") (by decide)⟩

/-- C20 as stated fails: `Increment` accepts the bump value `"unknown"` (the
type is a string) and returns the version unchanged. -/
theorem increment_unknown_counterexample :
    (⟨1, 2, 3⟩ : Version).Increment (str "unknown") = ⟨1, 2, 3⟩ := by
  decide

/-- C20, amended: for every version `v` and each of the three bump kinds
Major, Minor and Patch, `v.Increment(b) != v`. -/
theorem increment_changes (v : Version) (b : VersionType)
    (hb : b = Major ∨ b = Minor ∨ b = Patch) : v.Increment b ≠ v := by
  intro h
  have hM := congrArg Version.Major h
  have hm := congrArg Version.Minor h
  have hp := congrArg Version.Patch h
  rcases hb with hb | hb | hb <;> subst hb
  · rw [Increment_Major] at hM
    exact wrapInt64_succ_ne v.Major hM
  · rw [Increment_Minor] at hm
    exact wrapInt64_succ_ne v.Minor hm
  · rw [Increment_Patch] at hp
    exact wrapInt64_succ_ne v.Patch hp

/-- C20, amended, at `1.2.3` and the Patch bump. -/
theorem increment_changes_witness :
    (Patch = Major ∨ Patch = Minor ∨ Patch = Patch) ∧
      (⟨1, 2, 3⟩ : Version).Increment Patch ≠ ⟨1, 2, 3⟩ :=
  ⟨by decide, increment_changes ⟨1, 2, 3⟩ Patch (by decide)⟩

/-! ## Bump kinds -/

/-- C21: for every version `v` and every bump value other than Major, Minor
and Patch, `v.Increment(bump)` is `v` unchanged. -/
theorem increment_other_unchanged (v : Version) (bump : VersionType) (h1 : bump ≠ Major)
    (h2 : bump ≠ Minor) (h3 : bump ≠ Patch) : v.Increment bump = v :=
  Increment_other v bump h1 h2 h3

/-- C21, at `1.2.3` and the bump value `unknown` of `TestInc`. -/
theorem increment_other_unchanged_witness :
    (str "unknown" ≠ Major ∧ str "unknown" ≠ Minor ∧ str "unknown" ≠ Patch) ∧
      (⟨1, 2, 3⟩ : Version).Increment (str "unknown") = ⟨1, 2, 3⟩ :=
  ⟨by decide,
    increment_other_unchanged ⟨1, 2, 3⟩ (str "unknown") (by decide) (by decide) (by decide)⟩

theorem ToLower_ascii (U : Unicode) (s : GoString) (h : isASCII s = true) :
    ToLower U s = s.map asciiLowerByte := by
  unfold ToLower
  rw [if_pos h]

theorem ParseVersionType_ascii (U : Unicode) (s : GoString) (h : isASCII s = true) :
    ParseVersionType U s = ParseVersionType Unicode.ascii s := by
  unfold ParseVersionType
  rw [ToLower_ascii U s h, ToLower_ascii Unicode.ascii s h]

theorem ParseVersionType_major (U : Unicode) (s : GoString) (h : ToLower U s = str "major") :
    ParseVersionType U s = some Major := by
  unfold ParseVersionType
  rw [if_pos h]

theorem ParseVersionType_minor (U : Unicode) (s : GoString) (h : ToLower U s = str "minor") :
    ParseVersionType U s = some Minor := by
  unfold ParseVersionType
  rw [h, if_neg (by decide), if_pos rfl]

theorem ParseVersionType_patch (U : Unicode) (s : GoString) (h : ToLower U s = str "patch") :
    ParseVersionType U s = some Patch := by
  unfold ParseVersionType
  rw [h, if_neg (by decide), if_neg (by decide), if_pos rfl]

theorem ParseVersionType_none (U : Unicode) (s : GoString) (h1 : ToLower U s ≠ str "major")
    (h2 : ToLower U s ≠ str "minor") (h3 : ToLower U s ≠ str "patch") :
    ParseVersionType U s = none := by
  unfold ParseVersionType
  rw [if_neg h1, if_neg h2, if_neg h3]

/-- C22 as stated fails: the text `mİnor`, whose second letter is U+0130
(capital I with dot above, bytes `0xC4 0xB0`), is accepted as Minor, because
`strings.ToLower` maps that letter to `i`; it is not `minor` up to letter
case: `strings.EqualFold` tells the two apart, and so does the comparison up
to the case of the ASCII letters. -/
theorem parseVersionType_dottedI_counterexample :
    str "mİnor" = [109, 0xC4, 0xB0, 110, 111, 114] ∧
      ToLower Unicode.dottedI (str "mİnor") = str "minor" ∧
      ParseVersionType Unicode.dottedI (str "mİnor") = some Minor ∧
      EqualFold Unicode.dottedI (str "mİnor") (str "minor") = false ∧
      (str "mİnor").map asciiLowerByte ≠ str "minor" := by
  decide

/-- C22, amended: `ParseVersionType(s)` returns Major, Minor or Patch exactly
when the lower-cased text `strings.ToLower(s)` is `major`, `minor` or `patch`
(for ASCII text: exactly when `s` is that word up to the case of its letters)
and an error for every other text, the empty text and padded text included;
it returns no other kind, and `ParseVersionType(k.String()) == k` for the
three kinds. -/
theorem parseVersionType_iff (U : Unicode) (s : GoString) :
    (ParseVersionType U s = some Major ↔ ToLower U s = str "major") ∧
      (ParseVersionType U s = some Minor ↔ ToLower U s = str "minor") ∧
      (ParseVersionType U s = some Patch ↔ ToLower U s = str "patch") ∧
      (ParseVersionType U s = none ↔
        ToLower U s ≠ str "major" ∧ ToLower U s ≠ str "minor" ∧ ToLower U s ≠ str "patch") ∧
      (∀ k, ParseVersionType U s = some k → k = Major ∨ k = Minor ∨ k = Patch) ∧
      (isASCII s = true → ToLower U s = s.map asciiLowerByte) ∧
      (isASCII s = true →
        (ParseVersionType U s = some Major ↔ s.map asciiLowerByte = str "major") ∧
        (ParseVersionType U s = some Minor ↔ s.map asciiLowerByte = str "minor") ∧
        (ParseVersionType U s = some Patch ↔ s.map asciiLowerByte = str "patch") ∧
        (ParseVersionType U s = none ↔
          s.map asciiLowerByte ≠ str "major" ∧ s.map asciiLowerByte ≠ str "minor" ∧
            s.map asciiLowerByte ≠ str "patch")) ∧
      ParseVersionType U [] = none ∧ ParseVersionType U (str " major") = none ∧
      ParseVersionType U (str "patch\n") = none ∧ ParseVersionType U (str "MAJOR") = some Major ∧
      ParseVersionType U (VersionType.String Major) = some Major ∧
      ParseVersionType U (VersionType.String Minor) = some Minor ∧
      ParseVersionType U (VersionType.String Patch) = some Patch := by
  have k1 : Major ≠ Minor := by decide
  have k2 : Major ≠ Patch := by decide
  have k3 : Minor ≠ Patch := by decide
  have k4 : Minor ≠ Major := by decide
  have k5 : Patch ≠ Major := by decide
  have k6 : Patch ≠ Minor := by decide
  have w1 : str "major" ≠ str "minor" := by decide
  have w2 : str "major" ≠ str "patch" := by decide
  have w3 : str "minor" ≠ str "patch" := by decide
  have w4 : str "minor" ≠ str "major" := by decide
  have w5 : str "patch" ≠ str "major" := by decide
  have w6 : str "patch" ≠ str "minor" := by decide
  have hcases : (ToLower U s = str "major" ∧ ParseVersionType U s = some Major) ∨
      (ToLower U s = str "minor" ∧ ParseVersionType U s = some Minor) ∨
      (ToLower U s = str "patch" ∧ ParseVersionType U s = some Patch) ∨
      ((ToLower U s ≠ str "major" ∧ ToLower U s ≠ str "minor" ∧ ToLower U s ≠ str "patch") ∧
        ParseVersionType U s = none) := by
    by_cases h1 : ToLower U s = str "major"
    · exact Or.inl ⟨h1, ParseVersionType_major U s h1⟩
    · by_cases h2 : ToLower U s = str "minor"
      · exact Or.inr (Or.inl ⟨h2, ParseVersionType_minor U s h2⟩)
      · by_cases h3 : ToLower U s = str "patch"
        · exact Or.inr (Or.inr (Or.inl ⟨h3, ParseVersionType_patch U s h3⟩))
        · exact Or.inr (Or.inr (Or.inr ⟨⟨h1, h2, h3⟩, ParseVersionType_none U s h1 h2 h3⟩))
  have i1 : ParseVersionType U s = some Major ↔ ToLower U s = str "major" := by
    rcases hcases with ⟨h, e⟩ | ⟨h, e⟩ | ⟨h, e⟩ | ⟨⟨h1, h2, h3⟩, e⟩ <;> rw [e] <;>
      simp_all
  have i2 : ParseVersionType U s = some Minor ↔ ToLower U s = str "minor" := by
    rcases hcases with ⟨h, e⟩ | ⟨h, e⟩ | ⟨h, e⟩ | ⟨⟨h1, h2, h3⟩, e⟩ <;> rw [e] <;>
      simp_all
  have i3 : ParseVersionType U s = some Patch ↔ ToLower U s = str "patch" := by
    rcases hcases with ⟨h, e⟩ | ⟨h, e⟩ | ⟨h, e⟩ | ⟨⟨h1, h2, h3⟩, e⟩ <;> rw [e] <;>
      simp_all
  have i4 : ParseVersionType U s = none ↔
      ToLower U s ≠ str "major" ∧ ToLower U s ≠ str "minor" ∧ ToLower U s ≠ str "patch" := by
    rcases hcases with ⟨h, e⟩ | ⟨h, e⟩ | ⟨h, e⟩ | ⟨⟨h1, h2, h3⟩, e⟩ <;> rw [e] <;>
      simp_all
  refine ⟨i1, i2, i3, i4, ?_, ToLower_ascii U s, ?_, ?_, ?_, ?_, ?_, ?_, ?_, ?_⟩
  · intro k hk
    unfold ParseVersionType at hk
    split_ifs at hk <;> simp_all
  · intro ha
    rw [← ToLower_ascii U s ha]
    exact ⟨i1, i2, i3, i4⟩
  · rw [ParseVersionType_ascii U _ (by decide)]; decide
  · rw [ParseVersionType_ascii U _ (by decide)]; decide
  · rw [ParseVersionType_ascii U _ (by decide)]; decide
  · rw [ParseVersionType_ascii U _ (by decide)]; decide
  · rw [ParseVersionType_ascii U _ (by decide)]; decide
  · rw [ParseVersionType_ascii U _ (by decide)]; decide
  · rw [ParseVersionType_ascii U _ (by decide)]; decide

/-! ## `LoadContext` -/

/-- The fields of the context `LoadContext` builds that the later steps
(image reference, feature tag) leave as first computed. -/
theorem LoadContext_fields (U : Unicode) (env : Env) :
    (LoadContext U env).BumpType = loadBump U env ∧
      (LoadContext U env).ShortSHA = loadShortSHA env ∧
      (LoadContext U env).SHA = env (str "CI_COMMIT_SHA") ∧
      (LoadContext U env).IsTag = decide (env (str "CI_COMMIT_TAG") ≠ []) ∧
      (LoadContext U env).IsFeatureBranch =
        (!decide (env (str "CI_COMMIT_TAG") ≠ []) &&
          decide (firstNonEmpty [env (str "CI_MERGE_REQUEST_SOURCE_BRANCH_NAME"),
            env (str "CI_COMMIT_BRANCH"), env (str "CI_COMMIT_REF_NAME")] ≠ []) &&
          decide (firstNonEmpty [env (str "CI_MERGE_REQUEST_SOURCE_BRANCH_NAME"),
            env (str "CI_COMMIT_BRANCH"), env (str "CI_COMMIT_REF_NAME")]
              ≠ env (str "CI_DEFAULT_BRANCH")) &&
          HasPrefix (firstNonEmpty [env (str "CI_MERGE_REQUEST_SOURCE_BRANCH_NAME"),
            env (str "CI_COMMIT_BRANCH"), env (str "CI_COMMIT_REF_NAME")]) (str "gmarm-")) ∧
      (LoadContext U env).RefName = TrimSpace (env (str "CI_COMMIT_REF_NAME")) ∧
      (LoadContext U env).DefaultBranch = env (str "CI_DEFAULT_BRANCH") ∧
      (LoadContext U env).IsDefaultBranch =
        (decide (TrimSpace (env (str "CI_COMMIT_REF_NAME")) ≠ []) &&
          decide (TrimSpace (env (str "CI_COMMIT_REF_NAME")) = env (str "CI_DEFAULT_BRANCH"))) ∧
      (LoadContext U env).IsMergeRequest =
        (decide (env (str "CI_MERGE_REQUEST_IID") ≠ []) ||
          decide (env (str "CI_PIPELINE_SOURCE") = str "merge_request_event")) ∧
      (LoadContext U env).MRID = env (str "CI_MERGE_REQUEST_IID") := by
  unfold LoadContext
  dsimp only
  split_ifs <;> exact ⟨rfl, rfl, rfl, rfl, rfl, rfl, rfl, rfl, rfl, rfl⟩

/-- C27: the full SHA of the context is `CI_COMMIT_SHA`; when
`CI_COMMIT_SHORT_SHA` is supplied the short SHA of the context is that value;
otherwise it is the first 8 bytes of `CI_COMMIT_SHA` when that has at least
8, and the whole of it when it is shorter: a prefix of the full SHA of length
`min(8, len(SHA))`. -/
theorem loadContext_shortSHA (U : Unicode) (env : Env) :
    (LoadContext U env).SHA = env (str "CI_COMMIT_SHA") ∧
      (env (str "CI_COMMIT_SHORT_SHA") ≠ [] →
        (LoadContext U env).ShortSHA = env (str "CI_COMMIT_SHORT_SHA")) ∧
      (env (str "CI_COMMIT_SHORT_SHA") = [] →
        (8 ≤ (env (str "CI_COMMIT_SHA")).length →
          (LoadContext U env).ShortSHA = (env (str "CI_COMMIT_SHA")).take 8) ∧
        ((env (str "CI_COMMIT_SHA")).length < 8 →
          (LoadContext U env).ShortSHA = env (str "CI_COMMIT_SHA")) ∧
        (LoadContext U env).ShortSHA <+: env (str "CI_COMMIT_SHA") ∧
        (LoadContext U env).ShortSHA.length = min 8 (env (str "CI_COMMIT_SHA")).length) := by
  obtain ⟨_, hs, hsha, _⟩ := LoadContext_fields U env
  refine ⟨hsha, ?_, ?_⟩
  · intro h
    rw [hs]
    unfold loadShortSHA
    rw [if_neg h]
  · intro h
    rw [hs]
    unfold loadShortSHA
    rw [if_pos h]
    by_cases hl : (env (str "CI_COMMIT_SHA")).length ≥ 8
    · rw [if_pos hl]
      refine ⟨fun _ => rfl, fun h8 => absurd hl (by omega), List.take_prefix _ _, ?_⟩
      rw [List.length_take]
    · rw [if_neg hl]
      refine ⟨fun h8 => absurd h8 hl, fun _ => rfl, List.prefix_refl _, ?_⟩
      omega

/-- C27, at three environments: `CI_COMMIT_SHA=0123456789abcdef` alone gives
the short SHA `01234567`; the 5-byte SHA `abc12` is kept whole; a supplied
`CI_COMMIT_SHORT_SHA=deadbeef1` is used as it is. -/
theorem loadContext_shortSHA_witness :
    (fullSHAEnv (str "CI_COMMIT_SHORT_SHA") = [] ∧
        fullSHAEnv (str "CI_COMMIT_SHA") = str "0123456789abcdef") ∧
      (LoadContext Unicode.ascii fullSHAEnv).ShortSHA = str "01234567" ∧
      (LoadContext Unicode.ascii (envWith (str "CI_COMMIT_SHA") (str "abc12"))).ShortSHA
        = str "abc12" ∧
      (LoadContext Unicode.ascii (envOf [(str "CI_COMMIT_SHORT_SHA", str "deadbeef1"),
        (str "CI_COMMIT_SHA", str "0123456789abcdef")])).ShortSHA = str "deadbeef1" :=
  ⟨⟨by decide, by decide⟩,
    (((loadContext_shortSHA Unicode.ascii fullSHAEnv).2.2 (by decide)).1 (by decide)).trans
      (by decide),
    (((loadContext_shortSHA Unicode.ascii (envWith (str "CI_COMMIT_SHA") (str "abc12"))).2.2
      (by decide)).2.1 (by decide)).trans (by decide),
    ((loadContext_shortSHA Unicode.ascii (envOf [(str "CI_COMMIT_SHORT_SHA", str "deadbeef1"),
      (str "CI_COMMIT_SHA", str "0123456789abcdef")])).2.1 (by decide)).trans (by decide)⟩

/-- C28: in every context `LoadContext` builds, `IsTag` and `IsFeatureBranch`
are never both true (a release tag makes `IsFeatureBranch` false), and
`IsDefaultBranch` is true exactly when the raw ref name is non-empty and equal
to the default-branch name. -/
theorem loadContext_flags (U : Unicode) (env : Env) :
    ¬((LoadContext U env).IsTag = true ∧ (LoadContext U env).IsFeatureBranch = true) ∧
      (env (str "CI_COMMIT_TAG") ≠ [] → (LoadContext U env).IsFeatureBranch = false) ∧
      ((LoadContext U env).IsDefaultBranch = true ↔
        (LoadContext U env).RefName ≠ [] ∧
          (LoadContext U env).RefName = (LoadContext U env).DefaultBranch) := by
  obtain ⟨_, _, _, ht, hf, hr, hd, hdb, _⟩ := LoadContext_fields U env
  rw [ht, hf, hr, hd, hdb]
  refine ⟨?_, ?_, ?_⟩
  · by_cases h : env (str "CI_COMMIT_TAG") = [] <;> simp [h]
  · intro h
    simp [h]
  · simp

/-! ## The bump resolver -/

theorem ResolveBumpFromMR_override (env : Env) (c : Context)
    (client : Option (GoString → MergeRequestData)) (h : TrimSpace (env (str "SYAC_BUMP")) ≠ []) :
    ResolveBumpFromMR env c client = (c, []) := by
  unfold ResolveBumpFromMR
  rw [if_pos h]

theorem ResolveBumpFromMR_skip (env : Env) (c : Context)
    (client : Option (GoString → MergeRequestData))
    (h : client = none ∨ c.IsMergeRequest = false ∨ TrimSpace c.MRID = [] ∨
      ∃ api, client = some api ∧ GetVersionBump (api c.MRID) = none) :
    ResolveBumpFromMR env c client = (c, []) := by
  unfold ResolveBumpFromMR
  by_cases ho : TrimSpace (env (str "SYAC_BUMP")) ≠ []
  · rw [if_pos ho]
  · rw [if_neg ho]
    cases client with
    | none => rfl
    | some api =>
      dsimp only
      by_cases hm : c.IsMergeRequest = false ∨ TrimSpace c.MRID = []
      · rw [if_pos hm]
      · rw [if_neg hm]
        rcases h with h | h | h | ⟨api', h1, h2⟩
        · exact absurd h (by simp)
        · exact absurd (Or.inl h) hm
        · exact absurd (Or.inr h) hm
        · cases h1
          rw [h2]

theorem ResolveBumpFromMR_found (env : Env) (c : Context) (api : GoString → MergeRequestData)
    (k : VersionType) (ho : TrimSpace (env (str "SYAC_BUMP")) = [])
    (hm : c.IsMergeRequest = true) (hid : TrimSpace c.MRID ≠ [])
    (hk : GetVersionBump (api c.MRID) = some k) :
    (ResolveBumpFromMR env c (some api)).1 = { c with BumpType := k } ∧
      (ResolveBumpFromMR env c (some api)).2 = str "MR selection" := by
  unfold ResolveBumpFromMR
  rw [if_neg (by simp [ho])]
  dsimp only
  rw [if_neg (by simp [hm, hid]), hk]
  dsimp only
  by_cases hne : k ≠ c.BumpType
  · rw [if_pos hne]
    exact ⟨rfl, rfl⟩
  · rw [if_neg hne]
    refine ⟨?_, rfl⟩
    have : k = c.BumpType := by simpa using hne
    rw [this]

theorem loadBump_eq (U : Unicode) (env : Env) :
    (TrimSpace (env (str "SYAC_BUMP")) = [] → loadBump U env = Patch) ∧
      (∀ k, TrimSpace (env (str "SYAC_BUMP")) ≠ [] →
        ParseVersionType U (TrimSpace (env (str "SYAC_BUMP"))) = some k → loadBump U env = k) ∧
      (TrimSpace (env (str "SYAC_BUMP")) ≠ [] →
        ParseVersionType U (TrimSpace (env (str "SYAC_BUMP"))) = none → loadBump U env = Patch) := by
  unfold loadBump
  refine ⟨?_, ?_, ?_⟩
  · intro h
    rw [if_neg (by simp [h])]
  · intro k h hk
    rw [if_pos h, hk]
  · intro h hk
    rw [if_pos h, hk]

/-- C23 as stated fails: the override text `huge` is no bump kind, and the run
goes on with the kind Patch; no error is returned and the merge request (here
with Major selected) is not consulted. -/
theorem bump_override_counterexample :
    ParseVersionType Unicode.ascii
        (TrimSpace (envWith (str "SYAC_BUMP") (str "huge") (str "SYAC_BUMP"))) = none ∧
      (LoadContext Unicode.ascii (envWith (str "SYAC_BUMP") (str "huge"))).BumpType = Patch ∧
      (ResolveBumpFromMR (envWith (str "SYAC_BUMP") (str "huge"))
        (LoadContext Unicode.ascii (envWith (str "SYAC_BUMP") (str "huge")))
        (some (noteApi (str "<!-- syac:release-type -->\n- [x] **Major**")))).1.BumpType
          = Patch := by
  decide

/-- C23, amended: the bump kind of a run is resolved first match first:
(1) if the override `SYAC_BUMP` is supplied, the merge request is not
consulted, and the kind is the override when it is a recognised kind and
Patch, with no error, when it is not; (2) otherwise, on a merge-request run
with a known id whose lookup succeeds, the kind is the one discovered on the
merge request; (3) otherwise (no merge-request run, no id, no client, or a
failed lookup) the kind is Patch. -/
theorem bump_resolution (U : Unicode) (env : Env)
    (client : Option (GoString → MergeRequestData)) :
    (TrimSpace (env (str "SYAC_BUMP")) ≠ [] →
        (∀ k, ParseVersionType U (TrimSpace (env (str "SYAC_BUMP"))) = some k →
          (ResolveBumpFromMR env (LoadContext U env) client).1.BumpType = k) ∧
        (ParseVersionType U (TrimSpace (env (str "SYAC_BUMP"))) = none →
          (ResolveBumpFromMR env (LoadContext U env) client).1.BumpType = Patch) ∧
        (∀ other, ResolveBumpFromMR env (LoadContext U env) other =
          ResolveBumpFromMR env (LoadContext U env) client)) ∧
      (TrimSpace (env (str "SYAC_BUMP")) = [] →
        (∀ api k, client = some api → (LoadContext U env).IsMergeRequest = true →
          TrimSpace (LoadContext U env).MRID ≠ [] →
          GetVersionBump (api (LoadContext U env).MRID) = some k →
          (ResolveBumpFromMR env (LoadContext U env) client).1.BumpType = k) ∧
        ((client = none ∨ (LoadContext U env).IsMergeRequest = false ∨
            TrimSpace (LoadContext U env).MRID = [] ∨
            ∃ api, client = some api ∧ GetVersionBump (api (LoadContext U env).MRID) = none) →
          (ResolveBumpFromMR env (LoadContext U env) client).1.BumpType = Patch)) := by
  have hb := (LoadContext_fields U env).1
  obtain ⟨l1, l2, l3⟩ := loadBump_eq U env
  constructor
  · intro ho
    refine ⟨?_, ?_, ?_⟩
    · intro k hk
      rw [ResolveBumpFromMR_override env _ client ho, hb]
      exact l2 k ho hk
    · intro hk
      rw [ResolveBumpFromMR_override env _ client ho, hb]
      exact l3 ho hk
    · intro other
      rw [ResolveBumpFromMR_override env _ client ho, ResolveBumpFromMR_override env _ other ho]
  · intro ho
    refine ⟨?_, ?_⟩
    · intro api k hc hm hid hk
      subst hc
      rw [(ResolveBumpFromMR_found env _ api k ho hm hid hk).1]
    · intro h
      rw [ResolveBumpFromMR_skip env _ client h, hb]
      exact l1 ho

/-- C24 as stated fails: the report is `""` both when the override wins and when
the default wins, and it is `MR selection` for a merge request on which
nothing is selected, where the kind stays Patch. -/
theorem bump_report_counterexample :
    ResolveBumpFromMR (envWith (str "SYAC_BUMP") (str "minor"))
        (LoadContext Unicode.ascii (envWith (str "SYAC_BUMP") (str "minor"))) none =
        (LoadContext Unicode.ascii (envWith (str "SYAC_BUMP") (str "minor")), []) ∧
      (LoadContext Unicode.ascii (envWith (str "SYAC_BUMP") (str "minor"))).BumpType = Minor ∧
      ResolveBumpFromMR emptyEnv (LoadContext Unicode.ascii emptyEnv) none =
        (LoadContext Unicode.ascii emptyEnv, []) ∧
      (LoadContext Unicode.ascii emptyEnv).BumpType = Patch ∧
      GetVersionBump (noteApi (str "<!-- syac:release-type -->\n- [ ] **Patch**") (str "7")) =
        some Patch ∧
      ResolveBumpFromMR mergeRequestEnv (LoadContext Unicode.ascii mergeRequestEnv)
          (some (noteApi (str "<!-- syac:release-type -->\n- [ ] **Patch**"))) =
        (LoadContext Unicode.ascii mergeRequestEnv, str "MR selection") := by
  decide

/-- C24, amended: the report of `ResolveBumpFromMR` is `""`, with the context
left as it was, when the override is supplied, when the run is no
merge-request run, has no id or no client, and when the lookup fails; it is
`MR selection` when the lookup gives a kind other than the current one, which
becomes the bump kind; a report `""` means the context is unchanged; and the
kind chosen is the current one or the one looked up, whatever the report. -/
theorem bump_report (env : Env) (c : Context) (client : Option (GoString → MergeRequestData)) :
    (TrimSpace (env (str "SYAC_BUMP")) ≠ [] → ResolveBumpFromMR env c client = (c, [])) ∧
      ((client = none ∨ c.IsMergeRequest = false ∨ TrimSpace c.MRID = [] ∨
          ∃ api, client = some api ∧ GetVersionBump (api c.MRID) = none) →
        ResolveBumpFromMR env c client = (c, [])) ∧
      (∀ api k, TrimSpace (env (str "SYAC_BUMP")) = [] → client = some api →
        c.IsMergeRequest = true → TrimSpace c.MRID ≠ [] →
        GetVersionBump (api c.MRID) = some k → k ≠ c.BumpType →
        ResolveBumpFromMR env c client = ({ c with BumpType := k }, str "MR selection")) ∧
      ((ResolveBumpFromMR env c client).2 = [] → (ResolveBumpFromMR env c client).1 = c) ∧
      (ResolveBumpFromMR env c client).1 =
        { c with BumpType := (ResolveBumpFromMR env c client).1.BumpType } ∧
      (ResolveBumpFromMR env c client).1.BumpType =
        (if TrimSpace (env (str "SYAC_BUMP")) ≠ [] then c.BumpType
         else match client with
          | none => c.BumpType
          | some api =>
            if c.IsMergeRequest = false ∨ TrimSpace c.MRID = [] then c.BumpType
            else (GetVersionBump (api c.MRID)).getD c.BumpType) := by
  have hsel : str "MR selection" ≠ [] := by decide
  have hcases :
      (ResolveBumpFromMR env c client = (c, []) ∧
        (if TrimSpace (env (str "SYAC_BUMP")) ≠ [] then c.BumpType
         else match client with
          | none => c.BumpType
          | some api =>
            if c.IsMergeRequest = false ∨ TrimSpace c.MRID = [] then c.BumpType
            else (GetVersionBump (api c.MRID)).getD c.BumpType) = c.BumpType) ∨
      ∃ k, ResolveBumpFromMR env c client = ({ c with BumpType := k }, str "MR selection") ∧
        (if TrimSpace (env (str "SYAC_BUMP")) ≠ [] then c.BumpType
         else match client with
          | none => c.BumpType
          | some api =>
            if c.IsMergeRequest = false ∨ TrimSpace c.MRID = [] then c.BumpType
            else (GetVersionBump (api c.MRID)).getD c.BumpType) = k := by
    by_cases ho : TrimSpace (env (str "SYAC_BUMP")) ≠ []
    · exact Or.inl ⟨ResolveBumpFromMR_override env c client ho, by rw [if_pos ho]⟩
    · rw [if_neg ho]
      cases client with
      | none => exact Or.inl ⟨ResolveBumpFromMR_skip env c none (Or.inl rfl), rfl⟩
      | some api =>
        dsimp only
        by_cases hm : c.IsMergeRequest = false ∨ TrimSpace c.MRID = []
        · rw [if_pos hm]
          refine Or.inl ⟨ResolveBumpFromMR_skip env c (some api) ?_, rfl⟩
          rcases hm with hm | hm
          · exact Or.inr (Or.inl hm)
          · exact Or.inr (Or.inr (Or.inl hm))
        · rw [if_neg hm]
          cases hk : GetVersionBump (api c.MRID) with
          | none =>
            exact Or.inl ⟨ResolveBumpFromMR_skip env c (some api)
              (Or.inr (Or.inr (Or.inr ⟨api, rfl, hk⟩))), rfl⟩
          | some k =>
            have hm1 : c.IsMergeRequest = true := by
              cases h : c.IsMergeRequest with
              | true => rfl
              | false => exact absurd (Or.inl h) hm
            have hid : TrimSpace c.MRID ≠ [] := fun h => hm (Or.inr h)
            obtain ⟨h1, h2⟩ := ResolveBumpFromMR_found env c api k (by simpa using ho) hm1 hid hk
            exact Or.inr ⟨k, Prod.ext h1 h2, rfl⟩
  refine ⟨ResolveBumpFromMR_override env c client, ResolveBumpFromMR_skip env c client, ?_, ?_,
    ?_, ?_⟩
  · intro api k ho hc hm hid hk _
    subst hc
    obtain ⟨h1, h2⟩ := ResolveBumpFromMR_found env c api k ho hm hid hk
    exact Prod.ext h1 h2
  · rcases hcases with ⟨h, _⟩ | ⟨k, h, _⟩
    · rw [h]; intro _; rfl
    · rw [h]; intro hr; exact absurd hr hsel
  · rcases hcases with ⟨h, _⟩ | ⟨k, h, _⟩
    · rw [h]
    · rw [h]
  · rcases hcases with ⟨h, e⟩ | ⟨k, h, e⟩
    · rw [h, e]
    · rw [h, e]

/-! ## The latest tag -/

theorem lessThan_false_total (a b : Version) : b.LessThan a = false ∨ a.LessThan b = false := by
  by_cases h : b.LessThan a = true
  · right
    cases h2 : a.LessThan b with
    | false => rfl
    | true =>
      rw [lessThan_iff] at h h2
      unfold Version.lexLt at h h2
      omega
  · left
    simpa using h

theorem lessThan_false_trans (a b c : Version) (h1 : b.LessThan a = false)
    (h2 : c.LessThan b = false) : c.LessThan a = false := by
  cases h3 : c.LessThan a with
  | false => rfl
  | true =>
    have n1 : ¬b.lexLt a := by rw [← lessThan_iff]; simp [h1]
    have n2 : ¬c.lexLt b := by rw [← lessThan_iff]; simp [h2]
    rw [lessThan_iff] at h3
    unfold Version.lexLt at n1 n2 h3
    omega

theorem sorted_last_max (l : List Version) (h : l ≠ [])
    (hs : l.Sorted fun a b => b.LessThan a = false) :
    ∀ w ∈ l, (l.getLast h).LessThan w = false := by
  intro w hw
  have hl := List.dropLast_append_getLast h
  rw [← hl] at hw hs
  rcases List.mem_append.1 hw with hw | hw
  · exact (List.pairwise_append.1 hs).2.2 w hw _ (List.mem_singleton_self _)
  · rw [List.mem_singleton] at hw
    rw [hw]
    simp [Version.LessThan]

/-- With at least one parseable name, `GetLatestTag` returns a parsed version
that no other parsed version exceeds. -/
theorem GetLatestTag_max (names : List GoString) (h : names.filterMap Parse ≠ []) :
    GetLatestTag (some names) ∈ names.filterMap Parse ∧
      ∀ w ∈ names.filterMap Parse, (GetLatestTag (some names)).LessThan w = false := by
  haveI : IsTotal Version (fun a b => b.LessThan a = false) := ⟨lessThan_false_total⟩
  haveI : IsTrans Version (fun a b => b.LessThan a = false) :=
    ⟨fun a b c h1 h2 => lessThan_false_trans a b c h1 h2⟩
  have hperm := List.perm_insertionSort (fun a b : Version => b.LessThan a = false)
    (names.filterMap Parse)
  have hsorted := List.sorted_insertionSort (fun a b : Version => b.LessThan a = false)
    (names.filterMap Parse)
  have hne : List.insertionSort (fun a b : Version => b.LessThan a = false)
      (names.filterMap Parse) ≠ [] := by
    intro e
    rw [e] at hperm
    exact h (List.Perm.nil_eq hperm).symm
  have hlen : ¬(names.filterMap Parse).length = 0 := by
    intro e
    exact h (List.length_eq_zero.1 e)
  have hval : GetLatestTag (some names) =
      (List.insertionSort (fun a b : Version => b.LessThan a = false)
        (names.filterMap Parse)).getLast hne := by
    unfold GetLatestTag
    simp only [hlen, if_false]
    rw [List.getLast?_eq_getLast _ hne]
    rfl
  rw [hval]
  constructor
  · exact hperm.mem_iff.1 (List.getLast_mem hne)
  · intro w hw
    exact sorted_last_max _ hne hsorted w (hperm.mem_iff.2 hw)

theorem filterMap_Parse_filter (names : List GoString) :
    (names.filter fun n => (Parse n).isSome).filterMap Parse = names.filterMap Parse := by
  induction names with
  | nil => rfl
  | cons n rest ih =>
    cases hp : Parse n with
    | none => simp [List.filter_cons, List.filterMap_cons, hp, ih]
    | some v => simp [List.filter_cons, List.filterMap_cons, hp, ih]

theorem numeral_head (a : GoString) (n : Int) (h : IsInt64Numeral a n) :
    ∃ c t, a = c :: t ∧ (isDigit c ∨ c = 43 ∨ c = 45) := by
  obtain ⟨d, ⟨hne, hd⟩, h1⟩ := h
  rcases h1 with ⟨ha | ha, _, _⟩ | ⟨ha, _, _⟩
  · cases d with
    | nil => exact absurd rfl hne
    | cons c t => exact ⟨c, t, ha, Or.inl (hd c (List.mem_cons_self _ _))⟩
  · exact ⟨43, d, ha, Or.inr (Or.inl rfl)⟩
  · exact ⟨45, d, ha, Or.inr (Or.inr rfl)⟩

/-- `Parse` rejects every name that starts with `v`. -/
theorem Parse_v (t : GoString) : Parse (118 :: t) = none := by
  cases hp : Parse (118 :: t) with
  | none => rfl
  | some v =>
    obtain ⟨a, b, c, e, ha, _, _⟩ := (Parse_eq_some_iff _ v).1 hp
    obtain ⟨x, r, hx, hc⟩ := numeral_head a _ ha
    rw [hx] at e
    simp only [dotted, List.cons_append, List.cons.injEq] at e
    unfold isDigit at hc
    omega

/-- C25: given the tag names, `GetLatestTag` returns the parse of a name that
`Parse` accepts, and no parseable name is greater than it under `LessThan`;
the names `Parse` rejects, every name with a `v` prefix among them, do not
influence the result; when no name parses, or the listing fails, the result
is `0.0.0`. -/
theorem getLatestTag_highest (names : List GoString) :
    (names.filterMap Parse ≠ [] →
        (∃ n ∈ names, Parse n = some (GetLatestTag (some names))) ∧
        ∀ n ∈ names, ∀ w, Parse n = some w → (GetLatestTag (some names)).LessThan w = false) ∧
      GetLatestTag (some (names.filter fun n => (Parse n).isSome)) = GetLatestTag (some names) ∧
      (∀ t, Parse (str "v" ++ t) = none) ∧
      (names.filterMap Parse = [] → GetLatestTag (some names) = ⟨0, 0, 0⟩) ∧
      GetLatestTag none = ⟨0, 0, 0⟩ ∧
      GetLatestTag (some [str "1.2.3", str "v9.0.0", str "1.10.0", str "latest", str "1.9.9"])
        = ⟨1, 10, 0⟩ := by
  refine ⟨?_, ?_, ?_, ?_, rfl, by decide⟩
  · intro h
    obtain ⟨hmem, hmax⟩ := GetLatestTag_max names h
    constructor
    · obtain ⟨n, hn, hp⟩ := List.mem_filterMap.1 hmem
      exact ⟨n, hn, hp⟩
    · intro n hn w hw
      exact hmax w (List.mem_filterMap.2 ⟨n, hn, hw⟩)
  · unfold GetLatestTag
    simp only [filterMap_Parse_filter]
  · intro t
    exact Parse_v t
  · intro h
    unfold GetLatestTag
    simp [h]

/-! ## `cleanTag` -/

theorem collapseRuns_dd (r : GoString) : collapseRuns (45 :: 45 :: r) = collapseRuns (45 :: r) := by
  rw [collapseRuns]

theorem collapseRuns_ne (c : Nat) (r : GoString) (h : c ≠ 45) :
    collapseRuns (c :: r) = c :: collapseRuns r := by
  rw [collapseRuns]
  intros
  simp_all

theorem collapseRuns_d_ne (c : Nat) (r : GoString) (h : c ≠ 45) :
    collapseRuns (45 :: c :: r) = 45 :: collapseRuns (c :: r) := by
  rw [collapseRuns]
  intros
  simp_all

theorem collapseRuns_single : collapseRuns [45] = [45] := by decide

theorem replaceDoubleHyphen_dd (r : GoString) :
    replaceDoubleHyphen (45 :: 45 :: r) = 45 :: replaceDoubleHyphen r := by
  rw [replaceDoubleHyphen]

theorem replaceDoubleHyphen_ne (c : Nat) (r : GoString) (h : c ≠ 45) :
    replaceDoubleHyphen (c :: r) = c :: replaceDoubleHyphen r := by
  rw [replaceDoubleHyphen]
  intros
  simp_all

theorem replaceDoubleHyphen_d_ne (c : Nat) (r : GoString) (h : c ≠ 45) :
    replaceDoubleHyphen (45 :: c :: r) = 45 :: replaceDoubleHyphen (c :: r) := by
  rw [replaceDoubleHyphen]
  intros
  simp_all

theorem replaceDoubleHyphen_single : replaceDoubleHyphen [45] = [45] := by decide

theorem containsDoubleHyphen_dd (r : GoString) : containsDoubleHyphen (45 :: 45 :: r) = true := by
  rw [containsDoubleHyphen]

theorem containsDoubleHyphen_ne (c : Nat) (r : GoString) (h : c ≠ 45) :
    containsDoubleHyphen (c :: r) = containsDoubleHyphen r := by
  rw [containsDoubleHyphen]
  intros
  simp_all

theorem containsDoubleHyphen_d_ne (c : Nat) (r : GoString) (h : c ≠ 45) :
    containsDoubleHyphen (45 :: c :: r) = containsDoubleHyphen (c :: r) := by
  rw [containsDoubleHyphen]
  intros
  simp_all

theorem collapseRuns_replace (n : Nat) : ∀ s : GoString, s.length ≤ n →
    collapseRuns (replaceDoubleHyphen s) = collapseRuns s ∧
      collapseRuns (45 :: replaceDoubleHyphen s) = collapseRuns (45 :: s) := by
  induction n with
  | zero =>
    intro s hs
    have : s = [] := List.length_eq_zero.1 (by omega)
    subst this
    exact ⟨rfl, rfl⟩
  | succ m ih =>
    intro s hs
    cases s with
    | nil => exact ⟨rfl, rfl⟩
    | cons x t =>
      have hlt : t.length ≤ m := by simpa using hs
      by_cases hx : x = 45
      · subst hx
        cases t with
        | nil => rw [replaceDoubleHyphen_single]; exact ⟨rfl, rfl⟩
        | cons y r =>
          by_cases hy : y = 45
          · subst hy
            have hr : r.length ≤ m := by
              simp only [List.length_cons] at hlt; omega
            obtain ⟨_, i2⟩ := ih r hr
            rw [replaceDoubleHyphen_dd]
            constructor
            · rw [i2, collapseRuns_dd]
            · rw [collapseRuns_dd, i2, collapseRuns_dd, collapseRuns_dd]
          · obtain ⟨_, i2⟩ := ih (y :: r) hlt
            rw [replaceDoubleHyphen_d_ne y r hy]
            constructor
            · rw [i2]
            · rw [collapseRuns_dd, i2, collapseRuns_dd]
      · obtain ⟨i1, _⟩ := ih t hlt
        rw [replaceDoubleHyphen_ne x t hx]
        constructor
        · rw [collapseRuns_ne x _ hx, collapseRuns_ne x _ hx, i1]
        · rw [collapseRuns_d_ne x _ hx, collapseRuns_d_ne x _ hx, collapseRuns_ne x _ hx,
            collapseRuns_ne x _ hx, i1]

theorem collapseRuns_of_none (s : GoString) (h : containsDoubleHyphen s = false) :
    collapseRuns s = s := by
  induction s with
  | nil => rfl
  | cons x t ih =>
    by_cases hx : x = 45
    · subst hx
      cases t with
      | nil => exact collapseRuns_single
      | cons y r =>
        by_cases hy : y = 45
        · subst hy
          rw [containsDoubleHyphen_dd] at h
          exact absurd h (by simp)
        · rw [containsDoubleHyphen_d_ne y r hy] at h
          rw [collapseRuns_d_ne y r hy, ih h]
    · rw [containsDoubleHyphen_ne x t hx] at h
      rw [collapseRuns_ne x t hx, ih h]

theorem collapseRuns_collapseLoop (fuel : Nat) (s : GoString) :
    collapseRuns (collapseLoop fuel s) = collapseRuns s := by
  induction fuel generalizing s with
  | zero => rfl
  | succ f ih =>
    unfold collapseLoop
    by_cases hc : containsDoubleHyphen s = true
    · rw [if_pos hc, ih, (collapseRuns_replace s.length s (Nat.le_refl _)).1]
    · rw [if_neg hc]

/-- The collapse loop of `cleanTag` collapses every run of `-` to one `-`. -/
theorem collapseHyphens_eq_collapseRuns (s : GoString) : collapseHyphens s = collapseRuns s := by
  have h1 := collapseRuns_of_none _ (collapseHyphens_done s)
  rw [← h1]
  exact collapseRuns_collapseLoop s.length s

theorem collapseRuns_sublist (s : GoString) : (collapseRuns s).Sublist s := by
  induction s with
  | nil => exact List.Sublist.slnil
  | cons x t ih =>
    by_cases hx : x = 45
    · subst hx
      cases t with
      | nil => rw [collapseRuns_single]
      | cons y r =>
        by_cases hy : y = 45
        · subst hy
          rw [collapseRuns_dd]
          exact ih.cons _
        · rw [collapseRuns_d_ne y r hy]
          exact ih.cons₂ _
    · rw [collapseRuns_ne x t hx]
      exact ih.cons₂ _

theorem containsDoubleHyphen_take (s : GoString) (n : Nat)
    (h : containsDoubleHyphen s = false) : containsDoubleHyphen (s.take n) = false := by
  induction s generalizing n with
  | nil => simpa using h
  | cons x t ih =>
    cases n with
    | zero => rfl
    | succ m =>
      rw [List.take_succ_cons]
      by_cases hx : x = 45
      · subst hx
        cases t with
        | nil => simp [containsDoubleHyphen]
        | cons y r =>
          by_cases hy : y = 45
          · subst hy
            rw [containsDoubleHyphen_dd] at h
            exact absurd h (by simp)
          · rw [containsDoubleHyphen_d_ne y r hy] at h
            cases m with
            | zero => simp [containsDoubleHyphen]
            | succ k =>
              rw [List.take_succ_cons, containsDoubleHyphen_d_ne y _ hy]
              have := ih (k + 1) h
              rw [List.take_succ_cons] at this
              exact this
      · rw [containsDoubleHyphen_ne x t hx] at h
        rw [containsDoubleHyphen_ne x _ hx]
        exact ih m h

theorem not_mem_replaceByte (old new : Nat) (s : GoString) (h : new ≠ old) :
    old ∉ replaceByte old new s := by
  unfold replaceByte
  intro hm
  obtain ⟨c, _, hc⟩ := List.mem_map.1 hm
  by_cases e : c = old
  · rw [if_pos e] at hc
    exact h hc
  · rw [if_neg e] at hc
    exact e hc

theorem not_mem_replaceByte_of_not_mem (x old new : Nat) (s : GoString) (hx : x ∉ s)
    (h : x ≠ new) : x ∉ replaceByte old new s := by
  unfold replaceByte
  intro hm
  obtain ⟨c, hcs, hc⟩ := List.mem_map.1 hm
  by_cases e : c = old
  · rw [if_pos e] at hc
    exact h hc.symm
  · rw [if_neg e] at hc
    exact hx (hc ▸ hcs)

/-- C26 as stated fails: `cleanTag` keeps a tab inside the text, keeps a
backslash, and removes the blank in front of the text instead of replacing it. -/
theorem cleanTag_whitespace_counterexample :
    cleanTag Unicode.ascii (str "a\tb") = str "a\tb" ∧ [9] ∈ spaceEncodings ∧
      9 ∈ cleanTag Unicode.ascii (str "a\tb") ∧
      cleanTag Unicode.ascii (str "a\\b") = str "a\\b" ∧
      cleanTag Unicode.ascii (str " a") = str "a" := by
  decide

/-- C26, amended: `cleanTag(s)` is `s` with the surrounding white space
trimmed, lower-cased, with every `/` and every space (U+0020) replaced by `-`,
every run of repeated `-` collapsed to a single `-`, and the result truncated
to 128 bytes; for every input the output holds no `/`, no space, no `--`, and
is at most 128 bytes long. -/
theorem cleanTag_spec (U : Unicode) (s : GoString) :
    cleanTag U s =
        (collapseRuns (replaceByte 32 45 (replaceByte 47 45 (ToLower U (TrimSpace s))))).take
          128 ∧
      47 ∉ cleanTag U s ∧ 32 ∉ cleanTag U s ∧ containsDoubleHyphen (cleanTag U s) = false ∧
      (cleanTag U s).length ≤ 128 := by
  have heq : cleanTag U s =
      (collapseRuns (replaceByte 32 45 (replaceByte 47 45 (ToLower U (TrimSpace s))))).take
        128 := by
    unfold cleanTag
    dsimp only
    by_cases hn : ToLower U (TrimSpace s) = []
    · rw [if_pos hn, hn]
      rfl
    · rw [if_neg hn, collapseHyphens_eq_collapseRuns]
      by_cases hl : (collapseRuns
          (replaceByte 32 45 (replaceByte 47 45 (ToLower U (TrimSpace s))))).length > 128
      · rw [if_pos hl]
      · rw [if_neg hl, List.take_of_length_le (by omega)]
  have hsub : (cleanTag U s).Sublist
      (replaceByte 32 45 (replaceByte 47 45 (ToLower U (TrimSpace s)))) := by
    rw [heq]
    exact (List.take_sublist _ _).trans (collapseRuns_sublist _)
  refine ⟨heq, ?_, ?_, ?_, ?_⟩
  · intro hm
    exact not_mem_replaceByte_of_not_mem 47 32 45 _
      (not_mem_replaceByte 47 45 _ (by decide)) (by decide) (hsub.subset hm)
  · intro hm
    exact not_mem_replaceByte 32 45 _ (by decide) (hsub.subset hm)
  · rw [heq]
    apply containsDoubleHyphen_take
    rw [← collapseHyphens_eq_collapseRuns]
    exact collapseHyphens_done _
  · rw [heq, List.length_take]
    omega

/-! ## Rendering and parsing a version -/

theorem digitsNat_formatNat (n : Nat) : digitsNat (formatNat n) = n := by
  induction n using Nat.strong_induction_on with
  | _ n ih =>
    by_cases h : n < 10
    · rw [formatNat_small n h]
      simp [digitsNat]
    · rw [formatNat_step n (by omega), digitsNat_append, ih (n / 10) (by omega)]
      omega

theorem numeral_formatInt (x : Int) (h : IsInt64 x) : IsInt64Numeral (formatInt x) x := by
  unfold IsInt64 at h
  unfold formatInt
  by_cases hx : x < 0
  · rw [if_pos hx]
    refine ⟨formatNat x.natAbs, formatNat_isDigits _, Or.inr ⟨rfl, ?_, ?_⟩⟩
    · rw [digitsNat_formatNat]; omega
    · rw [digitsNat_formatNat]; omega
  · rw [if_neg hx]
    refine ⟨formatNat x.natAbs, formatNat_isDigits _, Or.inl ⟨Or.inl rfl, ?_, ?_⟩⟩
    · rw [digitsNat_formatNat]; omega
    · rw [digitsNat_formatNat]; omega

/-- Parsing the rendering of a version gives the version back. -/
theorem Parse_String (v : Version) (h : v.Valid) : Parse v.String = some v :=
  (Parse_eq_some_iff _ v).2
    ⟨formatInt v.Major, formatInt v.Minor, formatInt v.Patch, rfl, numeral_formatInt _ h.1,
      numeral_formatInt _ h.2.1, numeral_formatInt _ h.2.2⟩

theorem formatInt_graphic (x : Int) : ∀ c ∈ formatInt x, 33 ≤ c ∧ c < 128 := by
  intro c hc
  unfold formatInt at hc
  have hd := (formatNat_isDigits x.natAbs).2
  by_cases hx : x < 0
  · rw [if_pos hx] at hc
    rcases List.mem_cons.1 hc with e | e
    · omega
    · have := hd c e
      unfold isDigit at this
      omega
  · rw [if_neg hx] at hc
    have := hd c hc
    unfold isDigit at this
    omega

theorem String_graphic (v : Version) : ∀ c ∈ v.String, 33 ≤ c ∧ c < 128 := by
  intro c hc
  unfold Version.String at hc
  simp only [List.mem_append, List.mem_singleton] at hc
  rcases hc with (((h | h) | h) | h) | h
  · exact formatInt_graphic _ c h
  · omega
  · exact formatInt_graphic _ c h
  · omega
  · exact formatInt_graphic _ c h

theorem String_ne_nil (v : Version) : v.String ≠ [] := by
  obtain ⟨c, t, hf, _⟩ := formatInt_head v.Major
  unfold Version.String
  rw [hf]
  simp

/-- Forecasting from the rendering of a version is incrementing the version. -/
theorem ForecastNext_String (v : Version) (bump : VersionType) (h : v.Valid) :
    ForecastNext v.String bump = some (v.Increment bump).String := by
  have hv : stripV v.String = v.String := by
    unfold stripV
    rw [if_neg (String_head v)]
  have hp : vPrefix v.String = [] := by
    unfold vPrefix
    rw [if_neg (String_head v)]
  rw [ForecastNext_eq, TrimSpace_graphic _ (String_graphic v), hv, hp, if_neg (String_ne_nil v),
    Parse_String v h]
  rfl

theorem Parse_valid (s : GoString) (v : Version) (h : Parse s = some v) : v.Valid := by
  obtain ⟨a, b, c, _, ha, hb, hc⟩ := (Parse_eq_some_iff s v).1 h
  have key : ∀ (t : GoString) (n : Int), IsInt64Numeral t n → IsInt64 n := by
    intro t n ht
    obtain ⟨d, _, h1⟩ := ht
    unfold IsInt64
    rcases h1 with ⟨_, hn, hlt⟩ | ⟨_, hn, hle⟩ <;> omega
  exact ⟨key a _ ha, key b _ hb, key c _ hc⟩

theorem GetLatestTag_valid (tags : Option (List GoString)) : (GetLatestTag tags).Valid := by
  have hz : (⟨0, 0, 0⟩ : Version).Valid := by decide
  cases tags with
  | none => exact hz
  | some names =>
    by_cases hn : names.filterMap Parse = []
    · have : GetLatestTag (some names) = ⟨0, 0, 0⟩ := by
        unfold GetLatestTag
        simp [hn]
      rw [this]
      exact hz
    · obtain ⟨hmem, _⟩ := GetLatestTag_max names hn
      obtain ⟨n, _, hp⟩ := List.mem_filterMap.1 hmem
      exact Parse_valid n _ hp

/-- C29: for every version `v` (its components in the range of `int`, the
non-negative ones in particular) and every bump kind,
`ForecastNext(v.String(), bump)` succeeds and is `v.Increment(bump).String()`;
hence the RC version `PrintSummary` computes from the latest tag is the
`NextVersion` it got from `GetNextVersion`, followed by `-` and the suffix,
the short SHA. -/
theorem forecast_paths_agree (v : Version) (bump : VersionType) (c : Context)
    (tags : Option (List GoString)) (hv : v.Valid) :
    ForecastNext v.String bump = some (v.Increment bump).String ∧
      (forecastStep c (some tags)).NextVersion = (GetNextVersion tags c.BumpType).2.String ∧
      ((c.IsMergeRequest || c.IsDefaultBranch) = true → c.ShortSHA ≠ [] →
        ForecastNextRC (GetNextVersion tags c.BumpType).1.String c.BumpType c.ShortSHA =
            some ((GetNextVersion tags c.BumpType).2.String ++ str "-" ++ c.ShortSHA) ∧
          (forecastStep c (some tags)).NextRCVersion =
            (forecastStep c (some tags)).NextVersion ++ str "-" ++ c.ShortSHA) := by
  have hrc : c.ShortSHA ≠ [] →
      ForecastNextRC (GetLatestTag tags).String c.BumpType c.ShortSHA =
        some (((GetLatestTag tags).Increment c.BumpType).String ++ str "-" ++ c.ShortSHA) := by
    intro hs
    rw [ForecastNextRC_eq, ForecastNext_String _ _ (GetLatestTag_valid tags)]
    simp [hs]
  refine ⟨ForecastNext_String v bump hv, ?_, ?_⟩
  · unfold forecastStep GetNextVersion
    dsimp only
    split_ifs with h1
    · cases ForecastNextRC (GetLatestTag tags).String c.BumpType c.ShortSHA <;> rfl
    · rfl
  · intro hm hs
    refine ⟨hrc hs, ?_⟩
    unfold forecastStep GetNextVersion
    dsimp only
    rw [if_pos (by simp only [hm, true_and, Bool.and_eq_true, decide_eq_true_eq]; exact hs),
      hrc hs]

/-- C29, at the version `1.2.3` with the Minor bump and at the default-branch
scenario run with the tags `1.2.3` and `1.10.0`. -/
theorem forecast_paths_agree_witness :
    (⟨1, 2, 3⟩ : Version).Valid ∧
      ForecastNext (str "1.2.3") Minor = some (str "1.3.0") ∧
      (forecastStep scenarioDefault (some (some [str "1.2.3", str "1.10.0"]))).NextVersion
        = str "1.10.1" ∧
      (forecastStep scenarioDefault (some (some [str "1.2.3", str "1.10.0"]))).NextRCVersion
        = str "1.10.1-abc12345" ∧
      ForecastNext (⟨1, 2, 3⟩ : Version).String Minor
        = some ((⟨1, 2, 3⟩ : Version).Increment Minor).String :=
  ⟨by decide, by decide, by decide, by decide,
    (forecast_paths_agree ⟨1, 2, 3⟩ Minor scenarioDefault (some [str "1.2.3", str "1.10.0"])
      (by decide)).1⟩

/-! ## A run that matches no fact of the classifier -/

theorem mem_specRefs_of_valid (U : Unicode) (env : Env) (ctx : Context) (flow : Flow)
    (base tag : GoString) (ht : tag ∈ candidateTags env ctx flow)
    (hv : validateTag (cleanTag U tag) = true) :
    base ++ str ":" ++ cleanTag U tag ∈ specRefs U env ctx flow base := by
  unfold specRefs
  rw [mem_dedupRefs, List.mem_filterMap]
  refine ⟨tag, ht, ?_⟩
  have hne : cleanTag U tag ≠ [] := by
    intro e
    rw [e] at hv
    exact absurd hv (by decide)
  unfold refOf
  rw [if_neg (by simp [hne, hv])]

/-- C30 as stated fails: the push to the branch `hotfix-1` with no registry
base has the four facts false and resolves to Default, and its default-branch
name `main` cleans to a valid tag, but the plan holds no ref and `Push` is
false; `BuildOptionsFromContext` rejects that context before it plans. -/
theorem unmatched_run_blank_counterexample :
    (unregisteredBranchRun.IsTag = false ∧ unregisteredBranchRun.IsMergeRequest = false ∧
        unregisteredBranchRun.IsDefaultBranch = false ∧
        unregisteredBranchRun.IsFeatureBranch = false) ∧
      ResolveFlow unregisteredBranchRun FlowAuto = FlowDefault ∧
      validateTag (cleanTag Unicode.ascii unregisteredBranchRun.DefaultBranch) = true ∧
      PlanBuild Unicode.ascii emptyEnv unregisteredBranchRun
        (ResolveFlow unregisteredBranchRun FlowAuto) = { Refs := [], Push := false } ∧
      BuildOptionsFromContext Unicode.ascii emptyEnv unregisteredBranchRun = none := by
  decide

/-- C30, amended: for a context with `IsTag`, `IsMergeRequest`,
`IsDefaultBranch` and `IsFeatureBranch` all false and the non-blank registry
base and application name `BuildOptionsFromContext` insists on,
`ResolveFlow(ctx, Auto)` is Default, the plan is that of the Default case, it
holds the ref of the default-branch name whenever that name cleans to a valid
tag, and `Push` is true; so are the refs and the push flag
`BuildOptionsFromContext` returns. -/
theorem unmatched_run_default (U : Unicode) (env : Env) (ctx : Context)
    (ht : ctx.IsTag = false) (hm : ctx.IsMergeRequest = false) (hd : ctx.IsDefaultBranch = false)
    (hf : ctx.IsFeatureBranch = false) (h1 : ¬WhitespaceOnly ctx.RegistryImage)
    (h2 : ¬WhitespaceOnly ctx.ApplicationName) :
    ResolveFlow ctx FlowAuto = FlowDefault ∧
      (PlanBuild U env ctx (ResolveFlow ctx FlowAuto)).Refs =
        dedupRefs (([ctx.ShortSHA, ctx.NextRCVersion, ctx.DefaultBranch]
          ++ latestIf env (str "SYAC_LATEST_ON_DEFAULT")).filterMap (refOf U (planBase ctx))) ∧
      (validateTag (cleanTag U ctx.DefaultBranch) = true →
        planBase ctx ++ str ":" ++ cleanTag U ctx.DefaultBranch
          ∈ (PlanBuild U env ctx (ResolveFlow ctx FlowAuto)).Refs) ∧
      (PlanBuild U env ctx (ResolveFlow ctx FlowAuto)).Push = true ∧
      (∀ opts, BuildOptionsFromContext U env ctx = some opts →
        opts.Push = true ∧
          opts.FullRefs = (PlanBuild U env ctx (ResolveFlow ctx FlowAuto)).Refs) := by
  have t1 := trimSpace_ne_nil _ h1
  have t2 := trimSpace_ne_nil _ h2
  have hflow : ResolveFlow ctx FlowAuto = FlowDefault := by
    simp [ResolveFlow, ht, hm, hd, hf]
  have hcand : candidateTags env ctx FlowDefault =
      [ctx.ShortSHA, ctx.NextRCVersion, ctx.DefaultBranch]
        ++ latestIf env (str "SYAC_LATEST_ON_DEFAULT") := by
    unfold candidateTags
    rw [if_neg (by decide), if_neg (by decide), if_pos rfl]
  have hpush : (PlanBuild U env ctx FlowDefault).Push = true := by
    rw [PlanBuild_push U env ctx FlowDefault t1 t2, if_neg]
    intro hc
    exact absurd hc.1 (by decide)
  rw [hflow]
  refine ⟨rfl, ?_, ?_, hpush, ?_⟩
  · rw [PlanBuild_refs U env ctx FlowDefault t1 t2]
    unfold specRefs
    rw [hcand]
  · intro hv
    rw [PlanBuild_refs U env ctx FlowDefault t1 t2]
    apply mem_specRefs_of_valid U env ctx FlowDefault _ _ _ hv
    rw [hcand]
    simp
  · intro opts ho
    unfold BuildOptionsFromContext at ho
    rw [if_neg t1, if_neg t2, hflow] at ho
    dsimp only at ho
    by_cases hl : (PlanBuild U env ctx FlowDefault).Refs.length = 0
    · rw [if_pos hl] at ho
      exact absurd ho (by simp)
    · rw [if_neg hl] at ho
      have := Option.some.inj ho
      rw [← this]
      exact ⟨hpush, rfl⟩

/-- C30, amended, at a push to the branch `hotfix-1`: the plan holds the ref of the
default branch `main`, which the planner's fallback case would leave out. -/
theorem unmatched_run_default_witness :
    (plainBranchRun.IsTag = false ∧ plainBranchRun.IsMergeRequest = false ∧
        plainBranchRun.IsDefaultBranch = false ∧ plainBranchRun.IsFeatureBranch = false ∧
        ¬WhitespaceOnly plainBranchRun.RegistryImage ∧
        ¬WhitespaceOnly plainBranchRun.ApplicationName) ∧
      PlanBuild Unicode.ascii emptyEnv plainBranchRun (ResolveFlow plainBranchRun FlowAuto) =
        { Refs := [str "registry.example.com/group/svc:abc12345",
            str "registry.example.com/group/svc:main"], Push := true } ∧
      (PlanBuild Unicode.ascii emptyEnv plainBranchRun FlowAuto).Refs =
        [str "registry.example.com/group/svc:abc12345"] ∧
      ResolveFlow plainBranchRun FlowAuto = FlowDefault :=
  ⟨⟨rfl, rfl, rfl, rfl, not_whitespaceOnly _ (by decide), not_whitespaceOnly _ (by decide)⟩,
    by decide, by decide,
    (unmatched_run_default Unicode.ascii emptyEnv plainBranchRun rfl rfl rfl rfl
      (not_whitespaceOnly _ (by decide)) (not_whitespaceOnly _ (by decide))).1⟩

end Syac
